import Mathlib

/-!
# Chess move generation and move application (`src/js/physics-engine.js`)

A shallow embedding of the classes `ChessPosition`, `ChessPiece` and `ChessBoard`.

* Coordinates are integers (`Int`).  The numbers of the code are IEEE doubles: every integer of
  magnitude up to 2^53 is a double and the sums of the code are exact in that range.  The
  generators are given twice: adding in `Int` (`ChessPiece.getValidMoves` and the functions it
  calls), and adding as the code does beyond that range, with `jsAdd` rounding to the nearest
  double (the namespace `Double`).  The two agree wherever the sums stay within 2^53
  (`double_getValidMoves_eq`, `double_getLineMoves_eq`): for a rook, bishop or queen on a
  board of width and height at most 2^53, for a pawn or a king on safe integers, and for a
  knight on coordinates of magnitude at most 2^53 − 2.
* A `ChessPiece` is a mutable JavaScript object that the board compares by reference
  (`p !== capturedPiece`).  The embedding gives every object a field `id`, its reference:
  two values denote the same object exactly when their `id`s agree.  `ChessBoard.allocated`
  counts the objects created by `addPiece`, so that each `new ChessPiece` gets a fresh `id`.
* Methods that mutate the board take the board and return the board after the call.
* The `while` loop of `getLineMoves` is run with a fuel; `none` means that the loop has not
  left within the fuel.
-/

namespace Chess

/-! ## Data model -/

/-- The class `ChessPosition`: a pair of coordinates. -/
structure ChessPosition where
  x : Int
  y : Int
deriving DecidableEq, Repr

/-- The six values of `ChessPiece.type`. -/
inductive PieceType where
  | peon
  | caballo
  | alfil
  | torre
  | reina
  | rey
deriving DecidableEq, Repr

/-- The two values of `ChessPiece.color`. -/
inductive Color where
  | blanca
  | negra
deriving DecidableEq, Repr

/-- The class `ChessPiece`; `id` is the reference of the object. -/
structure ChessPiece where
  id : Nat
  type : PieceType
  color : Color
  position : ChessPosition
  hasMoved : Bool
deriving DecidableEq, Repr

/-- The class `ChessBoard`; `selectedPiece` holds the reference of the selected object and
`allocated` the number of `ChessPiece` objects created so far. -/
structure ChessBoard where
  width : Int
  height : Int
  cellSize : Int
  pieces : List ChessPiece
  selectedPiece : Option Nat
  validMoves : List ChessPosition
  allocated : Nat
deriving DecidableEq, Repr

/-- The object literal `moveInfo` returned by a successful `movePiece`.  `piece` is the moved
object as it stands when `movePiece` returns. -/
structure MoveInfo where
  piece : ChessPiece
  fromPos : ChessPosition
  toPos : ChessPosition
  capturedPiece : Option ChessPiece
  isEnPassant : Bool
deriving DecidableEq, Repr

/-! ## `ChessPosition` and the board queries -/

/-- `ChessPosition.equals`. -/
def ChessPosition.equals (self other : ChessPosition) : Bool :=
  decide (self.x = other.x) && decide (self.y = other.y)

/-- `ChessBoard.isWithinBounds`. -/
def ChessBoard.isWithinBounds (board : ChessBoard) (pos : ChessPosition) : Bool :=
  decide (pos.x ≥ 0) && decide (pos.x < board.width) &&
    decide (pos.y ≥ 0) && decide (pos.y < board.height)

/-- `ChessBoard.getPieceAt`: the first piece of the list standing on `pos`. -/
def ChessBoard.getPieceAt (board : ChessBoard) (pos : ChessPosition) : Option ChessPiece :=
  board.pieces.find? (fun p => p.position.equals pos)

/-! ## Move generators -/

/-- `ChessPiece.getPawnMoves`, adding in `Int`: the code's sums for a pawn on safe integers
(`double_getPawnMoves_eq`); `Double.getPawnMoves` adds as the code does everywhere. -/
def ChessPiece.getPawnMoves (self : ChessPiece) (board : ChessBoard) : List ChessPosition :=
  let direction : Int := if self.color = Color.blanca then -1 else 1
  let startRow : Int := if self.color = Color.blanca then 6 else 1
  let oneForward : ChessPosition := ⟨self.position.x, self.position.y + direction⟩
  let moves : List ChessPosition :=
    if board.isWithinBounds oneForward && (board.getPieceAt oneForward).isNone then
      if self.position.y = startRow then
        let twoForward : ChessPosition := ⟨self.position.x, self.position.y + 2 * direction⟩
        if (board.getPieceAt twoForward).isNone then [oneForward, twoForward]
        else [oneForward]
      else [oneForward]
    else []
  let captures : List ChessPosition :=
    [⟨self.position.x - 1, self.position.y + direction⟩,
     ⟨self.position.x + 1, self.position.y + direction⟩]
  moves ++ captures.filter (fun capturePos =>
    board.isWithinBounds capturePos &&
      match board.getPieceAt capturePos with
      | some target => decide (target.color ≠ self.color)
      | none => false)

/-- The `while` loop of `getLineMoves` for one direction `(dx, dy)`, entered at `(x, y)`;
each test of the loop condition costs one unit of fuel.  The steps are added in `Int`: the
code's sums on a board of width and height at most 2^53 (`double_lineLoop_eq`);
`Double.lineLoop` adds as the code does everywhere. -/
def lineLoop (board : ChessBoard) (color : Color) (dx dy : Int) :
    Nat → Int → Int → Option (List ChessPosition)
  | 0, _, _ => none
  | fuel + 1, x, y =>
    if board.isWithinBounds ⟨x, y⟩ then
      match board.getPieceAt ⟨x, y⟩ with
      | none => (lineLoop board color dx dy fuel (x + dx) (y + dy)).map (fun rest => ⟨x, y⟩ :: rest)
      | some target => if target.color ≠ color then some [⟨x, y⟩] else some []
    else some []

/-- The `for` loop of `getLineMoves` over the directions, each `while` loop run with `fuel`. -/
def getLineMovesFuel (fuel : Nat) (self : ChessPiece) (board : ChessBoard) :
    List (Int × Int) → Option (List ChessPosition)
  | [] => some []
  | dir :: rest =>
    match lineLoop board self.color dir.1 dir.2 fuel
        (self.position.x + dir.1) (self.position.y + dir.2) with
    | none => none
    | some line => (getLineMovesFuel fuel self board rest).map (fun more => line ++ more)

/-- Fuel that lets every `while` loop with a non-zero direction leave: a loop stays on the
board for at most `max width height` rounds and then tests its condition once more. -/
def ChessBoard.scanFuel (board : ChessBoard) : Nat :=
  (max board.width board.height).toNat + 1

/-- `ChessPiece.getLineMoves`; `none` when a `while` loop does not leave within `scanFuel`. -/
def ChessPiece.getLineMoves (self : ChessPiece) (board : ChessBoard)
    (directions : List (Int × Int)) : Option (List ChessPosition) :=
  getLineMovesFuel board.scanFuel self board directions

/-- The `directions` of `getRookMoves`. -/
def rookDirections : List (Int × Int) := [(0, -1), (0, 1), (-1, 0), (1, 0)]

/-- The `directions` of `getBishopMoves`. -/
def bishopDirections : List (Int × Int) := [(1, 1), (1, -1), (-1, 1), (-1, -1)]

/-- The `directions` of `getQueenMoves`. -/
def queenDirections : List (Int × Int) :=
  [(0, -1), (0, 1), (-1, 0), (1, 0), (1, 1), (1, -1), (-1, 1), (-1, -1)]

/-- `ChessPiece.getRookMoves`. -/
def ChessPiece.getRookMoves (self : ChessPiece) (board : ChessBoard) : List ChessPosition :=
  (self.getLineMoves board rookDirections).getD []

/-- `ChessPiece.getBishopMoves`. -/
def ChessPiece.getBishopMoves (self : ChessPiece) (board : ChessBoard) : List ChessPosition :=
  (self.getLineMoves board bishopDirections).getD []

/-- `ChessPiece.getQueenMoves`. -/
def ChessPiece.getQueenMoves (self : ChessPiece) (board : ChessBoard) : List ChessPosition :=
  (self.getLineMoves board queenDirections).getD []

/-- The loop body shared by `getKnightMoves` and `getKingMoves`: the offsets whose square is
within bounds and empty or held by the other colour.  The offsets are added in `Int`: the
code's sums from safe coordinates (`double_offsetMoves_eq`); `Double.offsetMoves` adds as the
code does everywhere. -/
def offsetMoves (self : ChessPiece) (board : ChessBoard) (offsets : List (Int × Int)) :
    List ChessPosition :=
  (offsets.map (fun offset =>
      (⟨self.position.x + offset.1, self.position.y + offset.2⟩ : ChessPosition))).filter
    (fun newPos =>
      board.isWithinBounds newPos &&
        match board.getPieceAt newPos with
        | none => true
        | some target => decide (target.color ≠ self.color))

/-- The `offsets` of `getKnightMoves`. -/
def knightOffsets : List (Int × Int) :=
  [(1, 2), (1, -2), (-1, 2), (-1, -2), (2, 1), (2, -1), (-2, 1), (-2, -1)]

/-- The `offsets` of `getKingMoves`. -/
def kingOffsets : List (Int × Int) :=
  [(-1, -1), (0, -1), (1, -1), (-1, 0), (1, 0), (-1, 1), (0, 1), (1, 1)]

/-- `ChessPiece.getKnightMoves`. -/
def ChessPiece.getKnightMoves (self : ChessPiece) (board : ChessBoard) : List ChessPosition :=
  offsetMoves self board knightOffsets

/-- `ChessPiece.getKingMoves`. -/
def ChessPiece.getKingMoves (self : ChessPiece) (board : ChessBoard) : List ChessPosition :=
  offsetMoves self board kingOffsets

/-- `ChessPiece.getValidMoves`; the `default` branch of the `switch` has no value of
`PieceType` left. -/
def ChessPiece.getValidMoves (self : ChessPiece) (board : ChessBoard) : List ChessPosition :=
  match self.type with
  | PieceType.peon => self.getPawnMoves board
  | PieceType.torre => self.getRookMoves board
  | PieceType.alfil => self.getBishopMoves board
  | PieceType.caballo => self.getKnightMoves board
  | PieceType.reina => self.getQueenMoves board
  | PieceType.rey => self.getKingMoves board

/-! ## Board construction -/

/-- `ChessBoard.addPiece`: a new object, with `hasMoved = false`, pushed on the list. -/
def ChessBoard.addPiece (board : ChessBoard) (type : PieceType) (color : Color) (x y : Int) :
    ChessBoard :=
  { board with
    pieces := board.pieces ++ [⟨board.allocated, type, color, ⟨x, y⟩, false⟩]
    allocated := board.allocated + 1 }

/-- The loop `for (let i = 0; i < 8; i++) this.addPiece('peon', color, i, y)`. -/
def ChessBoard.addPawnRow (board : ChessBoard) (color : Color) (y : Int) : ChessBoard :=
  (List.range 8).foldl (fun b i => b.addPiece PieceType.peon color (i : Int) y) board

/-- `ChessBoard.initializeBoard`. -/
def ChessBoard.initializeBoard (board : ChessBoard) : ChessBoard :=
  let b : ChessBoard := { board with pieces := [] }
  let b := b.addPiece PieceType.torre Color.negra 0 0
  let b := b.addPiece PieceType.caballo Color.negra 1 0
  let b := b.addPiece PieceType.alfil Color.negra 2 0
  let b := b.addPiece PieceType.reina Color.negra 3 0
  let b := b.addPiece PieceType.rey Color.negra 4 0
  let b := b.addPiece PieceType.alfil Color.negra 5 0
  let b := b.addPiece PieceType.caballo Color.negra 6 0
  let b := b.addPiece PieceType.torre Color.negra 7 0
  let b := b.addPawnRow Color.negra 1
  let b := b.addPawnRow Color.blanca 6
  let b := b.addPiece PieceType.torre Color.blanca 0 7
  let b := b.addPiece PieceType.caballo Color.blanca 1 7
  let b := b.addPiece PieceType.alfil Color.blanca 2 7
  let b := b.addPiece PieceType.reina Color.blanca 3 7
  let b := b.addPiece PieceType.rey Color.blanca 4 7
  let b := b.addPiece PieceType.alfil Color.blanca 5 7
  let b := b.addPiece PieceType.caballo Color.blanca 6 7
  b.addPiece PieceType.torre Color.blanca 7 7

/-- The constructor of `ChessBoard`. -/
def ChessBoard.constructor (width height cellSize : Int) : ChessBoard :=
  ChessBoard.initializeBoard
    { width := width, height := height, cellSize := cellSize, pieces := [],
      selectedPiece := none, validMoves := [], allocated := 0 }

/-- The board of `new ChessBoard()`: the default arguments 8, 8 and 60. -/
def ChessBoard.default : ChessBoard := ChessBoard.constructor 8 8 60

/-! ## Move application -/

/-- `ChessBoard.selectPiece`, for a piece that is not `null`. -/
def ChessBoard.selectPiece (board : ChessBoard) (piece : ChessPiece) : ChessBoard :=
  { board with selectedPiece := some piece.id, validMoves := piece.getValidMoves board }

/-- The assignments `piece.position = toPos; piece.hasMoved = true` seen from the list: the
entry that is the object `piece` changes, every other entry stays. -/
def relocate (piece : ChessPiece) (toPos : ChessPosition) (p : ChessPiece) : ChessPiece :=
  if p.id = piece.id then { p with position := toPos, hasMoved := true } else p

/-- The capture step of `movePiece` (the `if (capturedPiece) … else if (piece.type === 'peon')`
statement): the piece list after it, `moveInfo.capturedPiece` and `moveInfo.isEnPassant`. -/
def captureStep (board : ChessBoard) (piece : ChessPiece) (toPos : ChessPosition) :
    List ChessPiece × Option ChessPiece × Bool :=
  match board.getPieceAt toPos with
  | some capturedPiece =>
    (board.pieces.filter (fun p => p.id ≠ capturedPiece.id), some capturedPiece, false)
  | none =>
    if piece.type = PieceType.peon then
      let deltaX := toPos.x - piece.position.x
      let deltaY := toPos.y - piece.position.y
      if deltaX.natAbs = 1 ∧ deltaY.natAbs = 1 then
        let capturePos : ChessPosition := ⟨piece.position.x + deltaX, piece.position.y⟩
        match board.getPieceAt capturePos with
        | some enPassantPiece =>
          if enPassantPiece.type = PieceType.peon ∧ enPassantPiece.color ≠ piece.color then
            (board.pieces.filter (fun p => p.id ≠ enPassantPiece.id), some enPassantPiece, true)
          else (board.pieces, none, false)
        | none => (board.pieces, none, false)
      else (board.pieces, none, false)
    else (board.pieces, none, false)

/-- `ChessBoard.movePiece`: the returned value (`none` for `false`) and the board after the
call. -/
def ChessBoard.movePiece (board : ChessBoard) (piece : ChessPiece) (toPos : ChessPosition) :
    Option MoveInfo × ChessBoard :=
  let validMoves := piece.getValidMoves board
  if !validMoves.any (fun m => m.equals toPos) then (none, board)
  else
    let step := captureStep board piece toPos
    (some
      { piece := { piece with position := toPos, hasMoved := true }
        fromPos := ⟨piece.position.x, piece.position.y⟩
        toPos := toPos
        capturedPiece := step.2.1
        isEnPassant := step.2.2 },
     { board with
       pieces := step.1.map (relocate piece toPos)
       selectedPiece := none
       validMoves := [] })

/-- The boards that `new ChessBoard()` and calls of `movePiece` lead to. -/
inductive Reachable : ChessBoard → Prop
  | start : Reachable ChessBoard.default
  | move {board : ChessBoard} (piece : ChessPiece) (toPos : ChessPosition) :
      Reachable board → Reachable (board.movePiece piece toPos).2

/-- No two entries of the piece list stand on the same square. -/
def ChessBoard.OnePiecePerSquare (board : ChessBoard) : Prop :=
  (board.pieces.map (fun p => p.position)).Nodup

/-- The entries of the piece list are distinct objects: no reference occurs twice.  An object
listed twice would stand on one square twice, so for JavaScript states this follows from
`OnePiecePerSquare`; it is stated apart because values of the embedding may repeat an `id`. -/
def ChessBoard.DistinctObjects (board : ChessBoard) : Prop :=
  (board.pieces.map (fun p => p.id)).Nodup

/-- Every piece of the list stands within bounds. -/
def ChessBoard.AllWithinBounds (board : ChessBoard) : Prop :=
  ∀ p ∈ board.pieces, board.isWithinBounds p.position = true

/-! ## Vocabulary of the statements -/

/-- The square `j` steps away from `(x, y)` in the direction `(dx, dy)`. -/
def stepFrom (x y dx dy : Int) (j : Nat) : ChessPosition :=
  ⟨x + (j : Int) * dx, y + (j : Int) * dy⟩

/-- The square `j` steps away from the piece in the direction `dir`. -/
def ChessPiece.ray (self : ChessPiece) (dir : Int × Int) (j : Nat) : ChessPosition :=
  stepFrom self.position.x self.position.y dir.1 dir.2 j

/-- A bound on the rounds a `while` loop at `(x, y)` can still stay on the board. -/
def ChessBoard.remaining (board : ChessBoard) (dx dy x y : Int) : Nat :=
  if dx > 0 then (board.width - x).toNat
  else if dx < 0 then (x + 1).toNat
  else if dy > 0 then (board.height - y).toNat
  else (y + 1).toNat

/-- What a finished `while` loop has pushed: the `n` empty squares on the board it walked
over, then the square it stopped at when that square is on the board and holds the other
colour. -/
def ScanOutcome (board : ChessBoard) (color : Color) (dx dy x y : Int) (n : Nat)
    (line : List ChessPosition) : Prop :=
  (∀ i, i < n → board.isWithinBounds (stepFrom x y dx dy i) = true ∧
      board.getPieceAt (stepFrom x y dx dy i) = none) ∧
  ((board.isWithinBounds (stepFrom x y dx dy n) = false ∧
      line = (List.range n).map (stepFrom x y dx dy)) ∨
   (board.isWithinBounds (stepFrom x y dx dy n) = true ∧
      ∃ t, board.getPieceAt (stepFrom x y dx dy n) = some t ∧
        line = (List.range n).map (stepFrom x y dx dy) ++
          (if t.color ≠ color then [stepFrom x y dx dy n] else [])))

/-- Every direction of the list is one of the eight unit directions of `getQueenMoves`. -/
def UnitDirections (directions : List (Int × Int)) : Prop :=
  ∀ dir ∈ directions, dir ∈ queenDirections

/-- The constant `direction` of `getPawnMoves`: white pawns go up (`y` falls). -/
def ChessPiece.direction (self : ChessPiece) : Int :=
  if self.color = Color.blanca then -1 else 1

/-- The constant `startRow` of `getPawnMoves`. -/
def ChessPiece.startRow (self : ChessPiece) : Int :=
  if self.color = Color.blanca then 6 else 1

/-! ## Boards used as examples -/

/-- A white pawn on d5. -/
def whitePawnD5 : ChessPiece := ⟨0, PieceType.peon, Color.blanca, ⟨3, 3⟩, true⟩

/-- A black pawn on e5. -/
def blackPawnE5 : ChessPiece := ⟨1, PieceType.peon, Color.negra, ⟨4, 3⟩, true⟩

/-- An 8x8 board that holds a white pawn on d5 and a black pawn on e5; e6 is empty. -/
def enPassantBoard : ChessBoard :=
  ⟨8, 8, 60, [whitePawnD5, blackPawnE5], none, [], 2⟩

/-- A white rook on a1. -/
def whiteRookA1 : ChessPiece := ⟨0, PieceType.torre, Color.blanca, ⟨0, 7⟩, false⟩

/-- A black pawn on a4. -/
def blackPawnA4 : ChessPiece := ⟨1, PieceType.peon, Color.negra, ⟨0, 4⟩, true⟩

/-- A white knight on d1. -/
def whiteKnightD1 : ChessPiece := ⟨2, PieceType.caballo, Color.blanca, ⟨3, 7⟩, false⟩

/-- An 8x8 board with a white rook on a1, a black pawn on a4 and a white knight on d1. -/
def rookBoard : ChessBoard :=
  ⟨8, 8, 60, [whiteRookA1, blackPawnA4, whiteKnightD1], none, [], 3⟩

/-- The white pawn on e2 of the starting position: the 21st object of `initializeBoard`. -/
def whitePawnE2 : ChessPiece := ⟨20, PieceType.peon, Color.blanca, ⟨4, 6⟩, false⟩

/-- The board of `new ChessBoard(4, 8)`.  The layout of `initializeBoard` has files 4..7, which
this board does not have. -/
def narrowStart : ChessBoard := ChessBoard.constructor 4 8 60

/-- `narrowStart` after the white pawn has gone from c2 to c4. -/
def narrowAfterPawn : ChessBoard :=
  (narrowStart.movePiece ⟨18, PieceType.peon, Color.blanca, ⟨2, 6⟩, false⟩ ⟨2, 4⟩).2

/-- `narrowAfterPawn` after the white queen has gone from d1 to a4. -/
def narrowAfterQueen : ChessBoard :=
  (narrowAfterPawn.movePiece ⟨27, PieceType.reina, Color.blanca, ⟨3, 7⟩, false⟩ ⟨0, 4⟩).2

/-- `narrowAfterQueen` after the white queen has taken the black pawn on d7. -/
def narrowBoard : ChessBoard :=
  (narrowAfterQueen.movePiece ⟨27, PieceType.reina, Color.blanca, ⟨0, 4⟩, true⟩ ⟨3, 1⟩).2

/-- The white queen of `narrowBoard`, on d7. -/
def whiteQueenD7 : ChessPiece := ⟨27, PieceType.reina, Color.blanca, ⟨3, 1⟩, true⟩

/-- The black pawn of `initializeBoard` on file 4 of rank 1. -/
def blackPawnE7 : ChessPiece := ⟨12, PieceType.peon, Color.negra, ⟨4, 1⟩, false⟩

/-! ## The starting layout as the specification words it -/

/-- The back rank: rook, knight, bishop, queen, king, bishop, knight, rook. -/
def backRank : List PieceType :=
  [PieceType.torre, PieceType.caballo, PieceType.alfil, PieceType.reina, PieceType.rey,
   PieceType.alfil, PieceType.caballo, PieceType.torre]

/-- The starting layout, kind, colour and square of each piece: the black back rank on files
0..7 of rank 0, eight black pawns on rank 1, eight white pawns on rank 6 and the white back
rank on files 0..7 of rank 7. -/
def startingLayout : List (PieceType × Color × ChessPosition) :=
  backRank.enum.map (fun it => (it.2, Color.negra, (⟨(it.1 : Int), 0⟩ : ChessPosition))) ++
  (List.range 8).map (fun i => (PieceType.peon, Color.negra, (⟨(i : Int), 1⟩ : ChessPosition))) ++
  (List.range 8).map (fun i => (PieceType.peon, Color.blanca, (⟨(i : Int), 6⟩ : ChessPosition))) ++
  backRank.enum.map (fun it => (it.2, Color.blanca, (⟨(it.1 : Int), 7⟩ : ChessPosition)))

/-- Kind, colour, square and `hasMoved` flag of a piece: the object without its reference. -/
def ChessPiece.state (p : ChessPiece) : PieceType × Color × ChessPosition × Bool :=
  (p.type, p.color, p.position, p.hasMoved)

/-! ## Sequences of calls -/

/-- The board after a sequence of calls `movePiece(piece, toPos)`, whatever each returns. -/
def ChessBoard.movePieces (board : ChessBoard) : List (ChessPiece × ChessPosition) → ChessBoard
  | [] => board
  | call :: rest => ((board.movePiece call.1 call.2).2).movePieces rest

/-! ## Boards of other heights -/

/-- The board of `new ChessBoard(8, 3)`: ranks 0, 1 and 2. -/
def shortBoard : ChessBoard := ChessBoard.constructor 8 3 60

/-- The black pawn of `initializeBoard` on file 0 of rank 1: the 9th object. -/
def blackPawnA7 : ChessPiece := ⟨8, PieceType.peon, Color.negra, ⟨0, 1⟩, false⟩

/-- The board of `new ChessBoard(8, 10)`: ranks 0 to 9. -/
def tallBoard : ChessBoard := ChessBoard.constructor 8 10 60

/-! ## Notation

A JavaScript string is read as the Lean string of its code units; a coordinate that JavaScript
computes as `NaN` makes the result `none`. -/

/-- `parseInt` of a string of one character: the digit's value, `NaN` (`none`) otherwise. -/
def parseIntChar (c : Char) : Option Int :=
  if c.isDigit then some ((c.toNat : Int) - 48) else none

/-- `ChessPosition.fromNotation`: `charCodeAt(0) - 97` and `8 - parseInt(text[1])`. -/
def ChessPosition.fromNotation (text : String) : Option ChessPosition :=
  match text.data with
  | c0 :: c1 :: _ =>
    let col : Int := (c0.toNat : Int) - 97
    match parseIntChar c1 with
    | some digit => some ⟨col, 8 - digit⟩
    | none => none
  | _ => none

/-- `ChessPosition.toNotation`: the character of code `x + 97`, then `8 - y` in decimal.  A code
that is a lone surrogate (0xD800 to 0xDFFF) has no `Char` and is not modelled. -/
def ChessPosition.toNotation (self : ChessPosition) : String :=
  let col := String.singleton (Char.ofNat ((self.x + 97) % 65536).toNat)
  let row := 8 - self.y
  col ++ toString row

/-! ## A pawn capture and a piece that is not on the board -/

/-- A black pawn on e6. -/
def blackPawnE6 : ChessPiece := ⟨1, PieceType.peon, Color.negra, ⟨4, 2⟩, true⟩

/-- An 8x8 board that holds a white pawn on d5 and a black pawn on e6. -/
def pawnCaptureBoard : ChessBoard :=
  ⟨8, 8, 60, [whitePawnD5, blackPawnE6], none, [], 2⟩

/-- A white queen on e4 that is not in the list of the starting position: an object made by
`new ChessPiece('reina', 'blanca', new ChessPosition(4, 4))`. -/
def looseQueenE4 : ChessPiece := ⟨32, PieceType.reina, Color.blanca, ⟨4, 4⟩, false⟩

/-! ## The lines of `getLineMoves` -/

/-- What `getLineMoves` has pushed direction by direction: `lines` holds one line for each
direction, in the order of the list, each the outcome of the `while` loop of its direction,
entered on the square next to the piece. -/
def LinesOutcome (board : ChessBoard) (self : ChessPiece) (directions : List (Int × Int))
    (lines : List (List ChessPosition)) : Prop :=
  List.Forall₂
    (fun dir line => ∃ n, ScanOutcome board self.color dir.1 dir.2
      (self.position.x + dir.1) (self.position.y + dir.2) n line)
    directions lines

/-! ## Coordinates as IEEE doubles

The coordinates of the code are JavaScript numbers, IEEE doubles.  Every integer of magnitude
up to 2^53 is a double and a sum in that range is exact, so the generators above, which add in
`Int`, are the code's generators as long as every sum stays in that range.  The definitions of
this section are the same generators with the addition of doubles on integer values, `jsAdd`:
beyond 2^53 a sum is rounded to the nearest double, ties to the even significand.  The
exponent is taken unbounded: the value `Infinity`, reached from 2^1024 on, is not modelled. -/

/-- The integer 2^53: up to this magnitude every integer is a double. -/
def maxSafe : Int := 9007199254740992

/-- The number of low bits that a double drops from an integer of magnitude `m`: the number of
halvings that bring `m` below 2^53. -/
def lostBits : Nat → Nat → Nat
  | 0, _ => 0
  | fuel + 1, m => if m < 9007199254740992 then 0 else lostBits fuel (m / 2) + 1

/-- The magnitude of the double nearest to an integer of magnitude `m`, ties to even. -/
def roundMagnitude (m : Nat) : Nat :=
  if m ≤ 9007199254740992 then m
  else
    let s := lostBits m m
    let q := m / 2 ^ s
    let r := m % 2 ^ s
    let half := 2 ^ s / 2
    if r > half ∨ (r = half ∧ q % 2 = 1) then (q + 1) * 2 ^ s else q * 2 ^ s

/-- The double nearest to the integer `n`. -/
def roundDouble (n : Int) : Int :=
  if n < 0 then -((roundMagnitude n.natAbs : Nat) : Int) else ((roundMagnitude n.natAbs : Nat) : Int)

/-- The sum `a + b` of JavaScript, for doubles `a` and `b` with integer values. -/
def jsAdd (a b : Int) : Int := roundDouble (a + b)

/-- A coordinate from which every step of at most `reach` is exact: its magnitude is at most
2^53 − `reach`.  With `reach = 1` these are the safe integers of JavaScript. -/
def SafeCoordinate (reach n : Int) : Prop := -maxSafe + reach ≤ n ∧ n ≤ maxSafe - reach

/-- The boards and pieces on which the sums of the piece's generator stay among the integers
that are doubles: a pawn or a king on safe integers, a knight on coordinates of magnitude
at most 2^53 − 2, a rook, bishop or queen on a board of width and height at most 2^53. -/
def ExactRange (board : ChessBoard) (self : ChessPiece) : Prop :=
  match self.type with
  | PieceType.peon => SafeCoordinate 1 self.position.x ∧ SafeCoordinate 1 self.position.y
  | PieceType.rey => SafeCoordinate 1 self.position.x ∧ SafeCoordinate 1 self.position.y
  | PieceType.caballo => SafeCoordinate 2 self.position.x ∧ SafeCoordinate 2 self.position.y
  | PieceType.torre => board.width ≤ maxSafe ∧ board.height ≤ maxSafe
  | PieceType.alfil => board.width ≤ maxSafe ∧ board.height ≤ maxSafe
  | PieceType.reina => board.width ≤ maxSafe ∧ board.height ≤ maxSafe

namespace Double

/-- `ChessPiece.getPawnMoves` with the addition of doubles. -/
def getPawnMoves (self : ChessPiece) (board : ChessBoard) : List ChessPosition :=
  let direction : Int := if self.color = Color.blanca then -1 else 1
  let startRow : Int := if self.color = Color.blanca then 6 else 1
  let oneForward : ChessPosition := ⟨self.position.x, jsAdd self.position.y direction⟩
  let moves : List ChessPosition :=
    if board.isWithinBounds oneForward && (board.getPieceAt oneForward).isNone then
      if self.position.y = startRow then
        let twoForward : ChessPosition :=
          ⟨self.position.x, jsAdd self.position.y (2 * direction)⟩
        if (board.getPieceAt twoForward).isNone then [oneForward, twoForward]
        else [oneForward]
      else [oneForward]
    else []
  let captures : List ChessPosition :=
    [⟨jsAdd self.position.x (-1), jsAdd self.position.y direction⟩,
     ⟨jsAdd self.position.x 1, jsAdd self.position.y direction⟩]
  moves ++ captures.filter (fun capturePos =>
    board.isWithinBounds capturePos &&
      match board.getPieceAt capturePos with
      | some target => decide (target.color ≠ self.color)
      | none => false)

/-- The `while` loop of `getLineMoves` with the addition of doubles. -/
def lineLoop (board : ChessBoard) (color : Color) (dx dy : Int) :
    Nat → Int → Int → Option (List ChessPosition)
  | 0, _, _ => none
  | fuel + 1, x, y =>
    if board.isWithinBounds ⟨x, y⟩ then
      match board.getPieceAt ⟨x, y⟩ with
      | none =>
        (lineLoop board color dx dy fuel (jsAdd x dx) (jsAdd y dy)).map
          (fun rest => ⟨x, y⟩ :: rest)
      | some target => if target.color ≠ color then some [⟨x, y⟩] else some []
    else some []

/-- The `for` loop of `getLineMoves` with the addition of doubles. -/
def getLineMovesFuel (fuel : Nat) (self : ChessPiece) (board : ChessBoard) :
    List (Int × Int) → Option (List ChessPosition)
  | [] => some []
  | dir :: rest =>
    match lineLoop board self.color dir.1 dir.2 fuel
        (jsAdd self.position.x dir.1) (jsAdd self.position.y dir.2) with
    | none => none
    | some line => (getLineMovesFuel fuel self board rest).map (fun more => line ++ more)

/-- `ChessPiece.getLineMoves` with the addition of doubles. -/
def getLineMoves (self : ChessPiece) (board : ChessBoard) (directions : List (Int × Int)) :
    Option (List ChessPosition) :=
  getLineMovesFuel board.scanFuel self board directions

/-- `ChessPiece.getRookMoves` with the addition of doubles; `none` when a loop does not
leave. -/
def getRookMoves (self : ChessPiece) (board : ChessBoard) : Option (List ChessPosition) :=
  getLineMoves self board rookDirections

/-- `ChessPiece.getBishopMoves` with the addition of doubles; `none` when a loop does not
leave. -/
def getBishopMoves (self : ChessPiece) (board : ChessBoard) : Option (List ChessPosition) :=
  getLineMoves self board bishopDirections

/-- `ChessPiece.getQueenMoves` with the addition of doubles; `none` when a loop does not
leave. -/
def getQueenMoves (self : ChessPiece) (board : ChessBoard) : Option (List ChessPosition) :=
  getLineMoves self board queenDirections

/-- The loop body of `getKnightMoves` and `getKingMoves` with the addition of doubles. -/
def offsetMoves (self : ChessPiece) (board : ChessBoard) (offsets : List (Int × Int)) :
    List ChessPosition :=
  (offsets.map (fun offset =>
      (⟨jsAdd self.position.x offset.1, jsAdd self.position.y offset.2⟩ :
        ChessPosition))).filter
    (fun newPos =>
      board.isWithinBounds newPos &&
        match board.getPieceAt newPos with
        | none => true
        | some target => decide (target.color ≠ self.color))

/-- `ChessPiece.getKnightMoves` with the addition of doubles. -/
def getKnightMoves (self : ChessPiece) (board : ChessBoard) : List ChessPosition :=
  offsetMoves self board knightOffsets

/-- `ChessPiece.getKingMoves` with the addition of doubles. -/
def getKingMoves (self : ChessPiece) (board : ChessBoard) : List ChessPosition :=
  offsetMoves self board kingOffsets

/-- `ChessPiece.getValidMoves` with the addition of doubles; `none` when a loop of the
generator does not leave. -/
def getValidMoves (self : ChessPiece) (board : ChessBoard) : Option (List ChessPosition) :=
  match self.type with
  | PieceType.peon => some (getPawnMoves self board)
  | PieceType.torre => getRookMoves self board
  | PieceType.alfil => getBishopMoves self board
  | PieceType.caballo => some (getKnightMoves self board)
  | PieceType.reina => getQueenMoves self board
  | PieceType.rey => some (getKingMoves self board)

end Double

/-! ## Boards with coordinates from 2^53 on -/

/-- A white knight on file 0 of rank 2^53. -/
def farKnight : ChessPiece := ⟨0, PieceType.caballo, Color.blanca, ⟨0, 9007199254740992⟩, false⟩

/-- A board of width 8 and height 2^54 that holds `farKnight` alone. -/
def farKnightBoard : ChessBoard := ⟨8, 18014398509481984, 60, [farKnight], none, [], 1⟩

/-- A black pawn on file 1 of rank 2^53. -/
def farBlackPawn : ChessPiece := ⟨0, PieceType.peon, Color.negra, ⟨1, 9007199254740992⟩, true⟩

/-- A white pawn on file 0 of rank 2^53. -/
def farWhitePawn : ChessPiece := ⟨1, PieceType.peon, Color.blanca, ⟨0, 9007199254740992⟩, true⟩

/-- A board of width 8 and height 2^54 that holds the two pawns side by side. -/
def farPawnBoard : ChessBoard :=
  ⟨8, 18014398509481984, 60, [farBlackPawn, farWhitePawn], none, [], 2⟩

/-- A white king on file 2^53 of rank 3. -/
def farKing : ChessPiece := ⟨0, PieceType.rey, Color.blanca, ⟨9007199254740992, 3⟩, false⟩

/-- A board of width 2^54 and height 8 that holds `farKing` alone. -/
def farKingBoard : ChessBoard := ⟨18014398509481984, 8, 60, [farKing], none, [], 1⟩

/-- A white rook on file 2^53 − 2 of rank 3. -/
def farRook : ChessPiece := ⟨0, PieceType.torre, Color.blanca, ⟨9007199254740990, 3⟩, false⟩

/-- A white pawn on the square left of `farRook`. -/
def farRookGuard : ChessPiece :=
  ⟨1, PieceType.peon, Color.blanca, ⟨9007199254740989, 3⟩, true⟩

/-- A board of width 2^53 + 4 and height 8 that holds `farRook` and the pawn on its left. -/
def farRookBoard : ChessBoard :=
  ⟨9007199254740996, 8, 60, [farRook, farRookGuard], none, [], 2⟩

/-! # Lemmas -/

/-! ## Basic facts about the queries -/

theorem ChessPosition.equals_iff (a b : ChessPosition) : a.equals b = true ↔ a = b := by
  cases a; cases b; simp [ChessPosition.equals]

theorem any_equals_iff (moves : List ChessPosition) (d : ChessPosition) :
    moves.any (fun m => m.equals d) = true ↔ d ∈ moves := by
  simp only [List.any_eq_true, ChessPosition.equals_iff]
  constructor
  · rintro ⟨m, hm, rfl⟩; exact hm
  · intro h; exact ⟨d, h, rfl⟩

theorem getPieceAt_some {board : ChessBoard} {pos : ChessPosition} {q : ChessPiece}
    (h : board.getPieceAt pos = some q) : q ∈ board.pieces ∧ q.position = pos := by
  unfold ChessBoard.getPieceAt at h
  have h2 := List.find?_some h
  exact ⟨List.mem_of_find?_eq_some h, (ChessPosition.equals_iff _ _).1 h2⟩

theorem getPieceAt_none {board : ChessBoard} {pos : ChessPosition} :
    board.getPieceAt pos = none ↔ ∀ p ∈ board.pieces, p.position ≠ pos := by
  unfold ChessBoard.getPieceAt
  simp [List.find?_eq_none, ChessPosition.equals_iff]

theorem isWithinBounds_iff (board : ChessBoard) (pos : ChessPosition) :
    board.isWithinBounds pos = true ↔
      0 ≤ pos.x ∧ pos.x < board.width ∧ 0 ≤ pos.y ∧ pos.y < board.height := by
  simp [ChessBoard.isWithinBounds, and_assoc]

/-- `movePiece` fails exactly off the valid moves. -/
theorem movePiece_fst_eq_none_iff (board : ChessBoard) (piece : ChessPiece)
    (toPos : ChessPosition) :
    (board.movePiece piece toPos).1 = none ↔ toPos ∉ piece.getValidMoves board := by
  unfold ChessBoard.movePiece
  by_cases h : toPos ∈ piece.getValidMoves board
  · simp [(any_equals_iff _ _).2 h, h]
  · have h' : (piece.getValidMoves board).any (fun m => m.equals toPos) = false := by
      rw [Bool.eq_false_iff]; intro hc; exact h ((any_equals_iff _ _).1 hc)
    simp [h', h]

/-- A failing `movePiece` returns the board it was given. -/
theorem movePiece_snd_of_not_mem (board : ChessBoard) (piece : ChessPiece)
    (toPos : ChessPosition) (h : toPos ∉ piece.getValidMoves board) :
    (board.movePiece piece toPos).2 = board := by
  have h' : (piece.getValidMoves board).any (fun m => m.equals toPos) = false := by
    rw [Bool.eq_false_iff]; intro hc; exact h ((any_equals_iff _ _).1 hc)
  simp [ChessBoard.movePiece, h']

/-- The board `movePiece` leaves after a valid move. -/
theorem movePiece_of_mem (board : ChessBoard) (piece : ChessPiece)
    (toPos : ChessPosition) (h : toPos ∈ piece.getValidMoves board) :
    board.movePiece piece toPos =
      (some
        { piece := { piece with position := toPos, hasMoved := true }
          fromPos := ⟨piece.position.x, piece.position.y⟩
          toPos := toPos
          capturedPiece := (captureStep board piece toPos).2.1
          isEnPassant := (captureStep board piece toPos).2.2 },
       { board with
         pieces := (captureStep board piece toPos).1.map (relocate piece toPos)
         selectedPiece := none
         validMoves := [] }) := by
  simp [ChessBoard.movePiece, (any_equals_iff _ _).2 h]

/-! ## The line scan -/

theorem stepFrom_zero (x y dx dy : Int) : stepFrom x y dx dy 0 = ⟨x, y⟩ := by
  simp [stepFrom]

theorem stepFrom_succ (x y dx dy : Int) (j : Nat) :
    stepFrom (x + dx) (y + dy) dx dy j = stepFrom x y dx dy (j + 1) := by
  simp only [stepFrom, ChessPosition.mk.injEq]
  constructor <;> push_cast <;> ring

theorem range_map_stepFrom (x y dx dy : Int) (n : Nat) :
    (List.range (n + 1)).map (stepFrom x y dx dy) =
      ⟨x, y⟩ :: (List.range n).map (stepFrom (x + dx) (y + dy) dx dy) := by
  rw [List.range_succ_eq_map, List.map_cons, List.map_map, stepFrom_zero]
  congr 1
  apply List.map_congr_left
  intro j _
  simp [stepFrom_succ]

theorem lineLoop_outcome (board : ChessBoard) (color : Color) (dx dy : Int) :
    ∀ (fuel : Nat) (x y : Int) (line : List ChessPosition),
      lineLoop board color dx dy fuel x y = some line →
      ∃ n, ScanOutcome board color dx dy x y n line := by
  intro fuel
  induction fuel with
  | zero => intro x y line h; simp [lineLoop] at h
  | succ fuel ih =>
    intro x y line h
    rw [lineLoop] at h
    by_cases hb : board.isWithinBounds ⟨x, y⟩ = true
    · rw [if_pos hb] at h
      cases hp : board.getPieceAt ⟨x, y⟩ with
      | some t =>
        rw [hp] at h
        simp only at h
        refine ⟨0, ?_, Or.inr ?_⟩
        · intro i hi; omega
        · rw [stepFrom_zero]
          refine ⟨hb, t, hp, ?_⟩
          by_cases hc : t.color ≠ color
          · rw [if_pos hc] at h ⊢; simpa using h.symm
          · rw [if_neg hc] at h ⊢; simpa using h.symm
      | none =>
        rw [hp] at h
        simp only [Option.map_eq_some'] at h
        obtain ⟨rest, hrest, rfl⟩ := h
        obtain ⟨n, hfree, hstop⟩ := ih (x + dx) (y + dy) rest hrest
        refine ⟨n + 1, ?_, ?_⟩
        · intro i hi
          cases i with
          | zero => rw [stepFrom_zero]; exact ⟨hb, hp⟩
          | succ i => rw [← stepFrom_succ]; exact hfree i (by omega)
        · rw [range_map_stepFrom, ← stepFrom_succ]
          rcases hstop with ⟨h1, h2⟩ | ⟨h1, t, h2, h3⟩
          · exact Or.inl ⟨h1, by rw [h2]⟩
          · exact Or.inr ⟨h1, t, h2, by rw [h3]; rfl⟩
    · rw [if_neg hb] at h
      refine ⟨0, ?_, Or.inl ?_⟩
      · intro i hi; omega
      · rw [stepFrom_zero]
        exact ⟨by simpa using hb, by simpa using h.symm⟩

theorem lineLoop_isSome (board : ChessBoard) (color : Color) (dx dy : Int)
    (hdir : dx ≠ 0 ∨ dy ≠ 0) :
    ∀ (fuel : Nat) (x y : Int), 0 < fuel →
      (board.isWithinBounds ⟨x, y⟩ = true → board.remaining dx dy x y < fuel) →
      (lineLoop board color dx dy fuel x y).isSome = true := by
  intro fuel
  induction fuel with
  | zero => intro x y h; omega
  | succ fuel ih =>
    intro x y _ hrem
    rw [lineLoop]
    by_cases hb : board.isWithinBounds ⟨x, y⟩ = true
    · rw [if_pos hb]
      cases hp : board.getPieceAt ⟨x, y⟩ with
      | some t => by_cases hc : t.color ≠ color <;> simp [hc]
      | none =>
        have hr := hrem hb
        have hb' := (isWithinBounds_iff _ _).1 hb
        simp only at hb'
        have hfuel : 0 < fuel := by
          unfold ChessBoard.remaining at hr
          split_ifs at hr <;> omega
        have := ih (x + dx) (y + dy) hfuel (by
          intro hb2
          have hb2' := (isWithinBounds_iff _ _).1 hb2
          simp only at hb2'
          unfold ChessBoard.remaining at hr ⊢
          split_ifs at hr ⊢ <;> omega)
        simpa using this
    · rw [if_neg hb]; rfl

theorem remaining_lt_scanFuel (board : ChessBoard) (dx dy x y : Int)
    (hb : board.isWithinBounds ⟨x, y⟩ = true) :
    board.remaining dx dy x y < board.scanFuel := by
  have hb' := (isWithinBounds_iff _ _).1 hb
  simp only at hb'
  unfold ChessBoard.remaining ChessBoard.scanFuel
  have h1 := le_max_left board.width board.height
  have h2 := le_max_right board.width board.height
  split_ifs <;> omega

/-- More fuel does not change the result of a loop that has left. -/
theorem lineLoop_mono (board : ChessBoard) (color : Color) (dx dy : Int) :
    ∀ (fuel fuel' : Nat) (x y : Int) (line : List ChessPosition), fuel ≤ fuel' →
      lineLoop board color dx dy fuel x y = some line →
      lineLoop board color dx dy fuel' x y = some line := by
  intro fuel
  induction fuel with
  | zero => intro fuel' x y line _ h; simp [lineLoop] at h
  | succ fuel ih =>
    intro fuel' x y line hle h
    obtain ⟨m, rfl⟩ : ∃ m, fuel' = m + 1 := ⟨fuel' - 1, by omega⟩
    rw [lineLoop] at h ⊢
    by_cases hb : board.isWithinBounds ⟨x, y⟩ = true
    · rw [if_pos hb] at h ⊢
      cases hp : board.getPieceAt ⟨x, y⟩ with
      | some t => rw [hp] at h; exact h
      | none =>
        rw [hp] at h
        simp only [Option.map_eq_some'] at h ⊢
        obtain ⟨rest, hrest, rfl⟩ := h
        exact ⟨rest, ih m (x + dx) (y + dy) rest (by omega) hrest, rfl⟩
    · rw [if_neg hb] at h ⊢; exact h

theorem ScanOutcome.mem_iff {board : ChessBoard} {color : Color} {dx dy x y : Int} {n : Nat}
    {line : List ChessPosition} (h : ScanOutcome board color dx dy x y n line)
    (p : ChessPosition) :
    p ∈ line ↔ (∃ i, i < n ∧ p = stepFrom x y dx dy i) ∨
      (p = stepFrom x y dx dy n ∧ board.isWithinBounds (stepFrom x y dx dy n) = true ∧
        ∃ t, board.getPieceAt (stepFrom x y dx dy n) = some t ∧ t.color ≠ color) := by
  obtain ⟨_, ⟨hout, rfl⟩ | ⟨hin, t, ht, rfl⟩⟩ := h
  · simp only [List.mem_map, List.mem_range, hout, Bool.false_eq_true, false_and, and_false,
      or_false]
    constructor
    · rintro ⟨i, hi, rfl⟩; exact ⟨i, hi, rfl⟩
    · rintro ⟨i, hi, rfl⟩; exact ⟨i, hi, rfl⟩
  · simp only [List.mem_append, List.mem_map, List.mem_range, hin, true_and, ht,
      Option.some.injEq, exists_eq_left']
    constructor
    · rintro (⟨i, hi, rfl⟩ | hp)
      · exact Or.inl ⟨i, hi, rfl⟩
      · by_cases hc : t.color ≠ color
        · rw [if_pos hc] at hp; exact Or.inr ⟨by simpa using hp, hc⟩
        · rw [if_neg hc] at hp; simp at hp
    · rintro (⟨i, hi, rfl⟩ | ⟨rfl, hc⟩)
      · exact Or.inl ⟨i, hi, rfl⟩
      · right; rw [if_pos hc]; simp

/-- The loop of one direction has one outcome only. -/
theorem ScanOutcome.unique {board : ChessBoard} {color : Color} {dx dy x y : Int} {n m : Nat}
    {line line' : List ChessPosition} (h : ScanOutcome board color dx dy x y n line)
    (h' : ScanOutcome board color dx dy x y m line') : n = m ∧ line = line' := by
  have key : ∀ {a b : Nat} {l l' : List ChessPosition},
      ScanOutcome board color dx dy x y a l → ScanOutcome board color dx dy x y b l' →
      ¬ a < b := by
    intro a b l l' ha hb hlt
    have hfree := hb.1 a hlt
    rcases ha.2 with ⟨hout, _⟩ | ⟨_, t, ht, _⟩
    · rw [hfree.1] at hout; exact Bool.noConfusion hout
    · rw [hfree.2] at ht; exact Option.noConfusion ht
  have hnm : n = m := by
    have h1 := key h h'
    have h2 := key h' h
    omega
  subst hnm
  refine ⟨rfl, ?_⟩
  rcases h.2 with ⟨hout, hl⟩ | ⟨hin, t, ht, hl⟩ <;>
    rcases h'.2 with ⟨hout', hl'⟩ | ⟨hin', t', ht', hl'⟩
  · rw [hl, hl']
  · rw [hin'] at hout; exact Bool.noConfusion hout
  · rw [hin] at hout'; exact Bool.noConfusion hout'
  · rw [ht] at ht'
    cases ht'
    rw [hl, hl']

theorem getLineMovesFuel_isSome (self : ChessPiece) (board : ChessBoard) (fuel : Nat)
    (hfuel : board.scanFuel ≤ fuel) :
    ∀ directions : List (Int × Int), (∀ dir ∈ directions, dir.1 ≠ 0 ∨ dir.2 ≠ 0) →
      (getLineMovesFuel fuel self board directions).isSome = true := by
  intro directions
  induction directions with
  | nil => intro _; rfl
  | cons dir rest ih =>
    intro hdirs
    have h1 := lineLoop_isSome board self.color dir.1 dir.2 (hdirs dir (List.mem_cons_self _ _))
      fuel (self.position.x + dir.1) (self.position.y + dir.2)
      (by unfold ChessBoard.scanFuel at hfuel; omega)
      (fun hb => lt_of_lt_of_le (remaining_lt_scanFuel board _ _ _ _ hb) hfuel)
    have h2 := ih (fun d hd => hdirs d (List.mem_cons_of_mem _ hd))
    rw [Option.isSome_iff_exists] at h1 h2
    obtain ⟨line, hline⟩ := h1
    obtain ⟨more, hmore⟩ := h2
    rw [getLineMovesFuel, hline]
    simp [hmore]

theorem getLineMovesFuel_mem (self : ChessPiece) (board : ChessBoard) (fuel : Nat) :
    ∀ (directions : List (Int × Int)) (moves : List ChessPosition),
      getLineMovesFuel fuel self board directions = some moves →
      ∀ p, p ∈ moves ↔ ∃ dir ∈ directions, ∃ line,
        lineLoop board self.color dir.1 dir.2 fuel
          (self.position.x + dir.1) (self.position.y + dir.2) = some line ∧ p ∈ line := by
  intro directions
  induction directions with
  | nil =>
    intro moves h p
    simp only [getLineMovesFuel, Option.some.injEq] at h
    subst h
    simp
  | cons dir rest ih =>
    intro moves h p
    rw [getLineMovesFuel] at h
    cases hl : lineLoop board self.color dir.1 dir.2 fuel
        (self.position.x + dir.1) (self.position.y + dir.2) with
    | none => rw [hl] at h; simp at h
    | some line =>
      rw [hl] at h
      simp only [Option.map_eq_some'] at h
      obtain ⟨more, hmore, rfl⟩ := h
      rw [List.mem_append, ih more hmore p]
      constructor
      · rintro (hp | ⟨d, hd, l, hdl, hp⟩)
        · exact ⟨dir, List.mem_cons_self _ _, line, hl, hp⟩
        · exact ⟨d, List.mem_cons_of_mem _ hd, l, hdl, hp⟩
      · rintro ⟨d, hd, l, hdl, hp⟩
        rcases List.mem_cons.1 hd with rfl | hd
        · rw [hl] at hdl; cases hdl; exact Or.inl hp
        · exact Or.inr ⟨d, hd, l, hdl, hp⟩

theorem UnitDirections.nonzero {directions : List (Int × Int)} (h : UnitDirections directions) :
    ∀ dir ∈ directions, dir.1 ≠ 0 ∨ dir.2 ≠ 0 := by
  intro dir hd
  have := h dir hd
  simp only [queenDirections, List.mem_cons, List.mem_singleton, List.not_mem_nil,
    or_false] at this
  rcases this with rfl | rfl | rfl | rfl | rfl | rfl | rfl | rfl <;> simp

/-- The squares of `getLineMoves` for unit directions: those pushed by the loop of some
direction, described by its outcome. -/
theorem mem_getLineMoves_iff (self : ChessPiece) (board : ChessBoard)
    {directions : List (Int × Int)} (hdirs : UnitDirections directions) (p : ChessPosition) :
    p ∈ (self.getLineMoves board directions).getD [] ↔
      ∃ dir ∈ directions, ∃ n line,
        ScanOutcome board self.color dir.1 dir.2
          (self.position.x + dir.1) (self.position.y + dir.2) n line ∧ p ∈ line := by
  have hsome := getLineMovesFuel_isSome self board board.scanFuel le_rfl directions hdirs.nonzero
  rw [Option.isSome_iff_exists] at hsome
  obtain ⟨moves, hmoves⟩ := hsome
  have hmem := getLineMovesFuel_mem self board board.scanFuel directions moves hmoves p
  unfold ChessPiece.getLineMoves
  rw [hmoves, Option.getD_some, hmem]
  constructor
  · rintro ⟨dir, hd, line, hl, hp⟩
    obtain ⟨n, hn⟩ := lineLoop_outcome board self.color dir.1 dir.2 _ _ _ line hl
    exact ⟨dir, hd, n, line, hn, hp⟩
  · rintro ⟨dir, hd, n, line, hn, hp⟩
    have h1 := lineLoop_isSome board self.color dir.1 dir.2 (hdirs.nonzero dir hd)
      board.scanFuel (self.position.x + dir.1) (self.position.y + dir.2)
      (by unfold ChessBoard.scanFuel; omega)
      (fun hb => remaining_lt_scanFuel board _ _ _ _ hb)
    rw [Option.isSome_iff_exists] at h1
    obtain ⟨line', hl'⟩ := h1
    obtain ⟨m, hm⟩ := lineLoop_outcome board self.color dir.1 dir.2 _ _ _ line' hl'
    obtain ⟨_, rfl⟩ := hn.unique hm
    exact ⟨dir, hd, line, hl', hp⟩

theorem ray_eq_stepFrom (self : ChessPiece) (dir : Int × Int) (i : Nat) :
    stepFrom (self.position.x + dir.1) (self.position.y + dir.2) dir.1 dir.2 i =
      self.ray dir (i + 1) := by
  rw [ChessPiece.ray, stepFrom_succ]

/-- Two of the eight rays from one square meet in no square. -/
theorem ray_injective (self : ChessPiece) {dir dir' : Int × Int}
    (hd : dir ∈ queenDirections) (hd' : dir' ∈ queenDirections) {i j : Nat}
    (hi : 1 ≤ i) (hj : 1 ≤ j) (h : self.ray dir i = self.ray dir' j) : dir = dir' ∧ i = j := by
  simp only [ChessPiece.ray, stepFrom, ChessPosition.mk.injEq] at h
  obtain ⟨hx, hy⟩ := h
  simp only [queenDirections, List.mem_cons, List.mem_singleton, List.not_mem_nil,
    or_false] at hd hd'
  rcases hd with rfl | rfl | rfl | rfl | rfl | rfl | rfl | rfl <;>
    rcases hd' with rfl | rfl | rfl | rfl | rfl | rfl | rfl | rfl <;>
    simp only [Prod.mk.injEq, true_and, and_true] at hx hy ⊢ <;> omega

/-- The scan of one direction stops at the first occupied square. -/
theorem slide_stops (self : ChessPiece) (board : ChessBoard) {directions : List (Int × Int)}
    (hdirs : UnitDirections directions) {dir : Int × Int} (hdir : dir ∈ directions)
    {k : Nat} {q : ChessPiece} (hk : 1 ≤ k)
    (hfree : ∀ j, 1 ≤ j → j < k → board.getPieceAt (self.ray dir j) = none)
    (hocc : board.getPieceAt (self.ray dir k) = some q) :
    (∀ j, k < j → self.ray dir j ∉ (self.getLineMoves board directions).getD []) ∧
    ((∀ j, 1 ≤ j → j ≤ k → board.isWithinBounds (self.ray dir j) = true) →
      (self.ray dir k ∈ (self.getLineMoves board directions).getD [] ↔
        q.color ≠ self.color)) := by
  have hsame : ∀ {j : Nat}, 1 ≤ j →
      self.ray dir j ∈ (self.getLineMoves board directions).getD [] →
      ∃ n line, ScanOutcome board self.color dir.1 dir.2
          (self.position.x + dir.1) (self.position.y + dir.2) n line ∧
        ((j - 1 < n) ∨ (j - 1 = n ∧ ∃ t, board.getPieceAt (self.ray dir j) = some t ∧
          t.color ≠ self.color)) := by
    intro j hj hmem
    obtain ⟨dir', hd', n, line, hout, hp⟩ := (mem_getLineMoves_iff self board hdirs _).1 hmem
    rcases (hout.mem_iff _).1 hp with ⟨i, hi, heq⟩ | ⟨heq, _, t, ht, hc⟩
    · rw [ray_eq_stepFrom] at heq
      obtain ⟨rfl, rfl⟩ := ray_injective self (hdirs _ hdir) (hdirs _ hd') hj (by omega) heq
      exact ⟨n, line, hout, Or.inl (by omega)⟩
    · rw [ray_eq_stepFrom] at heq ht
      obtain ⟨rfl, rfl⟩ := ray_injective self (hdirs _ hdir) (hdirs _ hd') hj (by omega) heq
      exact ⟨n, line, hout, Or.inr ⟨by omega, t, ht, hc⟩⟩
  have hempty : ∀ {n : Nat} {line : List ChessPosition},
      ScanOutcome board self.color dir.1 dir.2
        (self.position.x + dir.1) (self.position.y + dir.2) n line → ¬ k - 1 < n := by
    intro n line hout hlt
    have := (hout.1 (k - 1) hlt).2
    rw [ray_eq_stepFrom, show k - 1 + 1 = k by omega, hocc] at this
    exact Option.noConfusion this
  refine ⟨?_, ?_⟩
  · intro j hj hmem
    obtain ⟨n, line, hout, h | ⟨h, _⟩⟩ := hsame (by omega) hmem
    · exact hempty hout (by omega)
    · exact hempty hout (by omega)
  · intro hin
    constructor
    · intro hmem
      obtain ⟨n, line, hout, h | ⟨_, t, ht, hc⟩⟩ := hsame hk hmem
      · exact absurd h (hempty hout)
      · rw [hocc] at ht; cases ht; exact hc
    · intro hc
      have h1 := lineLoop_isSome board self.color dir.1 dir.2
        (hdirs.nonzero dir hdir)
        board.scanFuel (self.position.x + dir.1) (self.position.y + dir.2)
        (by unfold ChessBoard.scanFuel; omega)
        (fun hb => remaining_lt_scanFuel board _ _ _ _ hb)
      rw [Option.isSome_iff_exists] at h1
      obtain ⟨line, hl⟩ := h1
      obtain ⟨n, hout⟩ := lineLoop_outcome board self.color dir.1 dir.2 _ _ _ line hl
      have hn1 : ¬ k - 1 < n := hempty hout
      have hn2 : ¬ n < k - 1 := by
        intro hlt
        have hb := hin (n + 1) (by omega) (by omega)
        have hf := hfree (n + 1) (by omega) (by omega)
        rw [← ray_eq_stepFrom] at hb hf
        rcases hout.2 with ⟨hout', _⟩ | ⟨_, t, ht, _⟩
        · rw [hb] at hout'; exact Bool.noConfusion hout'
        · rw [hf] at ht; exact Option.noConfusion ht
      have hn : n + 1 = k := by omega
      rw [mem_getLineMoves_iff self board hdirs]
      refine ⟨dir, hdir, n, line, hout, (hout.mem_iff _).2 (Or.inr ?_)⟩
      rw [ray_eq_stepFrom, hn]
      exact ⟨rfl, hin k hk le_rfl, q, hocc, hc⟩

/-- A returned square of a ray is reached by steps on the board. -/
theorem ray_mem_withinBounds (self : ChessPiece) (board : ChessBoard)
    {directions : List (Int × Int)} (hdirs : UnitDirections directions) {dir : Int × Int}
    (hdir : dir ∈ directions) {j : Nat} (hj : 1 ≤ j)
    (hmem : self.ray dir j ∈ (self.getLineMoves board directions).getD []) :
    ∀ i, 1 ≤ i → i ≤ j → board.isWithinBounds (self.ray dir i) = true := by
  intro i hi hij
  obtain ⟨dir', hd', n, line, hout, hp⟩ := (mem_getLineMoves_iff self board hdirs _).1 hmem
  rcases (hout.mem_iff _).1 hp with ⟨i0, hi0, heq⟩ | ⟨heq, hin, _⟩
  · rw [ray_eq_stepFrom] at heq
    obtain ⟨rfl, rfl⟩ := ray_injective self (hdirs _ hdir) (hdirs _ hd') hj (by omega) heq
    have := (hout.1 (i - 1) (by omega)).1
    rwa [ray_eq_stepFrom, show i - 1 + 1 = i by omega] at this
  · rw [ray_eq_stepFrom] at heq hin
    obtain ⟨rfl, rfl⟩ := ray_injective self (hdirs _ hdir) (hdirs _ hd') hj (by omega) heq
    rcases Nat.lt_or_ge (i - 1) n with h | h
    · have := (hout.1 (i - 1) h).1
      rwa [ray_eq_stepFrom, show i - 1 + 1 = i by omega] at this
    · rw [show i = n + 1 by omega]; exact hin

/-- More fuel does not change a finished `getLineMoves`. -/
theorem getLineMovesFuel_mono (self : ChessPiece) (board : ChessBoard) {fuel fuel' : Nat}
    (hle : fuel ≤ fuel') :
    ∀ (directions : List (Int × Int)) (moves : List ChessPosition),
      getLineMovesFuel fuel self board directions = some moves →
      getLineMovesFuel fuel' self board directions = some moves := by
  intro directions
  induction directions with
  | nil => intro moves h; exact h
  | cons dir rest ih =>
    intro moves h
    rw [getLineMovesFuel] at h ⊢
    cases hl : lineLoop board self.color dir.1 dir.2 fuel
        (self.position.x + dir.1) (self.position.y + dir.2) with
    | none => rw [hl] at h; simp at h
    | some line =>
      rw [hl] at h
      rw [lineLoop_mono board self.color dir.1 dir.2 fuel fuel' _ _ line hle hl]
      simp only [Option.map_eq_some'] at h ⊢
      obtain ⟨more, hmore, rfl⟩ := h
      exact ⟨more, ih more hmore, rfl⟩

/-- The loops of the unit directions leave within `scanFuel`: with that fuel or more,
`getLineMoves` returns, and returns the list the rook, bishop and queen generators take. -/
theorem getLineMovesFuel_eq (self : ChessPiece) (board : ChessBoard)
    {directions : List (Int × Int)} (hdirs : UnitDirections directions) {fuel : Nat}
    (hfuel : board.scanFuel ≤ fuel) :
    getLineMovesFuel fuel self board directions =
      some ((self.getLineMoves board directions).getD []) := by
  have hsome := getLineMovesFuel_isSome self board board.scanFuel le_rfl directions hdirs.nonzero
  rw [Option.isSome_iff_exists] at hsome
  obtain ⟨moves, hmoves⟩ := hsome
  rw [getLineMovesFuel_mono self board hfuel directions moves hmoves]
  unfold ChessPiece.getLineMoves
  rw [hmoves, Option.getD_some]

/-- Every square of `getLineMoves` is on the board and is empty or holds the other colour. -/
theorem getLineMoves_target (self : ChessPiece) (board : ChessBoard)
    {directions : List (Int × Int)} (hdirs : UnitDirections directions) {p : ChessPosition}
    (hp : p ∈ (self.getLineMoves board directions).getD []) :
    board.isWithinBounds p = true ∧
      ∀ q, board.getPieceAt p = some q → q.color ≠ self.color := by
  obtain ⟨dir, _, n, line, hout, hmem⟩ := (mem_getLineMoves_iff self board hdirs _).1 hp
  rcases (hout.mem_iff _).1 hmem with ⟨i, hi, rfl⟩ | ⟨rfl, hin, t, ht, hc⟩
  · refine ⟨(hout.1 i hi).1, ?_⟩
    intro q hq
    rw [(hout.1 i hi).2] at hq
    exact Option.noConfusion hq
  · refine ⟨hin, ?_⟩
    intro q hq
    rw [ht] at hq; cases hq; exact hc

theorem unitDirections_rook : UnitDirections rookDirections := by
  intro dir hd
  simp only [rookDirections, queenDirections, List.mem_cons, List.mem_singleton,
    List.not_mem_nil, or_false] at hd ⊢
  tauto

theorem unitDirections_bishop : UnitDirections bishopDirections := by
  intro dir hd
  simp only [bishopDirections, queenDirections, List.mem_cons, List.mem_singleton,
    List.not_mem_nil, or_false] at hd ⊢
  tauto

theorem unitDirections_queen : UnitDirections queenDirections := fun _ hd => hd

/-- Every square of the knight's and the king's loop is on the board and is empty or holds
the other colour. -/
theorem offsetMoves_target (self : ChessPiece) (board : ChessBoard)
    (offsets : List (Int × Int)) {p : ChessPosition} (hp : p ∈ offsetMoves self board offsets) :
    board.isWithinBounds p = true ∧
      ∀ q, board.getPieceAt p = some q → q.color ≠ self.color := by
  unfold offsetMoves at hp
  obtain ⟨_, hp⟩ := List.mem_filter.1 hp
  simp only [Bool.and_eq_true] at hp
  refine ⟨hp.1, ?_⟩
  intro q hq
  have h2 := hp.2
  rw [hq] at h2
  simpa using h2

theorem enemy_match_iff (o : Option ChessPiece) (color : Color) :
    (match o with
      | some target => decide (target.color ≠ color)
      | none => false) = true ↔ ∃ target, o = some target ∧ target.color ≠ color := by
  cases o <;> simp

/-- The squares of `getPawnMoves`: one step forward, two steps forward, or a capture. -/
theorem mem_getPawnMoves_iff (self : ChessPiece) (board : ChessBoard) (p : ChessPosition) :
    p ∈ self.getPawnMoves board ↔
      (p = ⟨self.position.x, self.position.y + self.direction⟩ ∧
        board.isWithinBounds p = true ∧ board.getPieceAt p = none) ∨
      (p = ⟨self.position.x, self.position.y + 2 * self.direction⟩ ∧
        board.isWithinBounds ⟨self.position.x, self.position.y + self.direction⟩ = true ∧
        board.getPieceAt ⟨self.position.x, self.position.y + self.direction⟩ = none ∧
        self.position.y = self.startRow ∧ board.getPieceAt p = none) ∨
      ((p = ⟨self.position.x - 1, self.position.y + self.direction⟩ ∨
          p = ⟨self.position.x + 1, self.position.y + self.direction⟩) ∧
        board.isWithinBounds p = true ∧
        ∃ target, board.getPieceAt p = some target ∧ target.color ≠ self.color) := by
  unfold ChessPiece.getPawnMoves ChessPiece.direction ChessPiece.startRow
  simp only []
  generalize (if self.color = Color.blanca then (-1 : Int) else 1) = direction
  generalize (if self.color = Color.blanca then (6 : Int) else 1) = startRow
  simp only [List.mem_append, List.mem_filter, List.mem_cons, List.mem_singleton,
    List.not_mem_nil, or_false, Bool.and_eq_true, enemy_match_iff]
  have hcap : ∀ a b c : Prop, (a ↔ b) → ((a ∨ c) ↔ (b ∨ c)) := fun a b c h => by rw [h]
  rw [← or_assoc]
  apply hcap
  by_cases h1 : board.isWithinBounds ⟨self.position.x, self.position.y + direction⟩ = true
  · cases h2 : board.getPieceAt ⟨self.position.x, self.position.y + direction⟩ with
    | some t =>
      rw [if_neg (by simp)]
      simp only [List.not_mem_nil, false_iff, not_or, not_and]
      constructor
      · rintro rfl _ h; rw [h2] at h; exact Option.noConfusion h
      · rintro _ _ h; exact Option.noConfusion h
    | none =>
      rw [if_pos ⟨h1, rfl⟩]
      by_cases h3 : self.position.y = startRow
      · rw [if_pos h3]
        cases h4 : board.getPieceAt ⟨self.position.x, self.position.y + 2 * direction⟩ with
        | some t2 =>
          simp only [Option.isNone_some, Bool.false_eq_true, if_false, List.mem_singleton]
          constructor
          · rintro rfl; exact Or.inl ⟨rfl, h1, h2⟩
          · rintro (⟨rfl, _⟩ | ⟨rfl, _, _, _, h⟩)
            · rfl
            · rw [h4] at h; exact Option.noConfusion h
        | none =>
          simp only [Option.isNone_none, if_true, List.mem_cons, List.mem_singleton,
            List.not_mem_nil, or_false]
          constructor
          · rintro (rfl | rfl)
            · exact Or.inl ⟨rfl, h1, h2⟩
            · exact Or.inr ⟨rfl, h1, trivial, h3, h4⟩
          · rintro (⟨rfl, _⟩ | ⟨rfl, _⟩)
            · exact Or.inl rfl
            · exact Or.inr rfl
      · rw [if_neg h3]
        simp only [List.mem_singleton]
        constructor
        · rintro rfl; exact Or.inl ⟨rfl, h1, h2⟩
        · rintro (⟨rfl, _⟩ | ⟨_, _, _, h, _⟩)
          · rfl
          · exact absurd h h3
  · rw [if_neg (fun h => h1 h.1)]
    simp only [List.not_mem_nil, false_iff, not_or, not_and]
    constructor
    · rintro rfl h; exact absurd h h1
    · rintro _ h; exact absurd h h1

/-! ## Valid moves -/

/-- No generator returns a square held by the mover's colour. -/
theorem getValidMoves_target (self : ChessPiece) (board : ChessBoard) {m : ChessPosition}
    (hm : m ∈ self.getValidMoves board) :
    ∀ q, board.getPieceAt m = some q → q.color ≠ self.color := by
  unfold ChessPiece.getValidMoves at hm
  cases ht : self.type <;> rw [ht] at hm <;> simp only at hm
  · rcases (mem_getPawnMoves_iff self board m).1 hm with ⟨_, _, h⟩ | ⟨_, _, _, _, h⟩ |
      ⟨_, _, t, h, hc⟩
    · intro q hq; rw [h] at hq; exact Option.noConfusion hq
    · intro q hq; rw [h] at hq; exact Option.noConfusion hq
    · intro q hq; rw [h] at hq; cases hq; exact hc
  · exact (offsetMoves_target self board _ hm).2
  · exact (getLineMoves_target self board unitDirections_bishop hm).2
  · exact (getLineMoves_target self board unitDirections_rook hm).2
  · exact (getLineMoves_target self board unitDirections_queen hm).2
  · exact (offsetMoves_target self board _ hm).2

/-- On a board of height 8 every generated square is within bounds. -/
theorem getValidMoves_withinBounds (self : ChessPiece) (board : ChessBoard)
    (hh : board.height = 8) {m : ChessPosition} (hm : m ∈ self.getValidMoves board) :
    board.isWithinBounds m = true := by
  unfold ChessPiece.getValidMoves at hm
  cases ht : self.type <;> rw [ht] at hm <;> simp only at hm
  · rcases (mem_getPawnMoves_iff self board m).1 hm with ⟨_, h, _⟩ | ⟨rfl, h, _, hs, _⟩ |
      ⟨_, h, _⟩
    · exact h
    · rw [isWithinBounds_iff] at h ⊢
      simp only at h ⊢
      unfold ChessPiece.startRow at hs
      unfold ChessPiece.direction at h ⊢
      split_ifs at hs h ⊢ <;> omega
    · exact h
  · exact (offsetMoves_target self board _ hm).1
  · exact (getLineMoves_target self board unitDirections_bishop hm).1
  · exact (getLineMoves_target self board unitDirections_rook hm).1
  · exact (getLineMoves_target self board unitDirections_queen hm).1
  · exact (offsetMoves_target self board _ hm).1

/-- A pawn's valid move onto an empty square keeps the file. -/
theorem pawn_empty_target_file (self : ChessPiece) (board : ChessBoard) {m : ChessPosition}
    (hm : m ∈ self.getPawnMoves board) (hempty : board.getPieceAt m = none) :
    m.x = self.position.x := by
  rcases (mem_getPawnMoves_iff self board m).1 hm with ⟨rfl, _⟩ | ⟨rfl, _⟩ | ⟨_, _, t, h, _⟩
  · rfl
  · rfl
  · rw [hempty] at h; exact Option.noConfusion h

/-- After a valid move the capture step is the normal capture or nothing: the en-passant
branch is not entered. -/
theorem captureStep_of_mem (board : ChessBoard) (piece : ChessPiece) {toPos : ChessPosition}
    (h : toPos ∈ piece.getValidMoves board) :
    captureStep board piece toPos =
      match board.getPieceAt toPos with
      | some capturedPiece =>
        (board.pieces.filter (fun p => p.id ≠ capturedPiece.id), some capturedPiece, false)
      | none => (board.pieces, none, false) := by
  unfold captureStep
  cases hp : board.getPieceAt toPos with
  | some c => rfl
  | none =>
    simp only
    by_cases ht : piece.type = PieceType.peon
    · rw [if_pos ht]
      have hm : toPos ∈ piece.getPawnMoves board := by
        unfold ChessPiece.getValidMoves at h; rw [ht] at h; exact h
      have hx := pawn_empty_target_file piece board hm hp
      rw [if_neg]
      rw [hx]; simp
    · rw [if_neg ht]

/-! ## Invariants of `movePiece` -/

theorem relocate_id (piece : ChessPiece) (toPos : ChessPosition) (p : ChessPiece) :
    (relocate piece toPos p).id = p.id := by
  unfold relocate; split_ifs <;> rfl

theorem relocate_of_ne (piece : ChessPiece) (toPos : ChessPosition) {p : ChessPiece}
    (h : p.id ≠ piece.id) : relocate piece toPos p = p := by
  unfold relocate; rw [if_neg h]

theorem relocate_position (piece : ChessPiece) (toPos : ChessPosition) (p : ChessPiece) :
    (relocate piece toPos p).position = toPos ∨ relocate piece toPos p = p := by
  unfold relocate; split_ifs
  · exact Or.inl rfl
  · exact Or.inr rfl

theorem map_relocate_ids (piece : ChessPiece) (toPos : ChessPosition) (l : List ChessPiece) :
    (l.map (relocate piece toPos)).map (fun p => p.id) = l.map (fun p => p.id) := by
  rw [List.map_map]
  apply List.map_congr_left
  intro p _
  exact relocate_id piece toPos p

theorem captureStep_sublist (board : ChessBoard) (piece : ChessPiece) (toPos : ChessPosition) :
    (captureStep board piece toPos).1.Sublist board.pieces := by
  unfold captureStep
  split
  · exact List.filter_sublist _
  · simp only
    split_ifs
    · split
      · split_ifs
        · exact List.filter_sublist _
        · exact List.Sublist.refl _
      · exact List.Sublist.refl _
    · exact List.Sublist.refl _
    · exact List.Sublist.refl _

/-- Two entries of a list of distinct objects with one reference are one entry. -/
theorem eq_of_id_eq {board : ChessBoard} (hid : board.DistinctObjects) {p r : ChessPiece}
    (hp : p ∈ board.pieces) (hr : r ∈ board.pieces) (h : p.id = r.id) : p = r :=
  List.inj_on_of_nodup_map hid hp hr h

/-- Two entries of the list on one square are one entry. -/
theorem eq_of_position_eq {board : ChessBoard} (hsq : board.OnePiecePerSquare)
    {p r : ChessPiece} (hp : p ∈ board.pieces) (hr : r ∈ board.pieces)
    (h : p.position = r.position) : p = r :=
  List.inj_on_of_nodup_map hsq hp hr h

/-- With one piece per square, `getPieceAt` finds the piece that stands on the square. -/
theorem getPieceAt_of_mem {board : ChessBoard} (hsq : board.OnePiecePerSquare)
    {q : ChessPiece} (hq : q ∈ board.pieces) : board.getPieceAt q.position = some q := by
  cases h : board.getPieceAt q.position with
  | none => exact absurd rfl (getPieceAt_none.1 h q hq)
  | some r =>
    obtain ⟨hr, hpos⟩ := getPieceAt_some h
    rw [eq_of_position_eq hsq hr hq hpos]

/-- After the capture step of a valid move nobody stands on the destination. -/
theorem captureStep_clears (board : ChessBoard) (piece : ChessPiece) {toPos : ChessPosition}
    (hsq : board.OnePiecePerSquare) (h : toPos ∈ piece.getValidMoves board) :
    ∀ r ∈ (captureStep board piece toPos).1, r.position ≠ toPos := by
  rw [captureStep_of_mem board piece h]
  cases hp : board.getPieceAt toPos with
  | none => exact getPieceAt_none.1 hp
  | some c =>
    intro r hr hpos
    obtain ⟨hc, hcpos⟩ := getPieceAt_some hp
    simp only [List.mem_filter, decide_eq_true_eq] at hr
    exact hr.2 (by rw [eq_of_position_eq hsq hr.1 hc (hpos.trans hcpos.symm)])

theorem nodup_positions_relocate (piece : ChessPiece) (toPos : ChessPosition) :
    ∀ l : List ChessPiece, (l.map (fun p => p.id)).Nodup →
      (l.map (fun p => p.position)).Nodup → (∀ r ∈ l, r.position ≠ toPos) →
      ((l.map (relocate piece toPos)).map (fun p => p.position)).Nodup := by
  intro l
  induction l with
  | nil => intro _ _ _; exact List.nodup_nil
  | cons p l ih =>
    intro hid hpos hne
    rw [List.map_cons, List.nodup_cons] at hid hpos
    rw [List.map_cons, List.map_cons, List.nodup_cons]
    refine ⟨?_, ih hid.2 hpos.2 (fun r hr => hne r (List.mem_cons_of_mem _ hr))⟩
    intro hmem
    simp only [List.mem_map, exists_exists_and_eq_and] at hmem
    obtain ⟨r, hr, hrp⟩ := hmem
    by_cases hp : p.id = piece.id
    · have hrid : r.id ≠ piece.id := by
        intro hc
        exact hid.1 (List.mem_map.2 ⟨r, hr, hc.trans hp.symm⟩)
      rw [relocate_of_ne piece toPos hrid] at hrp
      have : (relocate piece toPos p).position = toPos := by
        unfold relocate; rw [if_pos hp]
      rw [this] at hrp
      exact hne r (List.mem_cons_of_mem _ hr) hrp
    · rw [relocate_of_ne piece toPos hp] at hrp
      rcases relocate_position piece toPos r with h1 | h1
      · rw [h1] at hrp
        exact hne p (List.mem_cons_self _ _) hrp.symm
      · rw [h1] at hrp
        exact hpos.1 (List.mem_map.2 ⟨r, hr, hrp⟩)

theorem movePiece_distinctObjects (board : ChessBoard) (piece : ChessPiece)
    (toPos : ChessPosition) (hid : board.DistinctObjects) :
    (board.movePiece piece toPos).2.DistinctObjects := by
  by_cases h : toPos ∈ piece.getValidMoves board
  · rw [movePiece_of_mem board piece toPos h]
    unfold ChessBoard.DistinctObjects
    simp only
    rw [map_relocate_ids]
    exact ((captureStep_sublist board piece toPos).map _).nodup hid
  · rw [movePiece_snd_of_not_mem board piece toPos h]; exact hid

theorem movePiece_onePiecePerSquare (board : ChessBoard) (piece : ChessPiece)
    (toPos : ChessPosition) (hid : board.DistinctObjects) (hsq : board.OnePiecePerSquare) :
    (board.movePiece piece toPos).2.OnePiecePerSquare := by
  by_cases h : toPos ∈ piece.getValidMoves board
  · rw [movePiece_of_mem board piece toPos h]
    unfold ChessBoard.OnePiecePerSquare
    simp only
    exact nodup_positions_relocate piece toPos _
      (((captureStep_sublist board piece toPos).map _).nodup hid)
      (((captureStep_sublist board piece toPos).map _).nodup hsq)
      (captureStep_clears board piece hsq h)
  · rw [movePiece_snd_of_not_mem board piece toPos h]; exact hsq

theorem movePiece_width (board : ChessBoard) (piece : ChessPiece) (toPos : ChessPosition) :
    (board.movePiece piece toPos).2.width = board.width ∧
      (board.movePiece piece toPos).2.height = board.height := by
  by_cases h : toPos ∈ piece.getValidMoves board
  · rw [movePiece_of_mem board piece toPos h]; exact ⟨rfl, rfl⟩
  · rw [movePiece_snd_of_not_mem board piece toPos h]; exact ⟨rfl, rfl⟩

theorem movePiece_allWithinBounds (board : ChessBoard) (piece : ChessPiece)
    (toPos : ChessPosition) (hh : board.height = 8) (hb : board.AllWithinBounds) :
    (board.movePiece piece toPos).2.AllWithinBounds := by
  by_cases h : toPos ∈ piece.getValidMoves board
  · have hto := getValidMoves_withinBounds piece board hh h
    rw [movePiece_of_mem board piece toPos h]
    intro r hr
    simp only [List.mem_map] at hr
    obtain ⟨r0, hr0, rfl⟩ := hr
    have hr0' := (captureStep_sublist board piece toPos).subset hr0
    have : ∀ pos, ChessBoard.isWithinBounds
        { board with
          pieces := (captureStep board piece toPos).1.map (relocate piece toPos)
          selectedPiece := none
          validMoves := [] } pos = board.isWithinBounds pos := fun _ => rfl
    rw [this]
    rcases relocate_position piece toPos r0 with h1 | h1
    · rw [h1]; exact hto
    · rw [h1]; exact hb r0 hr0'
  · rw [movePiece_snd_of_not_mem board piece toPos h]; exact hb

theorem default_invariants :
    ChessBoard.default.DistinctObjects ∧ ChessBoard.default.OnePiecePerSquare ∧
      ChessBoard.default.AllWithinBounds ∧ ChessBoard.default.width = 8 ∧
      ChessBoard.default.height = 8 := by
  refine ⟨?_, ?_, ?_, rfl, rfl⟩
  · unfold ChessBoard.DistinctObjects; decide
  · unfold ChessBoard.OnePiecePerSquare; decide
  · unfold ChessBoard.AllWithinBounds; decide

/-- The invariants of every board reached from `new ChessBoard()`. -/
theorem reachable_invariants {board : ChessBoard} (h : Reachable board) :
    board.DistinctObjects ∧ board.OnePiecePerSquare ∧ board.AllWithinBounds ∧
      board.width = 8 ∧ board.height = 8 := by
  induction h with
  | start => exact default_invariants
  | @move b piece toPos _ ih =>
    obtain ⟨hid, hsq, hb, hw, hh⟩ := ih
    have hdim := movePiece_width b piece toPos
    exact ⟨movePiece_distinctObjects b piece toPos hid,
      movePiece_onePiecePerSquare b piece toPos hid hsq,
      movePiece_allWithinBounds b piece toPos hh hb,
      hdim.1.trans hw, hdim.2.trans hh⟩

/-- What a successful `movePiece` returns and leaves. -/
theorem movePiece_some {board : ChessBoard} {p : ChessPiece} {d : ChessPosition}
    {info : MoveInfo} (h : (board.movePiece p d).1 = some info) :
    d ∈ p.getValidMoves board ∧
    info = { piece := { p with position := d, hasMoved := true }
             fromPos := p.position
             toPos := d
             capturedPiece := board.getPieceAt d
             isEnPassant := false } ∧
    (board.movePiece p d).2.pieces =
      (match board.getPieceAt d with
        | some c => board.pieces.filter (fun r : ChessPiece => decide (r.id ≠ c.id))
        | none => board.pieces).map (relocate p d) := by
  have hmem : d ∈ p.getValidMoves board := by
    by_contra hc
    rw [(movePiece_fst_eq_none_iff board p d).2 hc] at h
    exact Option.noConfusion h
  rw [movePiece_of_mem board p d hmem, captureStep_of_mem board p hmem] at h ⊢
  simp only [Option.some.injEq] at h
  refine ⟨hmem, ?_, ?_⟩
  · rw [← h]
    cases board.getPieceAt d <;> rfl
  · cases board.getPieceAt d <;> rfl

/-- In a list of distinct objects, `relocate` changes the entry `p` alone. -/
theorem relocate_eq_ite {board : ChessBoard} (hid : board.DistinctObjects) {p : ChessPiece}
    (hp : p ∈ board.pieces) (d : ChessPosition) {r : ChessPiece} (hr : r ∈ board.pieces) :
    relocate p d r = if r = p then { p with position := d, hasMoved := true } else r := by
  unfold relocate
  by_cases h : r = p
  · subst h; simp
  · rw [if_neg h, if_neg (fun hc => h (eq_of_id_eq hid hr hp hc))]

/-- In a list of distinct objects, dropping the reference of `c` drops the entry `c`. -/
theorem filter_id_eq_filter {board : ChessBoard} (hid : board.DistinctObjects)
    {c : ChessPiece} (hc : c ∈ board.pieces) :
    board.pieces.filter (fun r => r.id ≠ c.id) =
      board.pieces.filter (fun r => decide (some r ≠ some c)) := by
  apply List.filter_congr
  intro r hr
  by_cases h : r = c
  · subst h; simp
  · have : r.id ≠ c.id := fun hc' => h (eq_of_id_eq hid hr hc hc')
    simp [h, this]

theorem length_filter_ne {board : ChessBoard} (hid : board.DistinctObjects)
    {c : ChessPiece} (hc : c ∈ board.pieces) :
    (board.pieces.filter (fun r => decide (some r ≠ some c))).length + 1 =
      board.pieces.length := by
  have hnd : board.pieces.Nodup := List.Nodup.of_map _ hid
  have h1 : board.pieces.filter (fun r => decide (some r ≠ some c)) = board.pieces.erase c := by
    rw [hnd.erase_eq_filter c]
    apply List.filter_congr
    intro r _
    by_cases h : r = c <;> simp [h]
  rw [h1, List.length_erase_of_mem hc]
  have := List.length_pos_of_mem hc
  omega

/-! ## The starting layout -/

theorem addPiece_states (b : ChessBoard) (t : PieceType) (c : Color) (x y : Int) :
    (b.addPiece t c x y).pieces.map ChessPiece.state =
      b.pieces.map ChessPiece.state ++ [(t, c, ⟨x, y⟩, false)] := by
  simp [ChessBoard.addPiece, ChessPiece.state]

theorem foldl_addPiece_states (c : Color) (y : Int) :
    ∀ (l : List Nat) (b : ChessBoard),
      (l.foldl (fun b i => b.addPiece PieceType.peon c (i : Int) y) b).pieces.map
          ChessPiece.state =
        b.pieces.map ChessPiece.state ++
          l.map (fun i => (PieceType.peon, c, (⟨(i : Int), y⟩ : ChessPosition), false)) := by
  intro l
  induction l with
  | nil => intro b; simp
  | cons i l ih => intro b; rw [List.foldl_cons, ih, addPiece_states]; simp

theorem addPawnRow_states (b : ChessBoard) (c : Color) (y : Int) :
    (b.addPawnRow c y).pieces.map ChessPiece.state =
      b.pieces.map ChessPiece.state ++
        (List.range 8).map
          (fun i => (PieceType.peon, c, (⟨(i : Int), y⟩ : ChessPosition), false)) :=
  foldl_addPiece_states c y (List.range 8) b

theorem initializeBoard_states (board : ChessBoard) :
    board.initializeBoard.pieces.map ChessPiece.state =
      startingLayout.map (fun t => (t.1, t.2.1, t.2.2, false)) := by
  unfold ChessBoard.initializeBoard
  simp only [addPiece_states, addPawnRow_states, List.map_nil]
  decide

/-! ## The `hasMoved` flag -/

/-- After a successful `movePiece(p, d)` the entries of the list that are the object `p` have
`hasMoved` set. -/
theorem movePiece_sets_hasMoved {board : ChessBoard} {p : ChessPiece} {d : ChessPosition}
    {info : MoveInfo} (h : (board.movePiece p d).1 = some info) :
    info.piece.hasMoved = true ∧
      ∀ r ∈ (board.movePiece p d).2.pieces, r.id = p.id → r.hasMoved = true := by
  obtain ⟨_, hinfo, hpieces⟩ := movePiece_some h
  refine ⟨by rw [hinfo], ?_⟩
  intro r hr hid
  rw [hpieces] at hr
  obtain ⟨r0, _, rfl⟩ := List.mem_map.1 hr
  rw [relocate_id] at hid
  unfold relocate
  rw [if_pos hid]

/-- One call of `movePiece` resets no `hasMoved` flag. -/
theorem movePiece_hasMoved_mono (board : ChessBoard) (p : ChessPiece) (d : ChessPosition)
    (hid : board.DistinctObjects) {r r' : ChessPiece} (hr : r ∈ board.pieces)
    (hr' : r' ∈ (board.movePiece p d).2.pieces) (hsame : r'.id = r.id)
    (hm : r.hasMoved = true) : r'.hasMoved = true := by
  by_cases h : d ∈ p.getValidMoves board
  · rw [movePiece_of_mem board p d h] at hr'
    obtain ⟨r0, hr0, rfl⟩ := List.mem_map.1 hr'
    have hr0' := (captureStep_sublist board p d).subset hr0
    rw [relocate_id] at hsame
    have : r0 = r := eq_of_id_eq hid hr0' hr hsame
    subst this
    unfold relocate
    split_ifs
    · rfl
    · exact hm
  · rw [movePiece_snd_of_not_mem board p d h] at hr'
    rw [eq_of_id_eq hid hr' hr hsame]; exact hm

/-- Every piece of the list after `movePiece` is an object of the list before. -/
theorem movePiece_ids_subset (board : ChessBoard) (p : ChessPiece) (d : ChessPosition)
    {r' : ChessPiece} (hr' : r' ∈ (board.movePiece p d).2.pieces) :
    ∃ r ∈ board.pieces, r.id = r'.id := by
  by_cases h : d ∈ p.getValidMoves board
  · rw [movePiece_of_mem board p d h] at hr'
    obtain ⟨r0, hr0, rfl⟩ := List.mem_map.1 hr'
    exact ⟨r0, (captureStep_sublist board p d).subset hr0, (relocate_id p d r0).symm⟩
  · rw [movePiece_snd_of_not_mem board p d h] at hr'
    exact ⟨r', hr', rfl⟩

/-- Every piece of the list after a sequence of calls is an object of the list before. -/
theorem movePieces_ids_subset (calls : List (ChessPiece × ChessPosition)) :
    ∀ (board : ChessBoard) {r' : ChessPiece}, r' ∈ (board.movePieces calls).pieces →
      ∃ r ∈ board.pieces, r.id = r'.id := by
  induction calls with
  | nil => intro board r' hr'; exact ⟨r', hr', rfl⟩
  | cons call rest ih =>
    intro board r' hr'
    obtain ⟨y, hy, hyx⟩ := ih _ hr'
    obtain ⟨z, hz, hzy⟩ := movePiece_ids_subset board call.1 call.2 hy
    exact ⟨z, hz, hzy.trans hyx⟩

theorem movePieces_distinctObjects (calls : List (ChessPiece × ChessPosition)) :
    ∀ board : ChessBoard, board.DistinctObjects → (board.movePieces calls).DistinctObjects := by
  induction calls with
  | nil => intro board h; exact h
  | cons call rest ih =>
    intro board h
    exact ih _ (movePiece_distinctObjects board call.1 call.2 h)

/-- No sequence of calls of `movePiece` resets a `hasMoved` flag. -/
theorem movePieces_hasMoved_mono (calls : List (ChessPiece × ChessPosition)) :
    ∀ board : ChessBoard, board.DistinctObjects → ∀ {r r' : ChessPiece}, r ∈ board.pieces →
      r' ∈ (board.movePieces calls).pieces → r'.id = r.id → r.hasMoved = true →
      r'.hasMoved = true := by
  induction calls with
  | nil =>
    intro board hid r r' hr hr' hsame hm
    rw [eq_of_id_eq hid hr' hr hsame]; exact hm
  | cons call rest ih =>
    intro board hid r r' hr hr' hsame hm
    have hid1 := movePiece_distinctObjects board call.1 call.2 hid
    by_cases hex : ∃ r1 ∈ (board.movePiece call.1 call.2).2.pieces, r1.id = r.id
    · obtain ⟨r1, hr1, h1⟩ := hex
      have hm1 := movePiece_hasMoved_mono board call.1 call.2 hid hr hr1 h1 hm
      exact ih _ hid1 hr1 hr' (hsame.trans h1.symm) hm1
    · exfalso
      apply hex
      obtain ⟨y, hy, hyx⟩ := movePieces_ids_subset rest _ hr'
      exact ⟨y, hy, hyx.trans hsame⟩

/-! ## Knight, king and pawn -/

theorem offsetMoves_sublist (self : ChessPiece) (board : ChessBoard)
    (offsets : List (Int × Int)) :
    (offsetMoves self board offsets).Sublist
      (offsets.map (fun o => (⟨self.position.x + o.1, self.position.y + o.2⟩ :
        ChessPosition))) :=
  List.filter_sublist _

theorem offsetMoves_length_le (self : ChessPiece) (board : ChessBoard)
    (offsets : List (Int × Int)) :
    (offsetMoves self board offsets).length ≤ offsets.length := by
  have h := (offsetMoves_sublist self board offsets).length_le
  rwa [List.length_map] at h

theorem offsetMoves_mem_iff (self : ChessPiece) (board : ChessBoard)
    (offsets : List (Int × Int)) (s : ChessPosition) :
    s ∈ offsetMoves self board offsets ↔
      (∃ o ∈ offsets, s = ⟨self.position.x + o.1, self.position.y + o.2⟩) ∧
        board.isWithinBounds s = true ∧
        (board.getPieceAt s = none ∨
          ∃ t, board.getPieceAt s = some t ∧ t.color ≠ self.color) := by
  unfold offsetMoves
  rw [List.mem_filter, List.mem_map, Bool.and_eq_true]
  have h1 : (∃ a ∈ offsets, (⟨self.position.x + a.1, self.position.y + a.2⟩ : ChessPosition) = s)
      ↔ ∃ o ∈ offsets, s = ⟨self.position.x + o.1, self.position.y + o.2⟩ := by
    constructor
    · rintro ⟨a, ha, rfl⟩; exact ⟨a, ha, rfl⟩
    · rintro ⟨a, ha, rfl⟩; exact ⟨a, ha, rfl⟩
  rw [h1]
  cases board.getPieceAt s with
  | none => simp
  | some t => simp

/-- The square two ranks forward is returned only when it is empty. -/
theorem pawn_double_step_empty (self : ChessPiece) (board : ChessBoard)
    (h : (⟨self.position.x, self.position.y + 2 * self.direction⟩ : ChessPosition) ∈
      self.getPawnMoves board) :
    board.getPieceAt ⟨self.position.x, self.position.y + 2 * self.direction⟩ = none := by
  have hdir : self.direction = -1 ∨ self.direction = 1 := by
    unfold ChessPiece.direction; split_ifs <;> simp
  rcases (mem_getPawnMoves_iff self board _).1 h with ⟨h, _⟩ | ⟨_, _, _, _, h2⟩ | ⟨h | h, _⟩
  · simp only [ChessPosition.mk.injEq, true_and] at h; omega
  · exact h2
  · simp only [ChessPosition.mk.injEq] at h; omega
  · simp only [ChessPosition.mk.injEq] at h; omega

/-! ## Queen, rook and bishop -/

/-- `getLineMoves` reads the colour and the square of the piece only. -/
theorem getLineMovesFuel_congr (fuel : Nat) (self other : ChessPiece) (board : ChessBoard)
    (hc : self.color = other.color) (hp : self.position = other.position) :
    ∀ directions : List (Int × Int),
      getLineMovesFuel fuel self board directions =
        getLineMovesFuel fuel other board directions := by
  intro directions
  induction directions with
  | nil => rfl
  | cons dir rest ih => rw [getLineMovesFuel, getLineMovesFuel, ih, hc, hp]

/-- The scan of a list of directions followed by the scan of another. -/
theorem getLineMovesFuel_append (fuel : Nat) (self : ChessPiece) (board : ChessBoard)
    (second : List (Int × Int)) {l2 : List ChessPosition}
    (h2 : getLineMovesFuel fuel self board second = some l2) :
    ∀ (first : List (Int × Int)) (l1 : List ChessPosition),
      getLineMovesFuel fuel self board first = some l1 →
      getLineMovesFuel fuel self board (first ++ second) = some (l1 ++ l2) := by
  intro first
  induction first with
  | nil =>
    intro l1 h1
    simp only [getLineMovesFuel, Option.some.injEq] at h1
    subst h1
    simpa using h2
  | cons dir rest ih =>
    intro l1 h1
    rw [List.cons_append, getLineMovesFuel]
    rw [getLineMovesFuel] at h1
    cases hl : lineLoop board self.color dir.1 dir.2 fuel
        (self.position.x + dir.1) (self.position.y + dir.2) with
    | none => rw [hl] at h1; simp at h1
    | some line =>
      rw [hl] at h1
      simp only [Option.map_eq_some'] at h1
      obtain ⟨more, hmore, rfl⟩ := h1
      simp only [ih more hmore, Option.map_some', List.append_assoc]

/-- The queen's list is the rook's list followed by the bishop's. -/
theorem getQueenMoves_eq_append (self : ChessPiece) (board : ChessBoard) :
    self.getQueenMoves board = self.getRookMoves board ++ self.getBishopMoves board := by
  have hr := getLineMovesFuel_eq self board unitDirections_rook (le_refl board.scanFuel)
  have hb := getLineMovesFuel_eq self board unitDirections_bishop (le_refl board.scanFuel)
  have hq := getLineMovesFuel_append board.scanFuel self board bishopDirections hb
    rookDirections _ hr
  have hdirs : rookDirections ++ bishopDirections = queenDirections := by decide
  rw [hdirs] at hq
  unfold ChessPiece.getQueenMoves ChessPiece.getLineMoves
  rw [hq]
  rfl

/-- The square two ranks forward that `getPawnMoves` returns is within bounds unless the board
has height 3. -/
theorem pawn_double_step_withinBounds (self : ChessPiece) (board : ChessBoard)
    (hh : board.height ≠ 3)
    (h : (⟨self.position.x, self.position.y + 2 * self.direction⟩ : ChessPosition) ∈
      self.getPawnMoves board) :
    board.isWithinBounds ⟨self.position.x, self.position.y + 2 * self.direction⟩ = true := by
  have hrow : self.startRow = 6 ∧ self.direction = -1 ∨
      self.startRow = 1 ∧ self.direction = 1 := by
    unfold ChessPiece.startRow ChessPiece.direction; split_ifs <;> simp
  rcases (mem_getPawnMoves_iff self board _).1 h with ⟨h, _⟩ | ⟨_, hb, _, hs, _⟩ | ⟨h | h, _⟩
  · simp only [ChessPosition.mk.injEq, true_and] at h; omega
  · rw [isWithinBounds_iff] at hb ⊢
    simp only at hb ⊢
    omega
  · simp only [ChessPosition.mk.injEq] at h; omega
  · simp only [ChessPosition.mk.injEq] at h; omega

/-! ## Length of a line -/

theorem ScanOutcome.length_eq {board : ChessBoard} {color : Color} {dx dy x y : Int} {n : Nat}
    {line : List ChessPosition} (h : ScanOutcome board color dx dy x y n line) :
    line.length = n ∨
      (line.length = n + 1 ∧ board.isWithinBounds (stepFrom x y dx dy n) = true) := by
  rcases h.2 with ⟨_, rfl⟩ | ⟨hin, t, _, rfl⟩
  · left; simp
  · by_cases hc : t.color ≠ color
    · right; rw [if_pos hc]; simp [hin]
    · left; rw [if_neg hc]; simp

/-- Every square of a line is on the board, the last one too. -/
theorem ScanOutcome.last_withinBounds {board : ChessBoard} {color : Color} {dx dy x y : Int}
    {n : Nat} {line : List ChessPosition} (h : ScanOutcome board color dx dy x y n line)
    (hpos : 0 < line.length) :
    board.isWithinBounds (stepFrom x y dx dy (line.length - 1)) = true := by
  rcases h.length_eq with hl | ⟨hl, hin⟩
  · rw [hl]; exact (h.1 (n - 1) (by omega)).1
  · rw [hl]; exact hin

/-- A piece within bounds gets fewer than `max width height` squares in a unit direction. -/
theorem ScanOutcome.length_lt (self : ChessPiece) {board : ChessBoard} {dir : Int × Int}
    (hdir : dir ∈ queenDirections) {n : Nat} {line : List ChessPosition}
    (h : ScanOutcome board self.color dir.1 dir.2
      (self.position.x + dir.1) (self.position.y + dir.2) n line)
    (hself : board.isWithinBounds self.position = true) :
    (line.length : Int) < max board.width board.height := by
  have hs := (isWithinBounds_iff _ _).1 hself
  have h1 := le_max_left board.width board.height
  have h2 := le_max_right board.width board.height
  rcases Nat.eq_zero_or_pos line.length with h0 | hpos
  · rw [h0]; simp only [Nat.cast_zero]; omega
  · have hlast := (isWithinBounds_iff _ _).1 (h.last_withinBounds hpos)
    simp only [stepFrom] at hlast
    have hcast : ((line.length - 1 : Nat) : Int) = (line.length : Int) - 1 := by omega
    rw [hcast] at hlast
    simp only [queenDirections, List.mem_cons, List.mem_singleton, List.not_mem_nil,
      or_false] at hdir
    rcases hdir with rfl | rfl | rfl | rfl | rfl | rfl | rfl | rfl <;>
      simp only at hlast <;> omega

/-! ## The exact result of `getLineMoves` -/

/-- A returned `getLineMoves` has pushed the lines of its directions, one after the other. -/
theorem getLineMovesFuel_lines (fuel : Nat) (self : ChessPiece) (board : ChessBoard) :
    ∀ (directions : List (Int × Int)) (moves : List ChessPosition),
      getLineMovesFuel fuel self board directions = some moves →
      ∃ lines, LinesOutcome board self directions lines ∧ moves = lines.flatten := by
  intro directions
  induction directions with
  | nil =>
    intro moves h
    simp only [getLineMovesFuel, Option.some.injEq] at h
    exact ⟨[], List.Forall₂.nil, by rw [← h]; rfl⟩
  | cons dir rest ih =>
    intro moves h
    rw [getLineMovesFuel] at h
    cases hl : lineLoop board self.color dir.1 dir.2 fuel
        (self.position.x + dir.1) (self.position.y + dir.2) with
    | none => rw [hl] at h; simp at h
    | some line =>
      rw [hl] at h
      simp only [Option.map_eq_some'] at h
      obtain ⟨more, hmore, rfl⟩ := h
      obtain ⟨lines, hlines, rfl⟩ := ih more hmore
      obtain ⟨n, hn⟩ := lineLoop_outcome board self.color dir.1 dir.2 _ _ _ line hl
      exact ⟨line :: lines, List.Forall₂.cons ⟨n, hn⟩ hlines, by simp⟩

/-- The loop leaves at once when it is entered on a square that is occupied or off the
board. -/
theorem lineLoop_isSome_of_blocked (board : ChessBoard) (color : Color) (dx dy : Int)
    {fuel : Nat} (hfuel : 0 < fuel) {x y : Int}
    (h : board.getPieceAt ⟨x, y⟩ ≠ none ∨ board.isWithinBounds ⟨x, y⟩ = false) :
    (lineLoop board color dx dy fuel x y).isSome = true := by
  obtain ⟨k, rfl⟩ : ∃ k, fuel = k + 1 := ⟨fuel - 1, by omega⟩
  rw [lineLoop]
  by_cases hb : board.isWithinBounds ⟨x, y⟩ = true
  · rw [if_pos hb]
    cases hp : board.getPieceAt ⟨x, y⟩ with
    | some t => by_cases hc : t.color ≠ color <;> simp [hc]
    | none =>
      rcases h with h | h
      · exact absurd hp h
      · rw [hb] at h; exact Bool.noConfusion h
  · rw [if_neg hb]; rfl

/-- With the step (0, 0) the loop never leaves an empty square of the board. -/
theorem lineLoop_zero_never_leaves (board : ChessBoard) (color : Color) {x y : Int}
    (hb : board.isWithinBounds ⟨x, y⟩ = true) (hp : board.getPieceAt ⟨x, y⟩ = none) :
    ∀ fuel, lineLoop board color 0 0 fuel x y = none := by
  intro fuel
  induction fuel with
  | zero => rfl
  | succ k ih =>
    rw [lineLoop, if_pos hb, hp]
    simp only [add_zero, ih, Option.map_none']

/-- `getLineMoves` returns when no direction is the step (0, 0), or when the piece's own
square is occupied or off the board. -/
theorem getLineMovesFuel_returns (self : ChessPiece) (board : ChessBoard) {fuel : Nat}
    (hfuel : board.scanFuel ≤ fuel) :
    ∀ directions : List (Int × Int),
      ((∀ dir ∈ directions, dir ≠ (0, 0)) ∨ board.getPieceAt self.position ≠ none ∨
        board.isWithinBounds self.position = false) →
      (getLineMovesFuel fuel self board directions).isSome = true := by
  have hpos : 0 < fuel := by unfold ChessBoard.scanFuel at hfuel; omega
  intro directions
  induction directions with
  | nil => intro _; rfl
  | cons dir rest ih =>
    intro h
    have hrest : (∀ d ∈ rest, d ≠ (0, 0)) ∨ board.getPieceAt self.position ≠ none ∨
        board.isWithinBounds self.position = false := by
      rcases h with h | h
      · exact Or.inl (fun d hd => h d (List.mem_cons_of_mem _ hd))
      · exact Or.inr h
    have h1 : (lineLoop board self.color dir.1 dir.2 fuel
        (self.position.x + dir.1) (self.position.y + dir.2)).isSome = true := by
      by_cases hz : dir = (0, 0)
      · rcases h with h | h
        · exact absurd hz (h dir (List.mem_cons_self _ _))
        · subst hz
          apply lineLoop_isSome_of_blocked board self.color 0 0 hpos
          simpa using h
      · apply lineLoop_isSome board self.color dir.1 dir.2 _ fuel _ _ hpos
        · exact fun hb => lt_of_lt_of_le (remaining_lt_scanFuel board _ _ _ _ hb) hfuel
        · by_contra hc
          push_neg at hc
          exact hz (Prod.ext hc.1 hc.2)
    have h2 := ih hrest
    rw [Option.isSome_iff_exists] at h1 h2
    obtain ⟨line, hline⟩ := h1
    obtain ⟨more, hmore⟩ := h2
    rw [getLineMovesFuel, hline]
    simp [hmore]

/-! ## No square twice -/

theorem stepFrom_injective {x y dx dy : Int} (hdir : dx ≠ 0 ∨ dy ≠ 0) {i j : Nat}
    (h : stepFrom x y dx dy i = stepFrom x y dx dy j) : i = j := by
  simp only [stepFrom, ChessPosition.mk.injEq, add_right_inj] at h
  rcases hdir with hd | hd
  · have := mul_right_cancel₀ hd h.1
    exact_mod_cast this
  · have := mul_right_cancel₀ hd h.2
    exact_mod_cast this

/-- The line of a non-zero direction holds no square twice. -/
theorem ScanOutcome.nodup {board : ChessBoard} {color : Color} {dx dy x y : Int} {n : Nat}
    {line : List ChessPosition} (h : ScanOutcome board color dx dy x y n line)
    (hdir : dx ≠ 0 ∨ dy ≠ 0) : line.Nodup := by
  have hall : ((List.range (n + 1)).map (stepFrom x y dx dy)).Nodup :=
    (List.nodup_range (n + 1)).map_on (fun i _ j _ hij => stepFrom_injective hdir hij)
  have hsub : line.Sublist ((List.range (n + 1)).map (stepFrom x y dx dy)) := by
    rw [List.range_succ, List.map_append, List.map_singleton]
    rcases h.2 with ⟨_, rfl⟩ | ⟨_, t, _, rfl⟩
    · exact List.sublist_append_left _ _
    · by_cases hc : t.color ≠ color
      · rw [if_pos hc]
      · rw [if_neg hc]
        exact (List.Sublist.refl _).append (List.nil_sublist _)
  exact hsub.nodup hall

/-- Every square of a line is a square of the ray of its direction. -/
theorem ScanOutcome.mem_ray (self : ChessPiece) {board : ChessBoard} {dir : Int × Int}
    {n : Nat} {line : List ChessPosition}
    (h : ScanOutcome board self.color dir.1 dir.2
      (self.position.x + dir.1) (self.position.y + dir.2) n line)
    {p : ChessPosition} (hp : p ∈ line) : ∃ j, 1 ≤ j ∧ p = self.ray dir j := by
  rcases (h.mem_iff p).1 hp with ⟨i, _, rfl⟩ | ⟨rfl, _⟩
  · exact ⟨i + 1, by omega, ray_eq_stepFrom self dir i⟩
  · exact ⟨n + 1, by omega, ray_eq_stepFrom self dir n⟩

theorem getLineMovesFuel_nodup (fuel : Nat) (self : ChessPiece) (board : ChessBoard) :
    ∀ directions : List (Int × Int), UnitDirections directions → directions.Nodup →
      ∀ moves, getLineMovesFuel fuel self board directions = some moves → moves.Nodup := by
  intro directions
  induction directions with
  | nil =>
    intro _ _ moves h
    simp only [getLineMovesFuel, Option.some.injEq] at h
    rw [← h]; exact List.nodup_nil
  | cons dir rest ih =>
    intro hdirs hnd moves h
    have hrest : UnitDirections rest := fun d hd => hdirs d (List.mem_cons_of_mem _ hd)
    rw [List.nodup_cons] at hnd
    rw [getLineMovesFuel] at h
    cases hl : lineLoop board self.color dir.1 dir.2 fuel
        (self.position.x + dir.1) (self.position.y + dir.2) with
    | none => rw [hl] at h; simp at h
    | some line =>
      rw [hl] at h
      simp only [Option.map_eq_some'] at h
      obtain ⟨more, hmore, rfl⟩ := h
      obtain ⟨n, hn⟩ := lineLoop_outcome board self.color dir.1 dir.2 _ _ _ line hl
      have hdq := hdirs dir (List.mem_cons_self _ _)
      rw [List.nodup_append]
      refine ⟨hn.nodup (unitDirections_queen.nonzero dir hdq), ih hrest hnd.2 more hmore, ?_⟩
      intro p hp1 hp2
      obtain ⟨j, hj, rfl⟩ := hn.mem_ray self hp1
      obtain ⟨d', hd', line', hl', hp'⟩ :=
        (getLineMovesFuel_mem self board fuel rest more hmore _).1 hp2
      obtain ⟨n', hn'⟩ := lineLoop_outcome board self.color d'.1 d'.2 _ _ _ line' hl'
      obtain ⟨j', hj', heq⟩ := hn'.mem_ray self hp'
      obtain ⟨rfl, _⟩ := ray_injective self hdq (hrest d' hd') hj hj' heq
      exact hnd.1 hd'

theorem getLineMoves_nodup (self : ChessPiece) (board : ChessBoard)
    {directions : List (Int × Int)} (hdirs : UnitDirections directions)
    (hnd : directions.Nodup) : ((self.getLineMoves board directions).getD []).Nodup := by
  have h := getLineMovesFuel_eq self board hdirs (le_refl board.scanFuel)
  exact getLineMovesFuel_nodup _ self board directions hdirs hnd _ h

theorem offsetMoves_nodup (self : ChessPiece) (board : ChessBoard)
    {offsets : List (Int × Int)} (hnd : offsets.Nodup) :
    (offsetMoves self board offsets).Nodup := by
  unfold offsetMoves
  apply List.Nodup.filter
  apply hnd.map
  intro a b hab
  simp only [ChessPosition.mk.injEq, add_right_inj] at hab
  exact Prod.ext hab.1 hab.2

theorem getPawnMoves_nodup (self : ChessPiece) (board : ChessBoard) :
    (self.getPawnMoves board).Nodup := by
  unfold ChessPiece.getPawnMoves
  simp only []
  have hdir : (if self.color = Color.blanca then (-1 : Int) else 1) = -1 ∨
      (if self.color = Color.blanca then (-1 : Int) else 1) = 1 := by
    split_ifs <;> simp
  generalize (if self.color = Color.blanca then (-1 : Int) else 1) = direction at hdir ⊢
  generalize (if self.color = Color.blanca then (6 : Int) else 1) = startRow
  have hall : ([⟨self.position.x, self.position.y + direction⟩,
      ⟨self.position.x, self.position.y + 2 * direction⟩] ++
      [⟨self.position.x - 1, self.position.y + direction⟩,
      ⟨self.position.x + 1, self.position.y + direction⟩] : List ChessPosition).Nodup := by
    simp only [List.cons_append, List.nil_append, List.nodup_cons, List.mem_cons,
      List.mem_singleton, List.not_mem_nil, ChessPosition.mk.injEq, not_or, not_and,
      List.nodup_nil, and_true, not_false_eq_true]
    refine ⟨⟨?_, ?_, ?_⟩, ⟨?_, ?_⟩, ?_⟩ <;> intros <;> omega
  refine List.Sublist.nodup (List.Sublist.append ?_ (List.filter_sublist _)) hall
  split_ifs
  · exact List.Sublist.refl _
  · exact List.Sublist.cons₂ _ (List.nil_sublist _)
  · exact List.Sublist.cons₂ _ (List.nil_sublist _)
  · exact List.nil_sublist _

/-! ## Doubles: where the integer generators are the code's -/

/-- A sum of magnitude up to 2^53 is exact. -/
theorem jsAdd_exact {a b : Int} (h : -maxSafe ≤ a + b ∧ a + b ≤ maxSafe) :
    jsAdd a b = a + b := by
  unfold maxSafe at h
  unfold jsAdd roundDouble roundMagnitude
  have hle : (a + b).natAbs ≤ 9007199254740992 := by omega
  rw [if_pos hle]
  split_ifs <;> omega

/-- From a safe coordinate a step within the reach is exact. -/
theorem jsAdd_safe {reach n : Int} (hn : SafeCoordinate reach n) {o : Int}
    (ho : -reach ≤ o ∧ o ≤ reach) : jsAdd n o = n + o := by
  unfold SafeCoordinate at hn
  exact jsAdd_exact (by constructor <;> omega)

/-- The halvings of `lostBits` leave a number of 53 bits. -/
theorem lostBits_spec : ∀ (fuel m : Nat), m ≤ fuel → 9007199254740992 ≤ m →
    1 ≤ lostBits fuel m ∧ 4503599627370496 ≤ m / 2 ^ lostBits fuel m := by
  intro fuel
  induction fuel with
  | zero => intro m h1 h2; omega
  | succ fuel ih =>
    intro m h1 h2
    rw [lostBits, if_neg (by omega)]
    refine ⟨by omega, ?_⟩
    by_cases hsmall : m / 2 < 9007199254740992
    · have h0 : lostBits fuel (m / 2) = 0 := by
        cases fuel with
        | zero => rfl
        | succ k => rw [lostBits, if_pos hsmall]
      rw [h0]
      simp only [zero_add, pow_one]
      omega
    · have := (ih (m / 2) (by omega) (by omega)).2
      rw [pow_succ, mul_comm, ← Nat.div_div_eq_div_mul]
      exact this

/-- Beyond 2^53 the nearest double is of magnitude 2^53 at least. -/
theorem roundMagnitude_far {m : Nat} (h : 9007199254740992 < m) :
    9007199254740992 ≤ roundMagnitude m := by
  unfold roundMagnitude
  rw [if_neg (by omega)]
  obtain ⟨hs, hq⟩ := lostBits_spec m m le_rfl (by omega)
  have hpow : 2 ≤ 2 ^ lostBits m m := by
    calc 2 = 2 ^ 1 := rfl
      _ ≤ 2 ^ lostBits m m := Nat.pow_le_pow_right (by omega) hs
  have hmul : 4503599627370496 * 2 ≤ m / 2 ^ lostBits m m * 2 ^ lostBits m m :=
    Nat.mul_le_mul hq hpow
  simp only
  split_ifs
  · have : m / 2 ^ lostBits m m * 2 ^ lostBits m m ≤
        (m / 2 ^ lostBits m m + 1) * 2 ^ lostBits m m :=
      Nat.mul_le_mul_right _ (by omega)
    omega
  · omega

/-- A sum beyond 2^53 in magnitude is rounded to a double beyond or at 2^53. -/
theorem jsAdd_far {a b : Int} :
    (maxSafe < a + b → maxSafe ≤ jsAdd a b) ∧ (a + b < -maxSafe → jsAdd a b ≤ -maxSafe) := by
  unfold maxSafe jsAdd roundDouble
  constructor
  · intro h
    have := roundMagnitude_far (m := (a + b).natAbs) (by omega)
    rw [if_neg (by omega)]
    omega
  · intro h
    have := roundMagnitude_far (m := (a + b).natAbs) (by omega)
    rw [if_pos (by omega)]
    omega

/-- On safe integers the pawn generator adds as over the integers. -/
theorem double_getPawnMoves_eq (self : ChessPiece) (board : ChessBoard)
    (hx : SafeCoordinate 1 self.position.x) (hy : SafeCoordinate 1 self.position.y) :
    Double.getPawnMoves self board = self.getPawnMoves board := by
  have hd : -1 ≤ (if self.color = Color.blanca then (-1 : Int) else 1) ∧
      (if self.color = Color.blanca then (-1 : Int) else 1) ≤ 1 := by
    split_ifs <;> omega
  have h1 := jsAdd_safe hy hd
  have hl := jsAdd_safe hx (show -(1 : Int) ≤ -1 ∧ (-1 : Int) ≤ 1 by omega)
  have hr := jsAdd_safe hx (show -(1 : Int) ≤ 1 ∧ (1 : Int) ≤ 1 by omega)
  unfold Double.getPawnMoves ChessPiece.getPawnMoves
  by_cases hrow : self.position.y = (if self.color = Color.blanca then (6 : Int) else 1)
  · have h2 : jsAdd self.position.y (2 * (if self.color = Color.blanca then (-1 : Int) else 1)) =
        self.position.y + 2 * (if self.color = Color.blanca then (-1 : Int) else 1) := by
      apply jsAdd_exact
      rw [hrow]
      unfold maxSafe
      split_ifs <;> omega
    simp only [h1, h2, hl, hr]
    rfl
  · simp only [h1, hl, hr, if_neg hrow]
    rfl

/-- The rank of a square of the pawn generator of the code: one step forward of the pawn, or
two from the start row. -/
theorem double_getPawnMoves_rank (self : ChessPiece) (board : ChessBoard) (m : ChessPosition)
    (hm : m ∈ Double.getPawnMoves self board) :
    m.y = jsAdd self.position.y self.direction ∨
      (self.position.y = self.startRow ∧ m.y = jsAdd self.position.y (2 * self.direction)) := by
  unfold Double.getPawnMoves at hm
  unfold ChessPiece.direction ChessPiece.startRow
  simp only [List.mem_append, List.mem_filter, List.mem_cons, List.mem_singleton,
    List.not_mem_nil, or_false] at hm
  generalize (if self.color = Color.blanca then (-1 : Int) else 1) = d at hm ⊢
  generalize (if self.color = Color.blanca then (6 : Int) else 1) = s at hm ⊢
  rcases hm with hm | ⟨hm, -⟩
  · split_ifs at hm with h1 h2 h3
    · simp only [List.mem_cons, List.mem_singleton, List.not_mem_nil, or_false] at hm
      rcases hm with rfl | rfl
      · exact Or.inl rfl
      · exact Or.inr ⟨h2, rfl⟩
    · simp only [List.mem_singleton] at hm
      subst hm
      exact Or.inl rfl
    · simp only [List.mem_singleton] at hm
      subst hm
      exact Or.inl rfl
    · simp at hm
  · rcases hm with rfl | rfl <;> exact Or.inl rfl

/-- From safe coordinates the offsets within the reach are added as over the integers. -/
theorem double_offsetMoves_eq (self : ChessPiece) (board : ChessBoard) {reach : Int}
    (hx : SafeCoordinate reach self.position.x) (hy : SafeCoordinate reach self.position.y)
    {offsets : List (Int × Int)}
    (hoff : ∀ o ∈ offsets, (-reach ≤ o.1 ∧ o.1 ≤ reach) ∧ (-reach ≤ o.2 ∧ o.2 ≤ reach)) :
    Double.offsetMoves self board offsets = offsetMoves self board offsets := by
  unfold Double.offsetMoves offsetMoves
  congr 1
  apply List.map_congr_left
  intro o ho
  rw [jsAdd_safe hx (hoff o ho).1, jsAdd_safe hy (hoff o ho).2]

/-- On a board of width and height up to 2^53: when the loop walks as over the integers from
every square, it does so too from the square that a step of the code leads to, which is the
square of the exact sum or, when the sum is rounded, another square off the board. -/
theorem double_step_eq (board : ChessBoard) (color : Color) (dx dy : Int)
    (hw : board.width ≤ maxSafe) (hh : board.height ≤ maxSafe) (fuel : Nat)
    (hloop : ∀ x y : Int,
      Double.lineLoop board color dx dy fuel x y = Chess.lineLoop board color dx dy fuel x y)
    (x y : Int) :
    Double.lineLoop board color dx dy fuel (jsAdd x dx) (jsAdd y dy) =
      Chess.lineLoop board color dx dy fuel (x + dx) (y + dy) := by
  rw [hloop]
  by_cases hex : (-maxSafe ≤ x + dx ∧ x + dx ≤ maxSafe) ∧ (-maxSafe ≤ y + dy ∧ y + dy ≤ maxSafe)
  · rw [jsAdd_exact hex.1, jsAdd_exact hex.2]
  · have hfx := @jsAdd_far x dx
    have hfy := @jsAdd_far y dy
    have ho1 : ¬ board.isWithinBounds ⟨jsAdd x dx, jsAdd y dy⟩ = true := by
      intro hb
      have hb' := (isWithinBounds_iff _ _).1 hb
      simp only at hb'
      unfold maxSafe at *
      omega
    have ho2 : ¬ board.isWithinBounds ⟨x + dx, y + dy⟩ = true := by
      intro hb
      have hb' := (isWithinBounds_iff _ _).1 hb
      simp only at hb'
      unfold maxSafe at *
      omega
    cases fuel with
    | zero => rfl
    | succ k => rw [Chess.lineLoop, Chess.lineLoop, if_neg ho1, if_neg ho2]

/-- On a board of width and height up to 2^53 the loop walks as over the integers, whatever
the step and wherever it is entered. -/
theorem double_lineLoop_eq (board : ChessBoard) (color : Color) (dx dy : Int)
    (hw : board.width ≤ maxSafe) (hh : board.height ≤ maxSafe) :
    ∀ (fuel : Nat) (x y : Int),
      Double.lineLoop board color dx dy fuel x y = Chess.lineLoop board color dx dy fuel x y := by
  intro fuel
  induction fuel with
  | zero => intro x y; rfl
  | succ fuel ih =>
    intro x y
    rw [Double.lineLoop, Chess.lineLoop, double_step_eq board color dx dy hw hh fuel ih]

/-- On a board of width and height up to 2^53 the loop is entered as over the integers. -/
theorem double_start_eq (board : ChessBoard) (color : Color) (dx dy : Int)
    (hw : board.width ≤ maxSafe) (hh : board.height ≤ maxSafe) (x y : Int) (fuel : Nat) :
    Double.lineLoop board color dx dy fuel (jsAdd x dx) (jsAdd y dy) =
      Chess.lineLoop board color dx dy fuel (x + dx) (y + dy) :=
  double_step_eq board color dx dy hw hh fuel (double_lineLoop_eq board color dx dy hw hh fuel)
    x y

/-- On a board of width and height up to 2^53 the scan is the scan over the integers, for
every fuel, every list of directions and from every square. -/
theorem double_getLineMovesFuel_eq (fuel : Nat) (self : ChessPiece) (board : ChessBoard)
    (hw : board.width ≤ maxSafe) (hh : board.height ≤ maxSafe) :
    ∀ directions : List (Int × Int),
      Double.getLineMovesFuel fuel self board directions =
        Chess.getLineMovesFuel fuel self board directions := by
  intro directions
  induction directions with
  | nil => rfl
  | cons dir rest ih =>
    rw [Double.getLineMovesFuel, Chess.getLineMovesFuel,
      double_start_eq board self.color dir.1 dir.2 hw hh, ih]

/-- On a board of width and height up to 2^53 `getLineMoves` is `getLineMoves` over the
integers. -/
theorem double_getLineMoves_eq (self : ChessPiece) (board : ChessBoard)
    (hw : board.width ≤ maxSafe) (hh : board.height ≤ maxSafe)
    (directions : List (Int × Int)) :
    Double.getLineMoves self board directions = self.getLineMoves board directions :=
  double_getLineMovesFuel_eq _ self board hw hh directions

/-- The offsets of the knight are of magnitude at most 2. -/
theorem knightOffsets_reach :
    ∀ o ∈ knightOffsets, (-(2 : Int) ≤ o.1 ∧ o.1 ≤ 2) ∧ (-(2 : Int) ≤ o.2 ∧ o.2 ≤ 2) := by
  decide

/-- The offsets of the king are of magnitude at most 1. -/
theorem kingOffsets_reach :
    ∀ o ∈ kingOffsets, (-(1 : Int) ≤ o.1 ∧ o.1 ≤ 1) ∧ (-(1 : Int) ≤ o.2 ∧ o.2 ≤ 1) := by
  decide

/-- Within the exact range the generator of the code returns, and returns the list of the
generator over the integers. -/
theorem double_getValidMoves_eq (board : ChessBoard) (self : ChessPiece)
    (h : ExactRange board self) :
    Double.getValidMoves self board = some (self.getValidMoves board) := by
  unfold ExactRange at h
  unfold Double.getValidMoves ChessPiece.getValidMoves
  cases ht : self.type <;> rw [ht] at h <;> simp only at h ⊢
  · rw [double_getPawnMoves_eq self board h.1 h.2]
  · exact congrArg some (double_offsetMoves_eq self board h.1 h.2 knightOffsets_reach)
  · unfold Double.getBishopMoves
    rw [double_getLineMoves_eq self board h.1 h.2]
    exact getLineMovesFuel_eq self board unitDirections_bishop (le_refl _)
  · unfold Double.getRookMoves
    rw [double_getLineMoves_eq self board h.1 h.2]
    exact getLineMovesFuel_eq self board unitDirections_rook (le_refl _)
  · unfold Double.getQueenMoves
    rw [double_getLineMoves_eq self board h.1 h.2]
    exact getLineMovesFuel_eq self board unitDirections_queen (le_refl _)
  · exact congrArg some (double_offsetMoves_eq self board h.1 h.2 kingOffsets_reach)

/-- A loop that steps onto the square it is on never leaves when that square is empty and on
the board. -/
theorem double_lineLoop_stalls (board : ChessBoard) (color : Color) {dx dy x y : Int}
    (hb : board.isWithinBounds ⟨x, y⟩ = true) (hp : board.getPieceAt ⟨x, y⟩ = none)
    (hx : jsAdd x dx = x) (hy : jsAdd y dy = y) :
    ∀ fuel, Double.lineLoop board color dx dy fuel x y = none := by
  intro fuel
  induction fuel with
  | zero => rfl
  | succ k ih => rw [Double.lineLoop, if_pos hb, hp]; simp only [hx, hy, ih, Option.map_none']

/-- A loop does not leave from an empty square of the board when it does not leave from the
next. -/
theorem double_lineLoop_none_of_next (board : ChessBoard) (color : Color) {dx dy x y : Int}
    (hb : board.isWithinBounds ⟨x, y⟩ = true) (hp : board.getPieceAt ⟨x, y⟩ = none)
    (hnext : ∀ fuel, Double.lineLoop board color dx dy fuel (jsAdd x dx) (jsAdd y dy) = none) :
    ∀ fuel, Double.lineLoop board color dx dy fuel x y = none := by
  intro fuel
  cases fuel with
  | zero => rfl
  | succ k => rw [Double.lineLoop, if_pos hb, hp]; simp only [hnext k, Option.map_none']

/-- `getLineMoves` does not return when the loop of one of its directions does not. -/
theorem double_getLineMovesFuel_none (fuel : Nat) (self : ChessPiece) (board : ChessBoard) :
    ∀ (directions : List (Int × Int)) (dir : Int × Int), dir ∈ directions →
      Double.lineLoop board self.color dir.1 dir.2 fuel
        (jsAdd self.position.x dir.1) (jsAdd self.position.y dir.2) = none →
      Double.getLineMovesFuel fuel self board directions = none := by
  intro directions
  induction directions with
  | nil => intro dir hd; simp at hd
  | cons d rest ih =>
    intro dir hd hnone
    rw [Double.getLineMovesFuel]
    rcases List.mem_cons.1 hd with rfl | hd
    · rw [hnone]
    · cases hl : Double.lineLoop board self.color d.1 d.2 fuel
          (jsAdd self.position.x d.1) (jsAdd self.position.y d.2) with
      | none => rfl
      | some line => simp only [ih dir hd hnone, Option.map_none']

/-! ## The generators over the integers -/

/-- Over the integers the knight and king generators return, in the order of the offset list,
exactly those of the eight offset squares that are within bounds and are empty or hold a piece
of the other colour: the result is a sublist of the offset squares, an offset square is in it
if and only if it passes that test, and it has at most 8 squares.  The knight's offsets are the
pairs (±1, ±2) and (±2, ±1), the king's the eight unit steps. -/
theorem knight_and_king_moves (board : ChessBoard) (self : ChessPiece) :
    ((self.getKnightMoves board).Sublist
        (knightOffsets.map (fun o => (⟨self.position.x + o.1, self.position.y + o.2⟩ :
          ChessPosition))) ∧
      (∀ s, s ∈ self.getKnightMoves board ↔
        (∃ o ∈ knightOffsets, s = ⟨self.position.x + o.1, self.position.y + o.2⟩) ∧
          board.isWithinBounds s = true ∧
          (board.getPieceAt s = none ∨
            ∃ t, board.getPieceAt s = some t ∧ t.color ≠ self.color)) ∧
      (self.getKnightMoves board).length ≤ 8 ∧
      knightOffsets.length = 8 ∧
      (∀ o : Int × Int, o ∈ knightOffsets ↔
        (o.1.natAbs = 1 ∧ o.2.natAbs = 2) ∨ (o.1.natAbs = 2 ∧ o.2.natAbs = 1))) ∧
    ((self.getKingMoves board).Sublist
        (kingOffsets.map (fun o => (⟨self.position.x + o.1, self.position.y + o.2⟩ :
          ChessPosition))) ∧
      (∀ s, s ∈ self.getKingMoves board ↔
        (∃ o ∈ kingOffsets, s = ⟨self.position.x + o.1, self.position.y + o.2⟩) ∧
          board.isWithinBounds s = true ∧
          (board.getPieceAt s = none ∨
            ∃ t, board.getPieceAt s = some t ∧ t.color ≠ self.color)) ∧
      (self.getKingMoves board).length ≤ 8 ∧
      kingOffsets.length = 8 ∧
      (∀ o : Int × Int, o ∈ kingOffsets ↔
        o.1.natAbs ≤ 1 ∧ o.2.natAbs ≤ 1 ∧ o ≠ (0, 0))) := by
  have hknight : ∀ o : Int × Int, o ∈ knightOffsets ↔
      (o.1.natAbs = 1 ∧ o.2.natAbs = 2) ∨ (o.1.natAbs = 2 ∧ o.2.natAbs = 1) := by
    rintro ⟨a, b⟩
    simp only [knightOffsets, List.mem_cons, List.mem_singleton, List.not_mem_nil, or_false,
      Prod.mk.injEq]
    omega
  have hking : ∀ o : Int × Int, o ∈ kingOffsets ↔
      o.1.natAbs ≤ 1 ∧ o.2.natAbs ≤ 1 ∧ o ≠ (0, 0) := by
    rintro ⟨a, b⟩
    simp only [kingOffsets, List.mem_cons, List.mem_singleton, List.not_mem_nil, or_false,
      Prod.mk.injEq, ne_eq]
    omega
  exact ⟨⟨offsetMoves_sublist self board _, offsetMoves_mem_iff self board _,
      (offsetMoves_length_le self board _).trans (le_of_eq rfl), rfl, hknight⟩,
    ⟨offsetMoves_sublist self board _, offsetMoves_mem_iff self board _,
      (offsetMoves_length_le self board _).trans (le_of_eq rfl), rfl, hking⟩⟩

/-- Over the integers every square of the pawn generator is strictly forward of the pawn. -/
theorem pawn_moves_strictly_forward (board : ChessBoard) (self : ChessPiece) :
    ∀ m ∈ self.getPawnMoves board,
      (self.color = Color.blanca → m.y < self.position.y) ∧
      (self.color = Color.negra → self.position.y < m.y) := by
  intro m hm
  have hd : (self.color = Color.blanca → self.direction = -1) ∧
      (self.color = Color.negra → self.direction = 1) := by
    unfold ChessPiece.direction
    constructor
    · intro h; rw [if_pos h]
    · intro h; rw [if_neg (by rw [h]; decide)]
  rcases (mem_getPawnMoves_iff self board m).1 hm with ⟨rfl, _⟩ | ⟨rfl, _⟩ | ⟨rfl | rfl, _⟩ <;>
    refine ⟨fun h => ?_, fun h => ?_⟩ <;>
    simp only [hd.1, hd.2, h] <;> omega

/-- Why the step (0, 0) is set apart: on the board of `new ChessBoard()` the square e4 is within
bounds and empty, and for a queen made on e4 that is not in the list the `while` loop of
`getLineMoves(board, [(0, 0)])` stays on e4 with whatever fuel.  No generator of the code
passes that step. -/
theorem getLineMoves_zero_step_never_returns :
    ChessBoard.default.isWithinBounds looseQueenE4.position = true ∧
    ChessBoard.default.getPieceAt looseQueenE4.position = none ∧
    (∀ fuel, getLineMovesFuel fuel looseQueenE4 ChessBoard.default [(0, 0)] = none) ∧
    looseQueenE4.getLineMoves ChessBoard.default [(0, 0)] = none := by
  have hnever : ∀ fuel, getLineMovesFuel fuel looseQueenE4 ChessBoard.default [(0, 0)] = none := by
    intro fuel
    have h := lineLoop_zero_never_leaves ChessBoard.default looseQueenE4.color
      (x := 4) (y := 4) (by decide) (by decide) fuel
    rw [getLineMovesFuel]
    have hstart : lineLoop ChessBoard.default looseQueenE4.color ((0, 0) : Int × Int).1
        ((0, 0) : Int × Int).2 fuel (looseQueenE4.position.x + ((0, 0) : Int × Int).1)
        (looseQueenE4.position.y + ((0, 0) : Int × Int).2) = none := h
    rw [hstart]
  exact ⟨by decide, by decide, hnever, hnever _⟩

/-- Over the integers: for every board, piece and direction list such that no direction is the
step (0, 0), or the piece's own square is occupied (as it is for every piece of the list) or
out of bounds, `getLineMoves` returns, with any fuel from `scanFuel` on, the lines of the
directions one after the other in list order; the line of a direction is, in order of
increasing distance, the `n` consecutive squares next to the piece that are within bounds and
empty, followed by the next square exactly when that square is within bounds and holds a piece
of the other colour; the run ends only at a square that is occupied or out of bounds. -/
theorem getLineMoves_exact (board : ChessBoard) (self : ChessPiece)
    (directions : List (Int × Int))
    (h : (∀ dir ∈ directions, dir ≠ (0, 0)) ∨ board.getPieceAt self.position ≠ none ∨
      board.isWithinBounds self.position = false) :
    ∃ lines, LinesOutcome board self directions lines ∧
      self.getLineMoves board directions = some lines.flatten ∧
      (∀ fuel, board.scanFuel ≤ fuel →
        getLineMovesFuel fuel self board directions = some lines.flatten) ∧
      (self ∈ board.pieces → board.getPieceAt self.position ≠ none) := by
  have hsome := getLineMovesFuel_returns self board (le_refl board.scanFuel) directions h
  rw [Option.isSome_iff_exists] at hsome
  obtain ⟨moves, hmoves⟩ := hsome
  obtain ⟨lines, hlines, rfl⟩ := getLineMovesFuel_lines _ self board directions moves hmoves
  refine ⟨lines, hlines, hmoves, ?_, ?_⟩
  · intro fuel hfuel
    exact getLineMovesFuel_mono self board hfuel directions _ hmoves
  · intro hself hnone
    exact getPieceAt_none.1 hnone self hself rfl

/-- Over the integers: for every board and every piece square, the `while` loop of
`getLineMoves` leaves for each rook, bishop and queen direction, with any fuel from `scanFuel`
on and with one result; for a piece within bounds the line has fewer than `max width height`
squares.  So the three generators return. -/
theorem lineLoop_terminates (board : ChessBoard) (self : ChessPiece) (dir : Int × Int)
    (hdir : dir ∈ rookDirections ∨ dir ∈ bishopDirections ∨ dir ∈ queenDirections) :
    (∃ line,
      (∀ fuel, board.scanFuel ≤ fuel →
        lineLoop board self.color dir.1 dir.2 fuel
          (self.position.x + dir.1) (self.position.y + dir.2) = some line) ∧
      (board.isWithinBounds self.position = true →
        (line.length : Int) < max board.width board.height)) ∧
    (∀ fuel, board.scanFuel ≤ fuel →
      getLineMovesFuel fuel self board rookDirections = some (self.getRookMoves board) ∧
      getLineMovesFuel fuel self board bishopDirections = some (self.getBishopMoves board) ∧
      getLineMovesFuel fuel self board queenDirections = some (self.getQueenMoves board)) := by
  have hq : dir ∈ queenDirections := by
    rcases hdir with h | h | h
    · exact unitDirections_rook dir h
    · exact unitDirections_bishop dir h
    · exact h
  have hnz := unitDirections_queen.nonzero dir hq
  have hsome := lineLoop_isSome board self.color dir.1 dir.2 hnz board.scanFuel
    (self.position.x + dir.1) (self.position.y + dir.2)
    (by unfold ChessBoard.scanFuel; omega)
    (fun hb => remaining_lt_scanFuel board _ _ _ _ hb)
  rw [Option.isSome_iff_exists] at hsome
  obtain ⟨line, hline⟩ := hsome
  obtain ⟨n, hout⟩ := lineLoop_outcome board self.color dir.1 dir.2 _ _ _ line hline
  refine ⟨⟨line, ?_, fun hself => hout.length_lt self hq hself⟩, ?_⟩
  · intro fuel hfuel
    exact lineLoop_mono board self.color dir.1 dir.2 _ fuel _ _ line hfuel hline
  · intro fuel hfuel
    exact ⟨getLineMovesFuel_eq self board unitDirections_rook hfuel,
      getLineMovesFuel_eq self board unitDirections_bishop hfuel,
      getLineMovesFuel_eq self board unitDirections_queen hfuel⟩

/-- Over the integers the list of `getValidMoves` holds no square twice. -/
theorem getValidMoves_nodup (board : ChessBoard) (self : ChessPiece) :
    (self.getValidMoves board).Nodup ∧
    (self.getValidMoves board).toFinset.card = (self.getValidMoves board).length := by
  have hnd : (self.getValidMoves board).Nodup := by
    unfold ChessPiece.getValidMoves
    cases self.type <;> simp only
    · exact getPawnMoves_nodup self board
    · exact offsetMoves_nodup self board (by decide)
    · exact getLineMoves_nodup self board unitDirections_bishop (by decide)
    · exact getLineMoves_nodup self board unitDirections_rook (by decide)
    · exact getLineMoves_nodup self board unitDirections_queen (by decide)
    · exact offsetMoves_nodup self board (by decide)
  exact ⟨hnd, List.toFinset_card_of_nodup hnd⟩

/-! # The claims -/

/-- C1: `movePiece(piece, d)` returns `false` if and only if no square of
`piece.getValidMoves(board)`, computed on the board of the call, has the coordinates of `d`;
and when it returns `false` the board after the call is the board before it (the piece list
with every piece's square and `hasMoved` flag). -/
theorem movePiece_false_iff (board : ChessBoard) (piece : ChessPiece) (d : ChessPosition) :
    ((board.movePiece piece d).1 = none ↔
      ¬ ∃ m ∈ piece.getValidMoves board, m.x = d.x ∧ m.y = d.y) ∧
    ((board.movePiece piece d).1 = none → (board.movePiece piece d).2 = board) := by
  have hmem : (∃ m ∈ piece.getValidMoves board, m.x = d.x ∧ m.y = d.y) ↔
      d ∈ piece.getValidMoves board := by
    constructor
    · rintro ⟨m, hm, hx, hy⟩
      have : m = d := by cases m; cases d; simp_all
      rw [← this]; exact hm
    · intro h; exact ⟨d, h, rfl, rfl⟩
  rw [hmem]
  refine ⟨movePiece_fst_eq_none_iff board piece d, ?_⟩
  intro h
  exact movePiece_snd_of_not_mem board piece d ((movePiece_fst_eq_none_iff board piece d).1 h)

/-- Witness of C1: the white pawn on d5 is refused the empty square e6, and the board stays. -/
theorem movePiece_false_iff_witness :
    (enPassantBoard.movePiece whitePawnD5 ⟨4, 2⟩).2 = enPassantBoard :=
  (movePiece_false_iff enPassantBoard whitePawnD5 ⟨4, 2⟩).2 (by decide)

/-- C2, the code at the claim's input: with a white pawn on d5, a black pawn on e5 and e6
empty, the pawn's valid moves are d6 alone, so `movePiece(white pawn, e6)` returns `false`
and leaves the black pawn on the board. -/
theorem enPassant_is_refused :
    whitePawnD5.getValidMoves enPassantBoard = [⟨3, 2⟩] ∧
      enPassantBoard.movePiece whitePawnD5 ⟨4, 2⟩ = (none, enPassantBoard) ∧
      enPassantBoard.getPieceAt ⟨4, 3⟩ = some blackPawnE5 ∧
      enPassantBoard.getPieceAt ⟨4, 2⟩ = none := by
  decide

/-- C3 as stated fails on a board that is narrower than the layout.  Three valid moves lead
from `new ChessBoard(4, 8)` to a board with the white queen on d7; the first occupied square
to her right is (4, 1), next to her, and holds a black pawn; the queen's moves do not hold
that square, which is off the board. -/
theorem sliding_skips_enemy_off_the_board :
    (narrowStart.movePiece ⟨18, PieceType.peon, Color.blanca, ⟨2, 6⟩, false⟩ ⟨2, 4⟩).1.isSome
      = true ∧
    (narrowAfterPawn.movePiece ⟨27, PieceType.reina, Color.blanca, ⟨3, 7⟩, false⟩
      ⟨0, 4⟩).1.isSome = true ∧
    (narrowAfterQueen.movePiece ⟨27, PieceType.reina, Color.blanca, ⟨0, 4⟩, true⟩
      ⟨3, 1⟩).1.isSome = true ∧
    narrowBoard.getPieceAt ⟨3, 1⟩ = some whiteQueenD7 ∧
    (1, 0) ∈ queenDirections ∧
    whiteQueenD7.ray (1, 0) 1 = ⟨4, 1⟩ ∧
    narrowBoard.getPieceAt (whiteQueenD7.ray (1, 0) 1) = some blackPawnE7 ∧
    blackPawnE7.color ≠ whiteQueenD7.color ∧
    whiteQueenD7.ray (1, 0) 1 ∉ whiteQueenD7.getQueenMoves narrowBoard ∧
    narrowBoard.isWithinBounds (whiteQueenD7.ray (1, 0) 1) = false := by
  decide

/-- C3, amended: let square `k` of the ray of a scan direction be the first occupied square
(the squares before it are empty), held by `q`.  Then the moves of a rook, a bishop and a
queen hold no square of that ray beyond square `k`, and they hold square `k` if and only if
`q` has the other colour and every step from the piece up to square `k` is within bounds. -/
theorem sliding_stops_at_first_occupied (board : ChessBoard) (self : ChessPiece)
    (dir : Int × Int) (k : Nat) (q : ChessPiece) (hk : 1 ≤ k)
    (hfree : ∀ j, 1 ≤ j → j < k → board.getPieceAt (self.ray dir j) = none)
    (hocc : board.getPieceAt (self.ray dir k) = some q) :
    (dir ∈ rookDirections →
      (∀ j, k < j → self.ray dir j ∉ self.getRookMoves board) ∧
      (self.ray dir k ∈ self.getRookMoves board ↔
        q.color ≠ self.color ∧
          ∀ j, 1 ≤ j → j ≤ k → board.isWithinBounds (self.ray dir j) = true)) ∧
    (dir ∈ bishopDirections →
      (∀ j, k < j → self.ray dir j ∉ self.getBishopMoves board) ∧
      (self.ray dir k ∈ self.getBishopMoves board ↔
        q.color ≠ self.color ∧
          ∀ j, 1 ≤ j → j ≤ k → board.isWithinBounds (self.ray dir j) = true)) ∧
    (dir ∈ queenDirections →
      (∀ j, k < j → self.ray dir j ∉ self.getQueenMoves board) ∧
      (self.ray dir k ∈ self.getQueenMoves board ↔
        q.color ≠ self.color ∧
          ∀ j, 1 ≤ j → j ≤ k → board.isWithinBounds (self.ray dir j) = true)) := by
  have key : ∀ {directions : List (Int × Int)}, UnitDirections directions →
      dir ∈ directions →
      (∀ j, k < j → self.ray dir j ∉ (self.getLineMoves board directions).getD []) ∧
      (self.ray dir k ∈ (self.getLineMoves board directions).getD [] ↔
        q.color ≠ self.color ∧
          ∀ j, 1 ≤ j → j ≤ k → board.isWithinBounds (self.ray dir j) = true) := by
    intro directions hdirs hd
    have h := slide_stops self board hdirs hd hk hfree hocc
    refine ⟨h.1, ?_, ?_⟩
    · intro hmem
      have hb := ray_mem_withinBounds self board hdirs hd hk hmem
      exact ⟨(h.2 hb).1 hmem, hb⟩
    · rintro ⟨hc, hb⟩
      exact (h.2 hb).2 hc
  exact ⟨key unitDirections_rook, key unitDirections_bishop, key unitDirections_queen⟩

/-- Witness of C3: the white rook on a1 meets the black pawn on a4 first when it steps up
the file; it may take the pawn and gets no square behind it. -/
theorem sliding_stops_at_first_occupied_witness :
    (whiteRookA1.ray (0, -1) 3 ∈ whiteRookA1.getRookMoves rookBoard) ∧
      (∀ j, 3 < j → whiteRookA1.ray (0, -1) j ∉ whiteRookA1.getRookMoves rookBoard) := by
  have h := (sliding_stops_at_first_occupied rookBoard whiteRookA1 (0, -1) 3 blackPawnA4
    (by decide)
    (by intro j h1 h2; interval_cases j <;> decide)
    (by decide)).1 (by decide)
  exact ⟨h.2.2 ⟨by decide, by intro j h1 h2; interval_cases j <;> decide⟩, h.1⟩

/-- C4: no square returned by `getValidMoves` holds a piece of the mover's colour: `getPieceAt`
finds no piece there or a piece of the other colour, and on a board with one piece per square
no piece of the list with the mover's colour stands there.  So `movePiece` onto a square that
holds a piece of the mover's colour returns `false`, for every piece of the starting position
as well. -/
theorem no_move_onto_own_colour (board : ChessBoard) (piece : ChessPiece) :
    (∀ m ∈ piece.getValidMoves board, ∀ q, board.getPieceAt m = some q →
      q.color ≠ piece.color) ∧
    (board.OnePiecePerSquare → ∀ m ∈ piece.getValidMoves board, ∀ q ∈ board.pieces,
      q.position = m → q.color ≠ piece.color) ∧
    (∀ d q, board.getPieceAt d = some q → q.color = piece.color →
      board.movePiece piece d = (none, board)) ∧
    (∀ p ∈ ChessBoard.default.pieces, ∀ q ∈ ChessBoard.default.pieces, q.color = p.color →
      ChessBoard.default.movePiece p q.position = (none, ChessBoard.default)) := by
  have hfail : ∀ (b : ChessBoard) (p : ChessPiece) (d : ChessPosition) (q : ChessPiece),
      b.getPieceAt d = some q → q.color = p.color → b.movePiece p d = (none, b) := by
    intro b p d q hq hc
    have hnot : d ∉ p.getValidMoves b := fun hm => getValidMoves_target p b hm q hq hc
    exact Prod.ext ((movePiece_fst_eq_none_iff b p d).2 hnot)
      (movePiece_snd_of_not_mem b p d hnot)
  refine ⟨fun m hm => getValidMoves_target piece board hm, ?_, hfail board piece, ?_⟩
  · intro hsq m hm q hq hpos
    refine getValidMoves_target piece board hm q ?_
    rw [← hpos]; exact getPieceAt_of_mem hsq hq
  intro p _ q hq hc
  exact hfail _ p q.position q (getPieceAt_of_mem default_invariants.2.1 hq) hc

/-- Witness of C4: in the starting position the white rook on a1 cannot go to a2, where a
white pawn stands. -/
theorem no_move_onto_own_colour_witness :
    ChessBoard.default.movePiece ⟨24, PieceType.torre, Color.blanca, ⟨0, 7⟩, false⟩ ⟨0, 6⟩ =
      (none, ChessBoard.default) :=
  (no_move_onto_own_colour ChessBoard.default
    ⟨24, PieceType.torre, Color.blanca, ⟨0, 7⟩, false⟩).2.2.1 ⟨0, 6⟩
    ⟨16, PieceType.peon, Color.blanca, ⟨0, 6⟩, false⟩ (by decide) (by decide)

/-- C5: on a board whose list holds no two pieces on one square, `movePiece(piece, d)`,
successful or not, leaves a board whose list holds no two pieces on one square; so this
holds of every board reached from the starting position. -/
theorem movePiece_keeps_one_piece_per_square :
    (∀ (board : ChessBoard) (piece : ChessPiece) (d : ChessPosition),
      board.DistinctObjects → board.OnePiecePerSquare → piece ∈ board.pieces →
      (board.movePiece piece d).2.OnePiecePerSquare) ∧
    (∀ board : ChessBoard, Reachable board → board.OnePiecePerSquare) :=
  ⟨fun board piece d hid hsq _ => movePiece_onePiecePerSquare board piece d hid hsq,
   fun _ h => (reachable_invariants h).2.1⟩

/-- Witness of C5: the rook takes the pawn on a4, and after 1. e4 the starting position has
one piece per square. -/
theorem movePiece_keeps_one_piece_per_square_witness :
    (rookBoard.movePiece whiteRookA1 ⟨0, 4⟩).2.OnePiecePerSquare ∧
      (ChessBoard.default.movePiece whitePawnE2 ⟨4, 4⟩).2.OnePiecePerSquare :=
  ⟨movePiece_keeps_one_piece_per_square.1 rookBoard whiteRookA1 ⟨0, 4⟩
      (by unfold ChessBoard.DistinctObjects; decide)
      (by unfold ChessBoard.OnePiecePerSquare; decide) (by decide),
   movePiece_keeps_one_piece_per_square.2 _ (Reachable.move whitePawnE2 ⟨4, 4⟩ Reachable.start)⟩

/-- C6: on an 8x8 board every square returned by `getValidMoves` is within bounds, for every
piece; so `movePiece` keeps every piece of the list within bounds, and every piece is within
bounds on every board reached from the starting position. -/
theorem pieces_stay_within_bounds :
    (∀ (board : ChessBoard) (piece : ChessPiece), board.width = 8 → board.height = 8 →
      ∀ m ∈ piece.getValidMoves board, board.isWithinBounds m = true) ∧
    (∀ (board : ChessBoard) (piece : ChessPiece) (d : ChessPosition),
      board.width = 8 → board.height = 8 → board.AllWithinBounds →
      (board.movePiece piece d).2.AllWithinBounds) ∧
    (∀ board : ChessBoard, Reachable board → board.AllWithinBounds) :=
  ⟨fun board piece _ hh _ hm => getValidMoves_withinBounds piece board hh hm,
   fun board piece d _ hh hb => movePiece_allWithinBounds board piece d hh hb,
   fun _ h => (reachable_invariants h).2.2.1⟩

/-- Witness of C6: the rook's capture on a4 lands within bounds, and the pieces are within
bounds after 1. e4. -/
theorem pieces_stay_within_bounds_witness :
    rookBoard.isWithinBounds ⟨0, 4⟩ = true ∧
      (rookBoard.movePiece whiteRookA1 ⟨0, 4⟩).2.AllWithinBounds ∧
      (ChessBoard.default.movePiece whitePawnE2 ⟨4, 4⟩).2.AllWithinBounds :=
  ⟨pieces_stay_within_bounds.1 rookBoard whiteRookA1 rfl rfl ⟨0, 4⟩ (by decide),
   pieces_stay_within_bounds.2.1 rookBoard whiteRookA1 ⟨0, 4⟩ rfl rfl
     (by unfold ChessBoard.AllWithinBounds; decide),
   pieces_stay_within_bounds.2.2 _ (Reachable.move whitePawnE2 ⟨4, 4⟩ Reachable.start)⟩

/-- C7: after `initializeBoard()`, from any prior state, the piece list is the starting
layout: 32 pieces, 16 `blanca` and 16 `negra`, none with `hasMoved` set, the back ranks on
ranks 0 (black) and 7 (white), the pawns on ranks 1 (black) and 6 (white), and no two pieces
on one square. -/
theorem initializeBoard_layout (board : ChessBoard) :
    board.initializeBoard.pieces.map (fun p => (p.type, p.color, p.position)) = startingLayout ∧
    board.initializeBoard.pieces.length = 32 ∧
    (board.initializeBoard.pieces.filter (fun p => p.color = Color.blanca)).length = 16 ∧
    (board.initializeBoard.pieces.filter (fun p => p.color = Color.negra)).length = 16 ∧
    board.initializeBoard.pieces.all (fun p => !p.hasMoved) = true ∧
    board.initializeBoard.OnePiecePerSquare := by
  have hs := initializeBoard_states board
  generalize board.initializeBoard = b at hs
  have h1 : b.pieces.map (fun p => (p.type, p.color, p.position)) =
      (b.pieces.map ChessPiece.state).map (fun s => (s.1, s.2.1, s.2.2.1)) := by
    rw [List.map_map]; rfl
  have h2 : b.pieces.length = (b.pieces.map ChessPiece.state).length := by
    rw [List.length_map]
  have h3 : ∀ c : Color, (b.pieces.filter (fun p => p.color = c)).length =
      ((b.pieces.map ChessPiece.state).filter (fun s => decide (s.2.1 = c))).length := by
    intro c; rw [List.filter_map, List.length_map]; rfl
  have h4 : b.pieces.all (fun p => !p.hasMoved) =
      (b.pieces.map ChessPiece.state).all (fun s => !s.2.2.2) := by
    induction b.pieces with
    | nil => rfl
    | cons p l ih => rw [List.map_cons, List.all_cons, List.all_cons, ih]; rfl
  have h5 : b.pieces.map (fun p => p.position) =
      (b.pieces.map ChessPiece.state).map (fun s => s.2.2.1) := by
    rw [List.map_map]; rfl
  unfold ChessBoard.OnePiecePerSquare
  rw [h1, h2, h3, h3, h4, h5, hs]
  decide

/-- C8: on the board of `new ChessBoard()` the white pawn stands on e2, its valid moves hold
e3 and e4, and `movePiece(pawn, e4)` succeeds: the pawn stands on e4 with `hasMoved = true`,
the result has `capturedPiece = null` and `isEnPassant = false`, and the board holds 32
pieces. -/
theorem e2_e4_from_the_start :
    ChessBoard.default.getPieceAt ⟨4, 6⟩ = some whitePawnE2 ∧
    (⟨4, 5⟩ : ChessPosition) ∈ whitePawnE2.getValidMoves ChessBoard.default ∧
    (⟨4, 4⟩ : ChessPosition) ∈ whitePawnE2.getValidMoves ChessBoard.default ∧
    (ChessBoard.default.movePiece whitePawnE2 ⟨4, 4⟩).1 =
      some { piece := { whitePawnE2 with position := ⟨4, 4⟩, hasMoved := true }
             fromPos := ⟨4, 6⟩
             toPos := ⟨4, 4⟩
             capturedPiece := none
             isEnPassant := false } ∧
    (ChessBoard.default.movePiece whitePawnE2 ⟨4, 4⟩).2.getPieceAt ⟨4, 4⟩ =
      some { whitePawnE2 with position := ⟨4, 4⟩, hasMoved := true } ∧
    (ChessBoard.default.movePiece whitePawnE2 ⟨4, 4⟩).2.getPieceAt ⟨4, 6⟩ = none ∧
    (ChessBoard.default.movePiece whitePawnE2 ⟨4, 4⟩).2.pieces.length = 32 := by
  decide

/-- C9: on a board with one piece per square, if `movePiece(p, d)` succeeds for a piece `p` of
the list and a piece `q` stood on `d`, then `q` has the other colour, `q` is no longer in the
list, and the result has `capturedPiece = q`, `isEnPassant = false`, `fromPos` the square `p`
stood on, `toPos = d` and `piece = p`, which now stands on `d`. -/
theorem capture_removes_the_enemy (board : ChessBoard) (p q : ChessPiece) (d : ChessPosition)
    (info : MoveInfo) (hid : board.DistinctObjects) (hsq : board.OnePiecePerSquare)
    (hp : p ∈ board.pieces) (hq : q ∈ board.pieces) (hqd : q.position = d)
    (hmove : (board.movePiece p d).1 = some info) :
    q.color ≠ p.color ∧
    q ∉ (board.movePiece p d).2.pieces ∧
    (∀ r ∈ (board.movePiece p d).2.pieces, r.id ≠ q.id) ∧
    info.capturedPiece = some q ∧
    info.isEnPassant = false ∧
    info.fromPos = p.position ∧
    info.toPos = d ∧
    info.piece.id = p.id ∧
    info.piece = { p with position := d, hasMoved := true } ∧
    info.piece ∈ (board.movePiece p d).2.pieces := by
  obtain ⟨hmem, hinfo, hpieces⟩ := movePiece_some hmove
  have hat : board.getPieceAt d = some q := by
    rw [← hqd]; exact getPieceAt_of_mem hsq hq
  have hcol : q.color ≠ p.color := getValidMoves_target p board hmem q hat
  rw [hat] at hinfo hpieces
  simp only at hpieces
  have hids : ∀ r ∈ (board.movePiece p d).2.pieces, r.id ≠ q.id := by
    intro r hr
    rw [hpieces] at hr
    obtain ⟨r0, hr0, rfl⟩ := List.mem_map.1 hr
    rw [relocate_id]
    simpa using (List.mem_filter.1 hr0).2
  have hpq : p.id ≠ q.id := fun hc => hcol (by rw [eq_of_id_eq hid hp hq hc])
  refine ⟨hcol, fun hc => hids q hc rfl, hids, ?_, ?_, ?_, ?_, ?_, ?_, ?_⟩
  · rw [hinfo]
  · rw [hinfo]
  · rw [hinfo]
  · rw [hinfo]
  · rw [hinfo]
  · rw [hinfo]
  · rw [hinfo, hpieces]
    refine List.mem_map.2 ⟨p, List.mem_filter.2 ⟨hp, by simpa using hpq⟩, ?_⟩
    unfold relocate
    rw [if_pos rfl]

/-- Witness of C9: the white rook on a1 takes the black pawn on a4. -/
theorem capture_removes_the_enemy_witness :
    blackPawnA4.color ≠ whiteRookA1.color ∧
    blackPawnA4 ∉ (rookBoard.movePiece whiteRookA1 ⟨0, 4⟩).2.pieces ∧
    ({ whiteRookA1 with position := ⟨0, 4⟩, hasMoved := true } : ChessPiece) ∈
      (rookBoard.movePiece whiteRookA1 ⟨0, 4⟩).2.pieces := by
  have h := capture_removes_the_enemy rookBoard whiteRookA1 blackPawnA4 ⟨0, 4⟩
    ⟨{ whiteRookA1 with position := ⟨0, 4⟩, hasMoved := true }, ⟨0, 7⟩, ⟨0, 4⟩,
      some blackPawnA4, false⟩
    (by unfold ChessBoard.DistinctObjects; decide)
    (by unfold ChessBoard.OnePiecePerSquare; decide)
    (by decide) (by decide) (by decide) (by decide)
  exact ⟨h.1, h.2.1, h.2.2.2.2.2.2.2.2.2⟩

/-- C10: on every board whose list holds each object once, so on every board with at most one
piece per square, a successful `movePiece(p, d)` of a piece `p` of the list leaves the list it
found, without the captured piece and with `p` on `d` and `hasMoved` set in its place: every
other piece is still there, in the same order, as it was; `p` keeps its kind and colour; and
the list is one shorter when `capturedPiece` is not `null` and as long as before otherwise. -/
theorem successful_move_frame (board : ChessBoard) (p : ChessPiece) (d : ChessPosition)
    (info : MoveInfo) (hid : board.DistinctObjects)
    (hp : p ∈ board.pieces) (hmove : (board.movePiece p d).1 = some info) :
    (board.movePiece p d).2.pieces =
      (board.pieces.filter (fun r => decide (some r ≠ info.capturedPiece))).map
        (fun r => if r = p then { p with position := d, hasMoved := true } else r) ∧
    (∀ r ∈ board.pieces, r ≠ p → some r ≠ info.capturedPiece →
      r ∈ (board.movePiece p d).2.pieces) ∧
    info.piece.type = p.type ∧ info.piece.color = p.color ∧
    (info.capturedPiece ≠ none →
      (board.movePiece p d).2.pieces.length + 1 = board.pieces.length) ∧
    (info.capturedPiece = none →
      (board.movePiece p d).2.pieces.length = board.pieces.length) := by
  obtain ⟨hmem, hinfo, hpieces⟩ := movePiece_some hmove
  have hcap : info.capturedPiece = board.getPieceAt d := by rw [hinfo]
  have hlist : (board.movePiece p d).2.pieces =
      (board.pieces.filter (fun r => decide (some r ≠ info.capturedPiece))).map
        (fun r => if r = p then { p with position := d, hasMoved := true } else r) := by
    rw [hpieces, hcap]
    cases hat : board.getPieceAt d with
    | none =>
      simp only
      rw [List.filter_eq_self.2 (by intro r _; simp)]
      apply List.map_congr_left
      intro r hr
      exact relocate_eq_ite hid hp d hr
    | some c =>
      simp only
      rw [filter_id_eq_filter hid (getPieceAt_some hat).1]
      apply List.map_congr_left
      intro r hr
      exact relocate_eq_ite hid hp d (List.mem_filter.1 hr).1
  refine ⟨hlist, ?_, by rw [hinfo], by rw [hinfo], ?_, ?_⟩
  · intro r hr hrp hrc
    rw [hlist]
    refine List.mem_map.2 ⟨r, List.mem_filter.2 ⟨hr, by simpa using hrc⟩, ?_⟩
    rw [if_neg hrp]
  · intro hne
    rw [hlist, List.length_map, hcap]
    rw [hcap] at hne
    cases hat : board.getPieceAt d with
    | none => exact absurd hat hne
    | some c => exact length_filter_ne hid (getPieceAt_some hat).1
  · intro hnone
    rw [hlist, List.length_map, hnone]
    rw [List.filter_eq_self.2 (by intro r _; simp)]

/-- Witness of C10: after the white rook on a1 has taken the black pawn on a4, the list holds
the rook on a4 and the knight as it was. -/
theorem successful_move_frame_witness :
    (rookBoard.movePiece whiteRookA1 ⟨0, 4⟩).2.pieces =
      [{ whiteRookA1 with position := ⟨0, 4⟩, hasMoved := true }, whiteKnightD1] ∧
    (rookBoard.movePiece whiteRookA1 ⟨0, 4⟩).2.pieces.length + 1 = rookBoard.pieces.length := by
  have h := successful_move_frame rookBoard whiteRookA1 ⟨0, 4⟩
    ⟨{ whiteRookA1 with position := ⟨0, 4⟩, hasMoved := true }, ⟨0, 7⟩, ⟨0, 4⟩,
      some blackPawnA4, false⟩
    (by unfold ChessBoard.DistinctObjects; decide)
    (by decide) (by decide)
  exact ⟨h.1.trans (by decide), h.2.2.2.2.1 (by decide)⟩

/-- C11: after a successful `movePiece(p, d)` the moved piece has `hasMoved = true`; no call of
`movePiece`, successful or failing, on any piece, turns the `hasMoved` flag of a piece of the
list from `true` to `false`; so no sequence of calls does, and a piece that a successful call
has relocated has `hasMoved = true` after every further sequence of calls. -/
theorem hasMoved_is_monotone :
    (∀ (board : ChessBoard) (p : ChessPiece) (d : ChessPosition) (info : MoveInfo),
      (board.movePiece p d).1 = some info →
      info.piece.hasMoved = true ∧
        ∀ r ∈ (board.movePiece p d).2.pieces, r.id = p.id → r.hasMoved = true) ∧
    (∀ (board : ChessBoard) (p : ChessPiece) (d : ChessPosition), board.DistinctObjects →
      ∀ r ∈ board.pieces, ∀ r' ∈ (board.movePiece p d).2.pieces,
        r'.id = r.id → r.hasMoved = true → r'.hasMoved = true) ∧
    (∀ (board : ChessBoard) (calls : List (ChessPiece × ChessPosition)),
      board.DistinctObjects →
      ∀ r ∈ board.pieces, ∀ r' ∈ (board.movePieces calls).pieces,
        r'.id = r.id → r.hasMoved = true → r'.hasMoved = true) ∧
    (∀ (board : ChessBoard) (p : ChessPiece) (d : ChessPosition) (info : MoveInfo)
      (calls : List (ChessPiece × ChessPosition)), board.DistinctObjects →
      (board.movePiece p d).1 = some info →
      ∀ r' ∈ ((board.movePiece p d).2.movePieces calls).pieces,
        r'.id = p.id → r'.hasMoved = true) := by
  refine ⟨fun board p d info h => movePiece_sets_hasMoved h, ?_, ?_, ?_⟩
  · intro board p d hid r hr r' hr' hsame hm
    exact movePiece_hasMoved_mono board p d hid hr hr' hsame hm
  · intro board calls hid r hr r' hr' hsame hm
    exact movePieces_hasMoved_mono calls board hid hr hr' hsame hm
  · intro board p d info calls hid h r' hr' hsame
    have hid1 := movePiece_distinctObjects board p d hid
    obtain ⟨y, hy, hyx⟩ := movePieces_ids_subset calls _ hr'
    have hy1 := (movePiece_sets_hasMoved h).2 y hy (hyx.trans hsame)
    exact movePieces_hasMoved_mono calls _ hid1 hy hr' hyx.symm hy1

/-- Witness of C11: the rook that has taken on a4 has `hasMoved = true`, also after the knight
has moved and a refused call. -/
theorem hasMoved_is_monotone_witness :
    ((rookBoard.movePiece whiteRookA1 ⟨0, 4⟩).2.movePieces
        [(whiteKnightD1, ⟨4, 5⟩), (whiteKnightD1, ⟨0, 0⟩)]).pieces.all
      (fun r => decide (r.id = whiteRookA1.id → r.hasMoved = true)) = true :=
  List.all_eq_true.2 (fun r hr => decide_eq_true
    (hasMoved_is_monotone.2.2.2 rookBoard whiteRookA1 ⟨0, 4⟩
      ⟨{ whiteRookA1 with position := ⟨0, 4⟩, hasMoved := true }, ⟨0, 7⟩, ⟨0, 4⟩,
        some blackPawnA4, false⟩
      [(whiteKnightD1, ⟨4, 5⟩), (whiteKnightD1, ⟨0, 0⟩)]
      (by unfold ChessBoard.DistinctObjects; decide) (by decide) r hr))

/-- C14: on a board of height 8 a pawn that stands on a file of the board gets the square two
ranks forward if and only if it stands on its starting rank (`y = 6 = height − 2` for white,
`y = 1` for black), the square one rank forward is empty and the square two ranks forward is
empty; a pawn off its starting rank, or with the square before it occupied, does not get
it. -/
theorem pawn_double_step_iff (board : ChessBoard) (self : ChessPiece)
    (hh : board.height = 8)
    (hx : 0 ≤ self.position.x ∧ self.position.x < board.width) :
    ((⟨self.position.x, self.position.y + 2 * self.direction⟩ : ChessPosition) ∈
        self.getPawnMoves board ↔
      self.position.y = self.startRow ∧
        board.getPieceAt ⟨self.position.x, self.position.y + self.direction⟩ = none ∧
        board.getPieceAt ⟨self.position.x, self.position.y + 2 * self.direction⟩ = none) ∧
    (self.color = Color.blanca → self.startRow = 6 ∧ self.startRow = board.height - 2 ∧
      self.direction = -1) ∧
    (self.color = Color.negra → self.startRow = 1 ∧ self.direction = 1) ∧
    (self.position.y ≠ self.startRow →
      (⟨self.position.x, self.position.y + 2 * self.direction⟩ : ChessPosition) ∉
        self.getPawnMoves board) ∧
    (board.getPieceAt ⟨self.position.x, self.position.y + self.direction⟩ ≠ none →
      (⟨self.position.x, self.position.y + 2 * self.direction⟩ : ChessPosition) ∉
        self.getPawnMoves board) := by
  have hdir : self.direction = -1 ∨ self.direction = 1 := by
    unfold ChessPiece.direction; split_ifs <;> simp
  have hiff : (⟨self.position.x, self.position.y + 2 * self.direction⟩ : ChessPosition) ∈
        self.getPawnMoves board ↔
      self.position.y = self.startRow ∧
        board.getPieceAt ⟨self.position.x, self.position.y + self.direction⟩ = none ∧
        board.getPieceAt ⟨self.position.x, self.position.y + 2 * self.direction⟩ = none := by
    rw [mem_getPawnMoves_iff]
    constructor
    · rintro (⟨h, _⟩ | ⟨_, _, h1, hs, h2⟩ | ⟨h | h, _⟩)
      · simp only [ChessPosition.mk.injEq, true_and] at h; omega
      · exact ⟨hs, h1, h2⟩
      · simp only [ChessPosition.mk.injEq] at h; omega
      · simp only [ChessPosition.mk.injEq] at h; omega
    · rintro ⟨hs, h1, h2⟩
      refine Or.inr (Or.inl ⟨rfl, ?_, h1, hs, h2⟩)
      rw [isWithinBounds_iff]
      simp only
      have hrow : self.startRow = 6 ∧ self.direction = -1 ∨
          self.startRow = 1 ∧ self.direction = 1 := by
        unfold ChessPiece.startRow ChessPiece.direction; split_ifs <;> simp
      omega
  refine ⟨hiff, ?_, ?_, fun h hm => h (hiff.1 hm).1, fun h hm => h (hiff.1 hm).2.1⟩
  · intro h
    unfold ChessPiece.startRow ChessPiece.direction
    rw [if_pos h, if_pos h, hh]
    exact ⟨rfl, rfl, rfl⟩
  · intro h
    unfold ChessPiece.startRow ChessPiece.direction
    rw [if_neg (by rw [h]; decide), if_neg (by rw [h]; decide)]
    exact ⟨rfl, rfl⟩

/-- Witness of C14: in the starting position the white pawn on e2 gets e4. -/
theorem pawn_double_step_iff_witness :
    (⟨whitePawnE2.position.x, whitePawnE2.position.y + 2 * whitePawnE2.direction⟩ :
      ChessPosition) ∈ whitePawnE2.getPawnMoves ChessBoard.default :=
  (pawn_double_step_iff ChessBoard.default whitePawnE2 rfl (by decide)).1.2 (by decide)

/-- C16: `getPawnMoves` contains a forward-diagonal square `(x ± 1, y + direction)` if and only
if that square is within bounds and holds a piece of the other colour; it contains no
forward-diagonal square that is empty. -/
theorem pawn_diagonal_iff (board : ChessBoard) (self : ChessPiece) (s : ChessPosition)
    (hs : s = ⟨self.position.x - 1, self.position.y + self.direction⟩ ∨
      s = ⟨self.position.x + 1, self.position.y + self.direction⟩) :
    (s ∈ self.getPawnMoves board ↔
      board.isWithinBounds s = true ∧
        ∃ t, board.getPieceAt s = some t ∧ t.color ≠ self.color) ∧
    (board.getPieceAt s = none → s ∉ self.getPawnMoves board) := by
  have hiff : s ∈ self.getPawnMoves board ↔
      board.isWithinBounds s = true ∧
        ∃ t, board.getPieceAt s = some t ∧ t.color ≠ self.color := by
    rw [mem_getPawnMoves_iff]
    constructor
    · rintro (⟨h, _⟩ | ⟨h, _⟩ | ⟨_, h⟩)
      · rcases hs with hs | hs <;> rw [hs] at h <;>
          simp only [ChessPosition.mk.injEq] at h <;> omega
      · rcases hs with hs | hs <;> rw [hs] at h <;>
          simp only [ChessPosition.mk.injEq] at h <;> omega
      · exact h
    · intro h
      exact Or.inr (Or.inr ⟨hs, h⟩)
  refine ⟨hiff, ?_⟩
  intro hnone hm
  obtain ⟨_, t, ht, _⟩ := hiff.1 hm
  rw [hnone] at ht
  exact Option.noConfusion ht

/-- Witness of C16: the white pawn on d5 does not get the empty diagonal square e6. -/
theorem pawn_diagonal_iff_witness :
    decide ((⟨4, 2⟩ : ChessPosition) ∈ whitePawnD5.getPawnMoves enPassantBoard) = false :=
  decide_eq_false
    ((pawn_diagonal_iff enPassantBoard whitePawnD5 ⟨4, 2⟩ (by decide)).2 (by decide))

/-- C15, the code at a board of height 3: on the board of `new ChessBoard(8, 3)` the black pawn
on file 0 of rank 1 has the moves (0, 2) and (0, 3); the square (0, 3), two ranks forward, is
empty but not within bounds, and `movePiece` puts the pawn on it. -/
theorem pawn_double_step_leaves_the_board :
    shortBoard.height = 3 ∧
    shortBoard.getPieceAt ⟨0, 1⟩ = some blackPawnA7 ∧
    blackPawnA7.getPawnMoves shortBoard = [⟨0, 2⟩, ⟨0, 3⟩] ∧
    shortBoard.getPieceAt ⟨0, 3⟩ = none ∧
    shortBoard.isWithinBounds ⟨0, 3⟩ = false ∧
    (shortBoard.movePiece blackPawnA7 ⟨0, 3⟩).1.isSome = true ∧
    (shortBoard.movePiece blackPawnA7 ⟨0, 3⟩).2.getPieceAt ⟨0, 3⟩ =
      some { blackPawnA7 with position := ⟨0, 3⟩, hasMoved := true } := by
  decide

/-- C17: for every square `s` with `0 ≤ x < 8` and `0 ≤ y < 8`, `fromNotation(s.toNotation())`
is `s`; the square (4, 4) is written "e4" and "e4" is read as (4, 4). -/
theorem notation_round_trip (s : ChessPosition) (hx : 0 ≤ s.x ∧ s.x < 8)
    (hy : 0 ≤ s.y ∧ s.y < 8) :
    ChessPosition.fromNotation ( ChessPosition.toNotation s) = some s ∧
    ChessPosition.toNotation ⟨4, 4⟩ = "e4" ∧
    ChessPosition.fromNotation "e4" = some ⟨4, 4⟩ := by
  refine ⟨?_, by decide, by decide⟩
  obtain ⟨x, y⟩ := s
  simp only at hx hy
  obtain ⟨hx0, hx1⟩ := hx
  obtain ⟨hy0, hy1⟩ := hy
  interval_cases x <;> interval_cases y <;> decide

/-- Witness of C17: the square a8, the corner (0, 0), is written and read back. -/
theorem notation_round_trip_witness :
    ChessPosition.fromNotation ( ChessPosition.toNotation ⟨0, 0⟩) = some ⟨0, 0⟩ :=
  (notation_round_trip ⟨0, 0⟩ (by decide) (by decide)).1

/-- C18 as stated fails for a height other than 8: on the board of `new ChessBoard(8, 10)` the
ranks `h − 1 = 9` and `h − 2 = 8` are empty; the white back rank stands on rank 7 and the
white pawns stand on rank 6. -/
theorem layout_ignores_the_height :
    tallBoard.height = 10 ∧
    tallBoard.getPieceAt ⟨0, 9⟩ = none ∧
    tallBoard.getPieceAt ⟨0, 8⟩ = none ∧
    tallBoard.getPieceAt ⟨0, 7⟩ = some ⟨24, PieceType.torre, Color.blanca, ⟨0, 7⟩, false⟩ ∧
    tallBoard.getPieceAt ⟨0, 6⟩ = some ⟨16, PieceType.peon, Color.blanca, ⟨0, 6⟩, false⟩ ∧
    tallBoard.pieces.all (fun p => decide (p.position.y ≠ 9 ∧ p.position.y ≠ 8)) = true := by
  decide

/-- C18, amended: for a board constructed with any width and height, `initializeBoard` places
the pieces of the starting layout: the back ranks on ranks 0 (black) and 7 (white) and the
pawns on ranks 1 (black) and 6 (white), whatever the height; these are the ranks 0, `h − 1`,
1 and `h − 2` when `h = 8`. -/
theorem constructor_layout (width height cellSize : Int) :
    (ChessBoard.constructor width height cellSize).width = width ∧
    (ChessBoard.constructor width height cellSize).height = height ∧
    (ChessBoard.constructor width height cellSize).pieces.map
      (fun p => (p.type, p.color, p.position)) = startingLayout ∧
    (∀ p ∈ (ChessBoard.constructor width height cellSize).pieces,
      (p.type ≠ PieceType.peon → p.color = Color.negra → p.position.y = 0) ∧
      (p.type ≠ PieceType.peon → p.color = Color.blanca → p.position.y = 7) ∧
      (p.type = PieceType.peon → p.color = Color.negra → p.position.y = 1) ∧
      (p.type = PieceType.peon → p.color = Color.blanca → p.position.y = 6)) ∧
    (height = 8 → ∀ p ∈ (ChessBoard.constructor width height cellSize).pieces,
      (p.type ≠ PieceType.peon → p.color = Color.blanca → p.position.y = height - 1) ∧
      (p.type = PieceType.peon → p.color = Color.blanca → p.position.y = height - 2)) := by
  have hs := initializeBoard_states
    { width := width, height := height, cellSize := cellSize, pieces := [],
      selectedPiece := none, validMoves := [], allocated := 0 }
  have hrows : ∀ p ∈ (ChessBoard.constructor width height cellSize).pieces,
      (p.type ≠ PieceType.peon → p.color = Color.negra → p.position.y = 0) ∧
      (p.type ≠ PieceType.peon → p.color = Color.blanca → p.position.y = 7) ∧
      (p.type = PieceType.peon → p.color = Color.negra → p.position.y = 1) ∧
      (p.type = PieceType.peon → p.color = Color.blanca → p.position.y = 6) := by
    intro p hp
    have hmem : p.state ∈ startingLayout.map (fun t => (t.1, t.2.1, t.2.2, false)) := by
      rw [← hs]; exact List.mem_map_of_mem _ hp
    have hall : ∀ t ∈ startingLayout.map (fun t => (t.1, t.2.1, t.2.2, false)),
        (t.1 ≠ PieceType.peon → t.2.1 = Color.negra → t.2.2.1.y = 0) ∧
        (t.1 ≠ PieceType.peon → t.2.1 = Color.blanca → t.2.2.1.y = 7) ∧
        (t.1 = PieceType.peon → t.2.1 = Color.negra → t.2.2.1.y = 1) ∧
        (t.1 = PieceType.peon → t.2.1 = Color.blanca → t.2.2.1.y = 6) := by
      decide
    exact hall _ hmem
  refine ⟨rfl, rfl, ?_, hrows, ?_⟩
  · have h1 : (ChessBoard.constructor width height cellSize).pieces.map
        (fun p => (p.type, p.color, p.position)) =
        ((ChessBoard.constructor width height cellSize).pieces.map ChessPiece.state).map
          (fun s => (s.1, s.2.1, s.2.2.1)) := by
      rw [List.map_map]; rfl
    rw [h1]
    unfold ChessBoard.constructor
    rw [hs]
    decide
  · intro h8 p hp
    obtain ⟨_, h7, _, h6⟩ := hrows p hp
    subst h8
    exact ⟨h7, h6⟩

/-- C19: for pieces of one colour `c` standing on one square `p` of one board, the queen's move
list is the rook's move list followed by the bishop's move list; so a square is a queen's
destination if and only if it is a rook's or a bishop's. -/
theorem queen_is_rook_then_bishop (board : ChessBoard) (c : Color) (p : ChessPosition)
    (queen rook bishop : ChessPiece)
    (hq : queen.color = c ∧ queen.position = p)
    (hr : rook.color = c ∧ rook.position = p)
    (hb : bishop.color = c ∧ bishop.position = p) :
    queen.getQueenMoves board = rook.getRookMoves board ++ bishop.getBishopMoves board ∧
    (∀ s, s ∈ queen.getQueenMoves board ↔
      s ∈ rook.getRookMoves board ∨ s ∈ bishop.getBishopMoves board) := by
  have h1 : rook.getRookMoves board = queen.getRookMoves board := by
    unfold ChessPiece.getRookMoves ChessPiece.getLineMoves
    rw [getLineMovesFuel_congr _ rook queen board (hr.1.trans hq.1.symm)
      (hr.2.trans hq.2.symm)]
  have h2 : bishop.getBishopMoves board = queen.getBishopMoves board := by
    unfold ChessPiece.getBishopMoves ChessPiece.getLineMoves
    rw [getLineMovesFuel_congr _ bishop queen board (hb.1.trans hq.1.symm)
      (hb.2.trans hq.2.symm)]
  have h := getQueenMoves_eq_append queen board
  rw [h1, h2]
  refine ⟨h, fun s => ?_⟩
  rw [h, List.mem_append]

/-- Witness of C19: a queen, a rook and a bishop of white on a1 of `rookBoard`. -/
theorem queen_is_rook_then_bishop_witness :
    ChessPiece.getQueenMoves ⟨9, PieceType.reina, Color.blanca, ⟨0, 7⟩, false⟩ rookBoard =
      whiteRookA1.getRookMoves rookBoard ++
        ChessPiece.getBishopMoves ⟨8, PieceType.alfil, Color.blanca, ⟨0, 7⟩, false⟩ rookBoard :=
  (queen_is_rook_then_bishop rookBoard Color.blanca ⟨0, 7⟩
    ⟨9, PieceType.reina, Color.blanca, ⟨0, 7⟩, false⟩ whiteRookA1
    ⟨8, PieceType.alfil, Color.blanca, ⟨0, 7⟩, false⟩
    ⟨rfl, rfl⟩ ⟨rfl, rfl⟩ ⟨rfl, rfl⟩).1

/-- C20: on every board reached from the 8x8 starting position by calls of `movePiece`, a square
with a coordinate below 0 or from 8 on is not within bounds and holds no piece, and a square
with both coordinates from 0 to 7 is within bounds. -/
theorem out_of_bounds_queries (board : ChessBoard) (h : Reachable board) (s : ChessPosition) :
    ((s.x < 0 ∨ 8 ≤ s.x ∨ s.y < 0 ∨ 8 ≤ s.y) →
      board.isWithinBounds s = false ∧ board.getPieceAt s = none) ∧
    ((0 ≤ s.x ∧ s.x < 8 ∧ 0 ≤ s.y ∧ s.y < 8) → board.isWithinBounds s = true) := by
  obtain ⟨_, _, hb, hw, hh⟩ := reachable_invariants h
  constructor
  · intro hout
    have hfalse : board.isWithinBounds s = false := by
      rw [Bool.eq_false_iff, ne_eq, isWithinBounds_iff, hw, hh]
      omega
    refine ⟨hfalse, ?_⟩
    rw [getPieceAt_none]
    intro p hp hpos
    have := hb p hp
    rw [hpos, hfalse] at this
    exact Bool.noConfusion this
  · intro hin
    rw [isWithinBounds_iff, hw, hh]
    exact hin

/-- Witness of C20: after 1. e4 the square (8, 0) is off the board and holds no piece. -/
theorem out_of_bounds_queries_witness :
    (ChessBoard.default.movePiece whitePawnE2 ⟨4, 4⟩).2.isWithinBounds ⟨8, 0⟩ = false ∧
      (ChessBoard.default.movePiece whitePawnE2 ⟨4, 4⟩).2.getPieceAt ⟨8, 0⟩ = none :=
  (out_of_bounds_queries _ (Reachable.move whitePawnE2 ⟨4, 4⟩ Reachable.start) ⟨8, 0⟩).1
    (by decide)

/-- C23: every successful `movePiece` returns `isEnPassant = false` and, as `capturedPiece`, the
piece that `getPieceAt` finds on the destination: the en-passant branch is not entered, because
a pawn's valid move off its file goes to a square that holds a piece of the other colour, which
the normal capture takes. -/
theorem enPassant_branch_is_dead (board : ChessBoard) (p : ChessPiece) (d : ChessPosition)
    (info : MoveInfo) (h : (board.movePiece p d).1 = some info) :
    info.isEnPassant = false ∧
    info.capturedPiece = board.getPieceAt d ∧
    (p.type = PieceType.peon → d.x ≠ p.position.x →
      ∃ t, board.getPieceAt d = some t ∧ t.color ≠ p.color ∧ info.capturedPiece = some t) := by
  obtain ⟨hmem, hinfo, _⟩ := movePiece_some h
  refine ⟨by rw [hinfo], by rw [hinfo], ?_⟩
  intro hp hx
  have hm : d ∈ p.getPawnMoves board := by
    unfold ChessPiece.getValidMoves at hmem; rw [hp] at hmem; exact hmem
  cases hat : board.getPieceAt d with
  | none => exact absurd (pawn_empty_target_file p board hm hat) hx
  | some t =>
    refine ⟨t, rfl, getValidMoves_target p board hmem t hat, ?_⟩
    rw [hinfo, hat]

/-- Witness of C23: the white pawn on d5 takes the black pawn on e6 by a normal capture. -/
theorem enPassant_branch_is_dead_witness :
    (⟨{ whitePawnD5 with position := ⟨4, 2⟩ }, ⟨3, 3⟩, ⟨4, 2⟩, some blackPawnE6, false⟩ :
        MoveInfo).isEnPassant = false ∧
      some blackPawnE6 = pawnCaptureBoard.getPieceAt ⟨4, 2⟩ :=
  ⟨(enPassant_branch_is_dead pawnCaptureBoard whitePawnD5 ⟨4, 2⟩
      ⟨{ whitePawnD5 with position := ⟨4, 2⟩ }, ⟨3, 3⟩, ⟨4, 2⟩, some blackPawnE6, false⟩
      (by decide)).1,
   (enPassant_branch_is_dead pawnCaptureBoard whitePawnD5 ⟨4, 2⟩
      ⟨{ whitePawnD5 with position := ⟨4, 2⟩ }, ⟨3, 3⟩, ⟨4, 2⟩, some blackPawnE6, false⟩
      (by decide)).2.1⟩

/-- C12 as stated fails from 2^53 on, where the sums of the code are rounded: on a board of
width 8 and height 2^54 the knight on (0, 2^53) gets four squares, and the third, (2, 2^53),
comes from the offset (2, 1), whose sum 2^53 + 1 is rounded to 2^53; it is level with the
knight and is none of the eight offset squares. -/
theorem far_knight_leaves_its_offsets :
    farKnightBoard.getPieceAt farKnight.position = some farKnight ∧
    farKnightBoard.isWithinBounds farKnight.position = true ∧
    Double.getKnightMoves farKnight farKnightBoard =
      [⟨1, 9007199254740994⟩, ⟨1, 9007199254740990⟩, ⟨2, 9007199254740992⟩,
        ⟨2, 9007199254740991⟩] ∧
    ¬ (∃ o ∈ knightOffsets, (⟨2, 9007199254740992⟩ : ChessPosition) =
        ⟨farKnight.position.x + o.1, farKnight.position.y + o.2⟩) := by
  decide

/-- C12, amended: for every board, a knight whose coordinates are of magnitude at most
2^53 − 2 (resp. a king whose coordinates are safe integers, of magnitude below 2^53) gets from
`getKnightMoves` (resp. `getKingMoves`), in the order of the offset list, exactly those of the
eight offset squares that are within bounds and are empty or hold a piece of the other colour:
the result is a sublist of the offset squares, an offset square is in it if and only if it
passes that test, and it has at most 8 squares.  The knight's offsets are the pairs (±1, ±2)
and (±2, ±1), the king's the eight unit steps. -/
theorem double_knight_and_king_moves (board : ChessBoard) (self : ChessPiece) :
    (SafeCoordinate 2 self.position.x ∧ SafeCoordinate 2 self.position.y →
      (Double.getKnightMoves self board).Sublist
        (knightOffsets.map (fun o => (⟨self.position.x + o.1, self.position.y + o.2⟩ :
          ChessPosition))) ∧
      (∀ s, s ∈ Double.getKnightMoves self board ↔
        (∃ o ∈ knightOffsets, s = ⟨self.position.x + o.1, self.position.y + o.2⟩) ∧
          board.isWithinBounds s = true ∧
          (board.getPieceAt s = none ∨
            ∃ t, board.getPieceAt s = some t ∧ t.color ≠ self.color)) ∧
      (Double.getKnightMoves self board).length ≤ 8 ∧
      knightOffsets.length = 8 ∧
      (∀ o : Int × Int, o ∈ knightOffsets ↔
        (o.1.natAbs = 1 ∧ o.2.natAbs = 2) ∨ (o.1.natAbs = 2 ∧ o.2.natAbs = 1))) ∧
    (SafeCoordinate 1 self.position.x ∧ SafeCoordinate 1 self.position.y →
      (Double.getKingMoves self board).Sublist
        (kingOffsets.map (fun o => (⟨self.position.x + o.1, self.position.y + o.2⟩ :
          ChessPosition))) ∧
      (∀ s, s ∈ Double.getKingMoves self board ↔
        (∃ o ∈ kingOffsets, s = ⟨self.position.x + o.1, self.position.y + o.2⟩) ∧
          board.isWithinBounds s = true ∧
          (board.getPieceAt s = none ∨
            ∃ t, board.getPieceAt s = some t ∧ t.color ≠ self.color)) ∧
      (Double.getKingMoves self board).length ≤ 8 ∧
      kingOffsets.length = 8 ∧
      (∀ o : Int × Int, o ∈ kingOffsets ↔
        o.1.natAbs ≤ 1 ∧ o.2.natAbs ≤ 1 ∧ o ≠ (0, 0))) := by
  constructor
  · intro h
    have he : Double.getKnightMoves self board = self.getKnightMoves board :=
      double_offsetMoves_eq self board h.1 h.2 knightOffsets_reach
    rw [he]
    exact (knight_and_king_moves board self).1
  · intro h
    have he : Double.getKingMoves self board = self.getKingMoves board :=
      double_offsetMoves_eq self board h.1 h.2 kingOffsets_reach
    rw [he]
    exact (knight_and_king_moves board self).2

/-- Witness of C12: the white knight on d1 of `rookBoard` gets e3, the square of the offset
(1, -2), which is within bounds and empty. -/
theorem double_knight_and_king_moves_witness :
    (⟨4, 5⟩ : ChessPosition) ∈ Double.getKnightMoves whiteKnightD1 rookBoard :=
  (((double_knight_and_king_moves rookBoard whiteKnightD1).1
      ⟨by unfold SafeCoordinate maxSafe; decide, by unfold SafeCoordinate maxSafe; decide⟩).2.1
    ⟨4, 5⟩).2 (by decide)

/-- C13 as stated fails from 2^53 on: on a board of width 8 and height 2^54 the black pawn on
(1, 2^53) has the white pawn on (0, 2^53) beside it; the code's `y + 1` is `y` there, so the
capture square of the black pawn is the white pawn's square, and `getPawnMoves` returns that
square, which is level with the pawn. -/
theorem far_pawn_captures_beside_it :
    farPawnBoard.getPieceAt farBlackPawn.position = some farBlackPawn ∧
    farPawnBoard.isWithinBounds farBlackPawn.position = true ∧
    farBlackPawn.color = Color.negra ∧
    Double.getPawnMoves farBlackPawn farPawnBoard = [⟨0, 9007199254740992⟩] ∧
    ¬ (farBlackPawn.position.y < (⟨0, 9007199254740992⟩ : ChessPosition).y) := by
  decide

/-- C13, amended: for every board and every pawn whose rank `y` is a safe integer, of magnitude
below 2^53, every square returned by `getPawnMoves` is strictly forward of the pawn: its `y` is
less than the pawn's `y` for a white (`blanca`) pawn and greater for a black pawn. -/
theorem double_pawn_moves_strictly_forward (board : ChessBoard) (self : ChessPiece)
    (hy : SafeCoordinate 1 self.position.y) :
    ∀ m ∈ Double.getPawnMoves self board,
      (self.color = Color.blanca → m.y < self.position.y) ∧
      (self.color = Color.negra → self.position.y < m.y) := by
  intro m hm
  have hd : (self.color = Color.blanca → self.direction = -1) ∧
      (self.color = Color.negra → self.direction = 1) := by
    unfold ChessPiece.direction
    constructor
    · intro h; rw [if_pos h]
    · intro h; rw [if_neg (by rw [h]; decide)]
  have hs : (self.color = Color.blanca → self.startRow = 6) ∧
      (self.color = Color.negra → self.startRow = 1) := by
    unfold ChessPiece.startRow
    constructor
    · intro h; rw [if_pos h]
    · intro h; rw [if_neg (by rw [h]; decide)]
  have hone : ∀ d : Int, -1 ≤ d ∧ d ≤ 1 →
      jsAdd self.position.y d = self.position.y + d := fun d hd => jsAdd_safe hy hd
  rcases double_getPawnMoves_rank self board m hm with h | ⟨hrow, h⟩
  · refine ⟨fun hc => ?_, fun hc => ?_⟩
    · rw [h, hd.1 hc, hone (-1) (by omega)]; omega
    · rw [h, hd.2 hc, hone 1 (by omega)]; omega
  · refine ⟨fun hc => ?_, fun hc => ?_⟩
    · rw [h, hd.1 hc, jsAdd_exact (by rw [hrow, hs.1 hc]; unfold maxSafe; omega)]; omega
    · rw [h, hd.2 hc, jsAdd_exact (by rw [hrow, hs.2 hc]; unfold maxSafe; omega)]; omega

/-- Witness of C13: the two moves of the white pawn on e2 in the starting position go up the
board. -/
theorem double_pawn_moves_strictly_forward_witness :
    ((⟨4, 5⟩ : ChessPosition).y < whitePawnE2.position.y) ∧
      ((⟨4, 4⟩ : ChessPosition).y < whitePawnE2.position.y) :=
  ⟨(double_pawn_moves_strictly_forward ChessBoard.default whitePawnE2
      (by unfold SafeCoordinate maxSafe; decide) ⟨4, 5⟩ (by decide)).1 rfl,
   (double_pawn_moves_strictly_forward ChessBoard.default whitePawnE2
      (by unfold SafeCoordinate maxSafe; decide) ⟨4, 4⟩ (by decide)).1 rfl⟩

/-- C22 as stated fails on a board wider than 2^53: on a board of width 2^53 + 4 and height 8
the white rook on (2^53 − 2, 3) is on the board, and its loop to the right, the direction
(1, 0), walks the empty squares (2^53 − 1, 3) and (2^53, 3); there the code's `x += 1` leaves
`x` at 2^53, a square within bounds and empty, so the loop condition holds at every round and
no `break` is reached: the loop leaves with no fuel. -/
theorem far_rook_loop_never_leaves :
    farRookBoard.getPieceAt farRook.position = some farRook ∧
    farRookBoard.isWithinBounds farRook.position = true ∧
    ((1, 0) : Int × Int) ∈ rookDirections ∧
    jsAdd 9007199254740992 1 = 9007199254740992 ∧
    (∀ fuel, Double.lineLoop farRookBoard farRook.color 1 0 fuel
        (jsAdd farRook.position.x 1) (jsAdd farRook.position.y 0) = none) := by
  refine ⟨by decide, by decide, by decide, by decide, ?_⟩
  have e1 : jsAdd farRook.position.x 1 = 9007199254740991 := by decide
  have e2 : jsAdd farRook.position.y 0 = 3 := by decide
  rw [e1, e2]
  apply double_lineLoop_none_of_next farRookBoard farRook.color (by decide) (by decide)
  have e3 : jsAdd 9007199254740991 1 = 9007199254740992 := by decide
  have e4 : jsAdd 3 0 = 3 := by decide
  rw [e3, e4]
  exact double_lineLoop_stalls farRookBoard farRook.color (by decide) (by decide)
    (by decide) (by decide)

/-- C22, amended: for every board of width and height at most 2^53 and every piece square, the
`while` loop of `getLineMoves` leaves for each rook, bishop and queen direction, with any fuel
from `scanFuel` on and with one result; for a piece within bounds the line has fewer than
`max width height` squares.  So the three generators return. -/
theorem double_lineLoop_terminates (board : ChessBoard) (self : ChessPiece) (dir : Int × Int)
    (hw : board.width ≤ maxSafe) (hh : board.height ≤ maxSafe)
    (hdir : dir ∈ rookDirections ∨ dir ∈ bishopDirections ∨ dir ∈ queenDirections) :
    (∃ line,
      (∀ fuel, board.scanFuel ≤ fuel →
        Double.lineLoop board self.color dir.1 dir.2 fuel
          (jsAdd self.position.x dir.1) (jsAdd self.position.y dir.2) = some line) ∧
      (board.isWithinBounds self.position = true →
        (line.length : Int) < max board.width board.height)) ∧
    (∃ rook bishop queen,
      Double.getRookMoves self board = some rook ∧
      Double.getBishopMoves self board = some bishop ∧
      Double.getQueenMoves self board = some queen ∧
      ∀ fuel, board.scanFuel ≤ fuel →
        Double.getLineMovesFuel fuel self board rookDirections = some rook ∧
        Double.getLineMovesFuel fuel self board bishopDirections = some bishop ∧
        Double.getLineMovesFuel fuel self board queenDirections = some queen) := by
  obtain ⟨⟨line, hline, hlen⟩, hgen⟩ := lineLoop_terminates board self dir hdir
  refine ⟨⟨line, ?_, hlen⟩, self.getRookMoves board, self.getBishopMoves board,
    self.getQueenMoves board, ?_, ?_, ?_, ?_⟩
  · intro fuel hfuel
    rw [double_start_eq board self.color dir.1 dir.2 hw hh]
    exact hline fuel hfuel
  · unfold Double.getRookMoves Double.getLineMoves
    rw [double_getLineMovesFuel_eq _ self board hw hh]
    exact (hgen _ (le_refl _)).1
  · unfold Double.getBishopMoves Double.getLineMoves
    rw [double_getLineMovesFuel_eq _ self board hw hh]
    exact (hgen _ (le_refl _)).2.1
  · unfold Double.getQueenMoves Double.getLineMoves
    rw [double_getLineMovesFuel_eq _ self board hw hh]
    exact (hgen _ (le_refl _)).2.2
  · intro fuel hfuel
    rw [double_getLineMovesFuel_eq _ self board hw hh, double_getLineMovesFuel_eq _ self board hw hh,
      double_getLineMovesFuel_eq _ self board hw hh]
    exact hgen fuel hfuel

/-- Witness of C22: the loop of the white rook on a1 up the file leaves within 9 rounds with
fewer than 8 squares. -/
theorem double_lineLoop_terminates_witness :
    ∃ line, Double.lineLoop rookBoard Color.blanca 0 (-1) 9 (jsAdd 0 0) (jsAdd 7 (-1)) =
        some line ∧
      (line.length : Int) < max rookBoard.width rookBoard.height := by
  obtain ⟨line, hret, hlen⟩ :=
    (double_lineLoop_terminates rookBoard whiteRookA1 (0, -1) (by unfold maxSafe; decide)
      (by unfold maxSafe; decide) (Or.inl (by decide))).1
  exact ⟨line, hret 9 (by decide), hlen (by decide)⟩

/-- C21 as stated fails on a board wider than 2^53: on a board of width 2^53 + 4 and height 8
the white rook on (2^53 − 2, 3), a piece of the list with a white pawn on its left, is scanned
with the four directions of `getRookMoves`.  The loop to the right never leaves, as the code's
`x += 1` stays at 2^53, so `getLineMoves` returns with no fuel: it returns no list, and the
squares above and below the rook are not returned. -/
theorem far_rook_scan_never_returns :
    farRook ∈ farRookBoard.pieces ∧
    farRookBoard.isWithinBounds farRook.position = true ∧
    (∀ fuel, Double.getLineMovesFuel fuel farRook farRookBoard rookDirections = none) ∧
    Double.getLineMoves farRook farRookBoard rookDirections = none ∧
    Double.getValidMoves farRook farRookBoard = none := by
  have hloop : ∀ fuel, Double.lineLoop farRookBoard farRook.color 1 0 fuel
      (jsAdd farRook.position.x 1) (jsAdd farRook.position.y 0) = none := by
    have e1 : jsAdd farRook.position.x 1 = 9007199254740991 := by decide
    have e2 : jsAdd farRook.position.y 0 = 3 := by decide
    rw [e1, e2]
    apply double_lineLoop_none_of_next farRookBoard farRook.color (by decide) (by decide)
    have e3 : jsAdd 9007199254740991 1 = 9007199254740992 := by decide
    have e4 : jsAdd 3 0 = 3 := by decide
    rw [e3, e4]
    exact double_lineLoop_stalls farRookBoard farRook.color (by decide) (by decide)
      (by decide) (by decide)
  have hnever : ∀ fuel, Double.getLineMovesFuel fuel farRook farRookBoard rookDirections = none :=
    fun fuel => double_getLineMovesFuel_none fuel farRook farRookBoard rookDirections (1, 0)
      (by decide) (hloop fuel)
  have hline : Double.getLineMoves farRook farRookBoard rookDirections = none := by
    unfold Double.getLineMoves
    exact hnever _
  have hvalid : Double.getValidMoves farRook farRookBoard = none := by
    unfold Double.getValidMoves
    have ht : farRook.type = PieceType.torre := rfl
    simp only [ht]
    exact hline
  exact ⟨by decide, by decide, hnever, hline, hvalid⟩

/-- C21, amended: for every board of width and height at most 2^53, every piece and every
direction list such that no direction is the step (0, 0), or the piece's own square is
occupied (as it is for every piece of the list) or out of bounds, `getLineMoves` returns, with
any fuel from `scanFuel` on, the lines of the directions one after the other in list order;
the line of a direction is, in order of increasing distance, the `n` consecutive squares next
to the piece that are within bounds and empty, followed by the next square exactly when that
square is within bounds and holds a piece of the other colour; the run ends only at a square
that is occupied or out of bounds. -/
theorem double_getLineMoves_exact (board : ChessBoard) (self : ChessPiece)
    (directions : List (Int × Int))
    (hw : board.width ≤ maxSafe) (hh : board.height ≤ maxSafe)
    (h : (∀ dir ∈ directions, dir ≠ (0, 0)) ∨ board.getPieceAt self.position ≠ none ∨
      board.isWithinBounds self.position = false) :
    ∃ lines, LinesOutcome board self directions lines ∧
      Double.getLineMoves self board directions = some lines.flatten ∧
      (∀ fuel, board.scanFuel ≤ fuel →
        Double.getLineMovesFuel fuel self board directions = some lines.flatten) ∧
      (self ∈ board.pieces → board.getPieceAt self.position ≠ none) := by
  obtain ⟨lines, hlines, hret, hfuel, hself⟩ := getLineMoves_exact board self directions h
  refine ⟨lines, hlines, ?_, ?_, hself⟩
  · rw [double_getLineMoves_eq self board hw hh]
    exact hret
  · intro fuel hle
    rw [double_getLineMovesFuel_eq _ self board hw hh]
    exact hfuel fuel hle

/-- Witness of C21: the white rook on a1 of `rookBoard`, scanned up the file, with the step
(0, 0) and to the right: the squares a2, a3 and the pawn's square a4, nothing for the step
(0, 0), and b1, c1 before the knight. -/
theorem double_getLineMoves_exact_witness :
    ∃ lines, LinesOutcome rookBoard whiteRookA1 [(0, -1), (0, 0), (1, 0)] lines ∧
      lines.flatten = [⟨0, 6⟩, ⟨0, 5⟩, ⟨0, 4⟩, ⟨1, 7⟩, ⟨2, 7⟩] := by
  obtain ⟨lines, hlines, hret, _⟩ := double_getLineMoves_exact rookBoard whiteRookA1
    [(0, -1), (0, 0), (1, 0)] (by unfold maxSafe; decide) (by unfold maxSafe; decide)
    (Or.inr (Or.inl (by decide)))
  have hcalc : Double.getLineMoves whiteRookA1 rookBoard [(0, -1), (0, 0), (1, 0)] =
      some [⟨0, 6⟩, ⟨0, 5⟩, ⟨0, 4⟩, ⟨1, 7⟩, ⟨2, 7⟩] := by decide
  rw [hret] at hcalc
  exact ⟨lines, hlines, Option.some.inj hcalc⟩

/-- C24 as stated fails from 2^53 on: on a board of width 2^54 and height 8 the white king on
(2^53, 3) gets seven squares from `getValidMoves`; the code's `x + 1` is `x` there, so the
offsets (0, -1) and (1, -1) give one square, (2^53, 2), and the offsets (0, 1) and (1, 1) give
(2^53, 4): the list holds each of the two twice. -/
theorem far_king_gets_squares_twice :
    farKingBoard.getPieceAt farKing.position = some farKing ∧
    farKingBoard.isWithinBounds farKing.position = true ∧
    Double.getValidMoves farKing farKingBoard =
      some [⟨9007199254740991, 2⟩, ⟨9007199254740992, 2⟩, ⟨9007199254740992, 2⟩,
        ⟨9007199254740991, 3⟩, ⟨9007199254740991, 4⟩, ⟨9007199254740992, 4⟩,
        ⟨9007199254740992, 4⟩] ∧
    ¬ ([⟨9007199254740991, 2⟩, ⟨9007199254740992, 2⟩, ⟨9007199254740992, 2⟩,
        ⟨9007199254740991, 3⟩, ⟨9007199254740991, 4⟩, ⟨9007199254740992, 4⟩,
        ⟨9007199254740992, 4⟩] : List ChessPosition).Nodup := by
  decide

/-- C24, amended: for every board and every piece within the range where the sums of its
generator are exact (a pawn or a king on safe integers, of magnitude below 2^53; a knight on
coordinates of magnitude at most 2^53 − 2; a rook, bishop or queen on a board of width and
height at most 2^53), `getValidMoves` returns a list that holds no square twice, so its length
is the number of the distinct destinations. -/
theorem double_getValidMoves_nodup (board : ChessBoard) (self : ChessPiece)
    (h : ExactRange board self) :
    ∃ moves, Double.getValidMoves self board = some moves ∧
      moves.Nodup ∧ moves.toFinset.card = moves.length :=
  ⟨self.getValidMoves board, double_getValidMoves_eq board self h,
    (getValidMoves_nodup board self).1, (getValidMoves_nodup board self).2⟩

/-- Witness of C24: the five squares of the white rook on a1 of `rookBoard` are distinct. -/
theorem double_getValidMoves_nodup_witness :
    ∃ moves, Double.getValidMoves whiteRookA1 rookBoard = some moves ∧
      moves.Nodup ∧ moves.toFinset.card = moves.length :=
  double_getValidMoves_nodup rookBoard whiteRookA1
    (show rookBoard.width ≤ maxSafe ∧ rookBoard.height ≤ maxSafe by unfold maxSafe; decide)

end Chess
